import Mathlib

/-!
DoublyLinkedList: a shallow embedding of `src/DoublyLinkedList.h`.

The C++ class keeps raw `Node*` links.  The embedding makes the free store
explicit: a `Heap` is a list of cells, an address is an index into it, the null
pointer is `none`.  A cell that was `delete`d reads as `none`, exactly like an
address that was never allocated, and every dereference of such an address is
reported as `Fault.bad_access` (undefined behaviour in C++).  `new` always
returns the first address past the end of the heap, so it never aliases a live
or a dangling pointer.

Loops of the source (`while (current)`, range-`for`) are functions recursive on
a fuel argument; running out of fuel is `Fault.fuel`, which is distinct from a
normal return and from the two faults of the program.
-/

namespace DoublyLinkedList

/-! ## Data model -/

/-- The ways a call can fail to return normally: the `std::out_of_range`
exception of the source, a dereference of a null, dangling or wild pointer, and
exhaustion of the fuel of a loop of the model. -/
inductive Fault where
  | out_of_range
  | bad_access
  | fuel
deriving DecidableEq

/-- `struct Node`: the element and the two adjacency links. -/
structure Node (α : Type) where
  _data : α
  _prev : Option Nat
  _next : Option Nat
deriving DecidableEq

/-- The free store: cell `a` holds the node living at address `a`, or `none`
once that node has been deleted. -/
abbrev Heap (α : Type) := List (Option (Node α))

/-- The members `_head`, `_tail`, `_size` of a `DoublyLinkedList` object. -/
structure DList where
  _head : Option Nat
  _tail : Option Nat
  _size : Nat
deriving DecidableEq

variable {α : Type}

/-- The node stored at an address, if that address is live. -/
def Heap.get (h : Heap α) (a : Nat) : Option (Node α) :=
  match h[a]? with
  | some c => c
  | none => none

/-- Overwrite the cell at an address. -/
def Heap.put (h : Heap α) (a : Nat) (nd : Node α) : Heap α :=
  h.set a (some nd)

/-- The effect of `delete` on the cell at an address. -/
def Heap.free (h : Heap α) (a : Nat) : Heap α :=
  h.set a none

/-- The effect of `new Node(...)`: a fresh address and the extended heap. -/
def Heap.alloc (h : Heap α) (nd : Node α) : Nat × Heap α :=
  (h.length, h ++ [some nd])

/-- Dereference `p->` for reading. -/
def load (h : Heap α) (a : Nat) : Except Fault (Node α) :=
  match h.get a with
  | some nd => .ok nd
  | none => .error .bad_access

/-- The assignment `a->_next = v`. -/
def setNext (h : Heap α) (a : Nat) (v : Option Nat) : Except Fault (Heap α) :=
  match h.get a with
  | some nd => .ok (h.put a { nd with _next := v })
  | none => .error .bad_access

/-- The assignment `a->_prev = v`. -/
def setPrev (h : Heap α) (a : Nat) (v : Option Nat) : Except Fault (Heap α) :=
  match h.get a with
  | some nd => .ok (h.put a { nd with _prev := v })
  | none => .error .bad_access

/-- The address held by a pointer that the code dereferences: a null pointer
there is a fault. -/
def nonNull (p : Option Nat) : Except Fault Nat :=
  match p with
  | some a => .ok a
  | none => .error .bad_access

/-- Number of values of `std::size_t`. -/
def SIZE_RANGE : Nat := 2 ^ 64

/-- `++_size` on a `std::size_t`. -/
def incSize (s : Nat) : Nat := (s + 1) % SIZE_RANGE

/-- `--_size` on a `std::size_t`. -/
def decSize (s : Nat) : Nat := (s + (SIZE_RANGE - 1)) % SIZE_RANGE

/-- `_size += n` on a `std::size_t`. -/
def addSize (s n : Nat) : Nat := (s + n) % SIZE_RANGE

/-- The default-constructed list. -/
def DList.empty : DList := ⟨none, none, 0⟩

/-! ## Traversal -/

/-- The range-`for` loop over `begin() .. end()`: the elements met by following
`_next` from a position until the null position. -/
def forward (h : Heap α) : Nat → Option Nat → Except Fault (List α)
  | _, none => .ok []
  | 0, some _ => .error .fuel
  | f + 1, some a =>
    match load h a with
    | .error e => .error e
    | .ok nd =>
      match forward h f nd._next with
      | .error e => .error e
      | .ok rest => .ok (nd._data :: rest)

/-- The elements met by following `_prev` from a position until null. -/
def backward (h : Heap α) : Nat → Option Nat → Except Fault (List α)
  | _, none => .ok []
  | 0, some _ => .error .fuel
  | f + 1, some a =>
    match load h a with
    | .error e => .error e
    | .ok nd =>
      match backward h f nd._prev with
      | .error e => .error e
      | .ok rest => .ok (nd._data :: rest)

/-! ## Mutation primitives -/

/-- `emplace_back` (lines 380-392). -/
def emplace_back (h : Heap α) (L : DList) (v : α) : Except Fault (Heap α × DList) :=
  let (nn, h1) := h.alloc ⟨v, L._tail, none⟩
  match (match L._tail with
         | some t => setNext h1 t (some nn)
         | none => .ok h1) with
  | .error e => .error e
  | .ok h2 =>
    let hd := match L._head with
      | some x => some x
      | none => some nn
    .ok (h2, ⟨hd, some nn, incSize L._size⟩)

/-- `emplace_front` (lines 366-378). -/
def emplace_front (h : Heap α) (L : DList) (v : α) : Except Fault (Heap α × DList) :=
  let (nn, h1) := h.alloc ⟨v, none, L._head⟩
  match (match L._head with
         | some x => setPrev h1 x (some nn)
         | none => .ok h1) with
  | .error e => .error e
  | .ok h2 =>
    let tl := match L._tail with
      | some t => some t
      | none => some nn
    .ok (h2, ⟨some nn, tl, incSize L._size⟩)

/-- `push_back` (lines 305-309). -/
def push_back (h : Heap α) (L : DList) (v : α) : Except Fault (Heap α × DList) :=
  emplace_back h L v

/-- `push_front` (lines 311-315). -/
def push_front (h : Heap α) (L : DList) (v : α) : Except Fault (Heap α × DList) :=
  emplace_front h L v

/-- The loop `for (...) push_back(*it)` shared by the initializer-list
constructor, the copy operations and `sort`. -/
def pushAll (h : Heap α) (L : DList) : List α → Except Fault (Heap α × DList)
  | [] => .ok (h, L)
  | v :: vs =>
    match push_back h L v with
    | .error e => .error e
    | .ok (h1, L1) => pushAll h1 L1 vs

/-- The constructor from an initializer list (lines 234-242). -/
def construct (h : Heap α) (init : List α) : Except Fault (Heap α × DList) :=
  pushAll h DList.empty init

/-! ## merge -/

/-- The main loop of `merge` (lines 497-517).  It returns the heap, the
receiver (whose `_head` the loop may reassign) and the final `otherCurrent`. -/
def mergeLoop (le : α → α → Bool) :
    Nat → Heap α → DList → Option Nat → Option Nat →
      Except Fault (Heap α × DList × Option Nat)
  | _, h, A, none, oc => .ok (h, A, oc)
  | _, h, A, some _, none => .ok (h, A, none)
  | 0, _, _, some _, some _ => .error .fuel
  | f + 1, h, A, some c, some o => do
    let cn ← load h c
    let od ← load h o
    if le cn._data od._data then
      mergeLoop le f h A cn._next (some o)
    else
      let nextOther := od._next
      let h1 ← setNext h o (some c)
      let h2 ← setPrev h1 c (some o)
      let A1 : DList := if some c = A._head then { A with _head := some o } else A
      let c2 ← load h2 c
      let h3 ← setPrev h2 o c2._prev
      let c3 ← load h3 c
      let h4 ← (match c3._prev with
        | some p => setNext h3 p (some o)
        | none => pure h3)
      mergeLoop le f h4 A1 (some o) nextOther

/-- `A.merge(B)` for two distinct list objects (lines 488-531); the early
return of the source for `this == &other` concerns one object passed twice. -/
def merge (le : α → α → Bool) (fuel : Nat) (h : Heap α) (A B : DList) :
    Except Fault (Heap α × DList × DList) := do
  let (h1, A1, oc) ← mergeLoop le fuel h A A._head B._head
  let (h2, A2) ← (match oc with
    | some o => do
      let h2 ← (match A1._tail with
        | some t => setNext h1 t (some o)
        | none => pure h1)
      let h3 ← setPrev h2 o A1._tail
      pure (h3, { A1 with _tail := B._tail })
    | none => pure (h1, A1))
  pure (h2, { A2 with _size := addSize A2._size B._size }, DList.empty)

/-- Build two lists one after the other in an empty heap. -/
def twoLists (as bs : List α) : Except Fault (Heap α × DList × DList) := do
  let (h1, A) ← construct [] as
  let (h2, B) ← construct h1 bs
  pure (h2, A, B)

/-! ## splice -/

/-- `A.splice(pos, B)` for two distinct list objects (lines 551-584). -/
def splice (h : Heap α) (A : DList) (pos : Option Nat) (B : DList) :
    Except Fault (Heap α × DList × DList) :=
  if B._size = 0 then .ok (h, A, B)
  else do
    let (h1, A1) ← (match pos with
      | some p => do
        let bh ← nonNull B._head
        let pn ← load h p
        let h1 ← setPrev h bh pn._prev
        let pn1 ← load h1 p
        let (h2, A1) ← (match pn1._prev with
          | some q => do
            let h2 ← setNext h1 q B._head
            pure (h2, A)
          | none => pure (h1, { A with _head := B._head }))
        let h3 ← setPrev h2 p B._tail
        let bt ← nonNull B._tail
        let h4 ← setNext h3 bt (some p)
        pure (h4, A1)
      | none =>
        (match A._tail with
        | some t => do
          let h1 ← setNext h t B._head
          let bh ← nonNull B._head
          let h2 ← setPrev h1 bh A._tail
          pure (h2, { A with _tail := B._tail })
        | none => pure (h, { A with _head := B._head, _tail := B._tail })))
    pure (h1, { A1 with _size := addSize A1._size B._size }, ⟨none, none, 0⟩)

/-! ## reverse -/

/-- The loop of `reverse` (lines 540-546): swap the two links of the current
node, then move to what is now its `_prev`. -/
def reverseLoop : Nat → Heap α → Option Nat → Except Fault (Heap α)
  | _, h, none => .ok h
  | 0, _, some _ => .error .fuel
  | f + 1, h, some c => do
    let nd ← load h c
    let temp := nd._prev
    let h1 ← setPrev h c nd._next
    let h2 ← setNext h1 c temp
    let nd2 ← load h2 c
    reverseLoop f h2 nd2._prev

/-- `reverse` (lines 533-549). -/
def reverse (fuel : Nat) (h : Heap α) (L : DList) : Except Fault (Heap α × DList) :=
  if L._size < 2 then .ok (h, L)
  else do
    let h1 ← reverseLoop fuel h L._head
    pure (h1, { L with _head := L._tail, _tail := L._head })

/-! ## Positions, emplace, insert, erase -/

/-- `Iterator::operator+` (lines 608-615): `while (n-- && it.node) ++it`. -/
def Iterator.add (h : Heap α) : Option Nat → Nat → Except Fault (Option Nat)
  | p, 0 => .ok p
  | none, _ + 1 => .ok none
  | some a, n + 1 => do
    let nd ← load h a
    Iterator.add h nd._next n

/-- `emplace(pos, value)` (lines 394-407); the result carries the returned
position. -/
def emplace (h : Heap α) (L : DList) (pos : Option Nat) (v : α) :
    Except Fault (Heap α × DList × Option Nat) :=
  match pos with
  | none => .error .bad_access
  | some p => do
    let pn ← load h p
    let (nn, h1) := h.alloc ⟨v, pn._prev, some p⟩
    let pn1 ← load h1 p
    let (h2, L1) ← (match pn1._prev with
      | some q => do
        let h2 ← setNext h1 q (some nn)
        pure (h2, L)
      | none => pure (h1, { L with _head := some nn }))
    let h3 ← setPrev h2 p (some nn)
    pure (h3, { L1 with _size := incSize L1._size }, some nn)

/-- `insert(pos, value)` (lines 409-414). -/
def insert (h : Heap α) (L : DList) (pos : Option Nat) (v : α) :
    Except Fault (Heap α × DList × Option Nat) :=
  emplace h L pos v

/-- Lines 423-435 of `erase`: unlink the node at `t`, delete it and decrement
`_size`. -/
def eraseUnlink (h : Heap α) (L : DList) (t : Nat) : Except Fault (Heap α × DList) := do
  let temp ← load h t
  let (h1, L1) ← (match temp._prev with
    | some p => do
      let h1 ← setNext h p temp._next
      pure (h1, L)
    | none => pure (h, { L with _head := temp._next }))
  let temp1 ← load h1 t
  let (h2, L2) ← (match temp1._next with
    | some n => do
      let h2 ← setPrev h1 n temp1._prev
      pure (h2, L1)
    | none => pure (h1, { L1 with _tail := temp1._prev }))
  pure (h2.free t, { L2 with _size := decSize L2._size })

/-- `erase(pos)` (lines 416-437).  The returned position is `temp->_next`, read
on line 436 after `delete temp` on line 434. -/
def erase (h : Heap α) (L : DList) (pos : Option Nat) :
    Except Fault (Heap α × DList × Option Nat) :=
  match pos with
  | none => .error .out_of_range
  | some t => do
    let (h1, L1) ← eraseUnlink h L t
    let temp ← load h1 t
    pure (h1, L1, temp._next)

/-! ## Element access and pops -/

/-- `front()` (lines 273-279). -/
def front (h : Heap α) (L : DList) : Except Fault α :=
  match L._head with
  | none => .error .out_of_range
  | some a => do
    let nd ← load h a
    pure nd._data

/-- `back()` (lines 281-287). -/
def back (h : Heap α) (L : DList) : Except Fault α :=
  match L._tail with
  | none => .error .out_of_range
  | some a => do
    let nd ← load h a
    pure nd._data

/-- `pop_front()` (lines 317-333). -/
def pop_front (h : Heap α) (L : DList) : Except Fault (Heap α × DList) :=
  match L._head with
  | none => .error .out_of_range
  | some t => do
    let temp ← load h t
    let (h1, L1) ← (match temp._next with
      | some n => do
        let h1 ← setPrev h n none
        pure (h1, { L with _head := some n })
      | none => pure (h, { L with _head := none, _tail := none }))
    pure (h1.free t, { L1 with _size := decSize L1._size })

/-- `pop_back()` (lines 335-351). -/
def pop_back (h : Heap α) (L : DList) : Except Fault (Heap α × DList) :=
  match L._tail with
  | none => .error .out_of_range
  | some t => do
    let temp ← load h t
    let (h1, L1) ← (match temp._prev with
      | some p => do
        let h1 ← setNext h p none
        pure (h1, { L with _tail := some p })
      | none => pure (h, { L with _tail := none, _head := none }))
    pure (h1.free t, { L1 with _size := decSize L1._size })

/-- The loop of `clear()` (lines 356-361). -/
def clearLoop : Nat → Heap α → Option Nat → Except Fault (Heap α)
  | _, h, none => .ok h
  | 0, _, some _ => .error .fuel
  | f + 1, h, some a => do
    let nd ← load h a
    clearLoop f (h.free a) nd._next

/-- `clear()` (lines 353-364). -/
def clear (fuel : Nat) (h : Heap α) (L : DList) : Except Fault (Heap α × DList) := do
  let h1 ← clearLoop fuel h L._head
  pure (h1, { L with _head := none, _tail := none, _size := 0 })

/-! ## unique -/

/-- The loop of `unique` (lines 474-485).  After `erase(next)` the variable
`next` keeps its value: the position returned by `erase` is discarded. -/
def uniqueLoop [DecidableEq α] :
    Nat → Heap α → DList → Option Nat → Option Nat → Except Fault (Heap α × DList)
  | _, h, L, _, none => .ok (h, L)
  | 0, _, _, _, some _ => .error .fuel
  | f + 1, h, L, it, some nx => do
    let i ← nonNull it
    let a ← load h i
    let b ← load h nx
    if a._data = b._data then
      let (h1, L1, _) ← erase h L (some nx)
      uniqueLoop f h1 L1 it (some nx)
    else
      uniqueLoop f h L a._next b._next

/-- `unique()` (lines 466-486). -/
def unique [DecidableEq α] (fuel : Nat) (h : Heap α) (L : DList) :
    Except Fault (Heap α × DList) :=
  if L._size < 2 then .ok (h, L)
  else do
    let i ← nonNull L._head
    let hd ← load h i
    uniqueLoop fuel h L L._head hd._next

/-! ## sort -/

/-- `sort(pred)` (lines 449-464).  `std::sort` belongs to the C++ standard
library, not to this repository: it is the parameter `stdSort`, constrained in
the theorems by `StdSortSpec` or instantiated with `std_sort`, the `std::sort`
of libstdc++. -/
def sort (stdSort : (α → α → Bool) → List α → List α) (pred : α → α → Bool)
    (fuel : Nat) (h : Heap α) (L : DList) : Except Fault (Heap α × DList) :=
  if L._size > 1 then do
    let values ← forward h fuel L._head
    let sorted := stdSort pred values
    let (h1, L1) ← clear fuel h L
    pushAll h1 L1 sorted
  else .ok (h, L)

/-- A strict weak ordering, the requirement of `std::sort` on its comparator:
irreflexive, transitive, and with a transitive incomparability relation. -/
def StrictWeak (pred : α → α → Bool) : Prop :=
  (∀ a, pred a a = false) ∧
  (∀ a b c, pred a b = true → pred b c = true → pred a c = true) ∧
  (∀ a b c, pred a b = false → pred b a = false → pred b c = false → pred c b = false →
    pred a c = false ∧ pred c a = false)

/-- Two values that the comparator orders neither way. -/
def equiv (pred : α → α → Bool) (a b : α) : Bool :=
  !pred a b && !pred b a

/-- What the C++ standard promises of `std::sort(first, last, comp)` when
`comp` is a strict weak ordering: the range is rearranged (a permutation) so
that no element is ordered by `comp` before an element that precedes it.  The
relative order of equivalent elements is not part of the promise. -/
def StdSortSpec (stdSort : (α → α → Bool) → List α → List α) : Prop :=
  ∀ pred, StrictWeak pred → ∀ xs,
    (stdSort pred xs).Perm xs ∧ (stdSort pred xs).Pairwise (fun a b => pred b a = false)

/-- Insert a value in front of the first element that is not ordered before
it. -/
def insertSorted (pred : α → α → Bool) (x : α) : List α → List α
  | [] => [x]
  | y :: ys => if pred y x then y :: insertSorted pred x ys else x :: y :: ys

/-- Insertion sort, one function that meets `StdSortSpec`. -/
def insertionSort (pred : α → α → Bool) (xs : List α) : List α :=
  xs.foldr (insertSorted pred) []

/-! ## The `std::sort` of libstdc++

`std::sort` is not code of this repository.  The definitions below follow,
function by function, the implementation of libstdc++ as GCC 12 ships it
(`bits/stl_algo.h`, `bits/stl_heap.h`): an introsort (median-of-three quicksort
down to partitions of at most 16 elements, heap sort when the recursion gets
too deep) followed by an insertion sort.  The vector is a `List`, an iterator
is an index into it, and a range `[first, last)` is a pair of indices.  A loop
is a recursion on a bound; the lemmas `unguarded_partition_up_bound`,
`unguarded_partition_bound`, `push_heap_bound` and `adjust_heap_loop_bound`
show that the bounds used are never the reason a loop stops.  A comparison, an
assignment or a swap that would touch an index outside the vector (undefined
behaviour in C++, not reached under a strict weak ordering) reads as `false`
or leaves the vector unchanged. -/

/-- `comp(i, j)` for two iterators. -/
def compAt (comp : α → α → Bool) (a : List α) (i j : Nat) : Bool :=
  match a[i]?, a[j]? with
  | some x, some y => comp x y
  | _, _ => false

/-- `comp(val, j)` for a value and an iterator (`__val_comp_iter`). -/
def compValAt (comp : α → α → Bool) (a : List α) (val : α) (j : Nat) : Bool :=
  match a[j]? with
  | some y => comp val y
  | none => false

/-- `comp(i, val)` for an iterator and a value (`__iter_comp_val`). -/
def compAtVal (comp : α → α → Bool) (a : List α) (i : Nat) (val : α) : Bool :=
  match a[i]? with
  | some x => comp x val
  | none => false

/-- `*i = *j`. -/
def assignAt (a : List α) (i j : Nat) : List α :=
  match a[j]? with
  | some y => a.set i y
  | none => a

/-- `std::iter_swap(i, j)`. -/
def iter_swap (a : List α) (i j : Nat) : List α :=
  match a[i]?, a[j]? with
  | some x, some y => (a.set i y).set j x
  | _, _ => a

/-- The loop of `__unguarded_linear_insert` (`stl_algo.h` lines 1790-1796):
`while (comp(val, next)) { *last = *next; last = next; --next; }  *last = val`,
as a function of `last`; `next` is `last - 1`.  The loop is unguarded: it relies
on an element before `last` that is not ordered after `val`; at index 0 there
is no `next` and the model stops. -/
def __unguarded_linear_insert_loop (comp : α → α → Bool) (val : α) :
    Nat → List α → List α
  | 0, a => a.set 0 val
  | next + 1, a =>
    if compValAt comp a val next then
      __unguarded_linear_insert_loop comp val next (assignAt a (next + 1) next)
    else a.set (next + 1) val

/-- `__unguarded_linear_insert(last, comp)` (lines 1782-1798). -/
def __unguarded_linear_insert (comp : α → α → Bool) (a : List α) (last : Nat) : List α :=
  match a[last]? with
  | some val => __unguarded_linear_insert_loop comp val last a
  | none => a

/-- `std::move_backward(first, i, i + 1)`: `a[t] = a[t - 1]` for `t` from `i`
down to `first + 1`. -/
def move_backward (first : Nat) : Nat → List α → List α
  | 0, a => a
  | t + 1, a => if first < t + 1 then move_backward first t (assignAt a (t + 1) t) else a

/-- One iteration of the loop of `__insertion_sort` (lines 1810-1821). -/
def __insertion_sort_step (comp : α → α → Bool) (a : List α) (first i : Nat) : List α :=
  if compAt comp a i first then
    match a[i]? with
    | some val => (move_backward first i a).set first val
    | none => a
  else __unguarded_linear_insert comp a i

/-- The loop of `__insertion_sort`: `count` iterations starting at `i`. -/
def __insertion_sort_loop (comp : α → α → Bool) (first : Nat) : Nat → Nat → List α → List α
  | 0, _, a => a
  | count + 1, i, a =>
    __insertion_sort_loop comp first count (i + 1) (__insertion_sort_step comp a first i)

/-- `__insertion_sort(first, last, comp)` (lines 1802-1822). -/
def __insertion_sort (comp : α → α → Bool) (a : List α) (first last : Nat) : List α :=
  if first = last then a
  else __insertion_sort_loop comp first (last - (first + 1)) (first + 1) a

/-- `__unguarded_insertion_sort(first, last, comp)` (lines 1825-1834), as a
loop of `count = last - first` iterations starting at `i = first`. -/
def __unguarded_insertion_sort (comp : α → α → Bool) : Nat → Nat → List α → List α
  | 0, _, a => a
  | count + 1, i, a =>
    __unguarded_insertion_sort comp count (i + 1) (__unguarded_linear_insert comp a i)

/-- `_S_threshold` (line 1840). -/
def _S_threshold : Nat := 16

/-- `__final_insertion_sort(first, last, comp)` (lines 1843-1857). -/
def __final_insertion_sort (comp : α → α → Bool) (a : List α) (first last : Nat) : List α :=
  if last - first > _S_threshold then
    __unguarded_insertion_sort comp (last - (first + _S_threshold)) (first + _S_threshold)
      (__insertion_sort comp a first (first + _S_threshold))
  else __insertion_sort comp a first last

/-- `__move_median_to_first(result, x, y, z, comp)` (lines 82-100). -/
def __move_median_to_first (comp : α → α → Bool) (a : List α) (result x y z : Nat) :
    List α :=
  if compAt comp a x y then
    if compAt comp a y z then iter_swap a result y
    else if compAt comp a x z then iter_swap a result z
    else iter_swap a result x
  else if compAt comp a x z then iter_swap a result x
  else if compAt comp a y z then iter_swap a result z
  else iter_swap a result y

/-- `while (comp(first, pivot)) ++first;` of `__unguarded_partition`. -/
def __unguarded_partition_up (comp : α → α → Bool) (a : List α) (pivot : Nat) :
    Nat → Nat → Nat
  | 0, first => first
  | fuel + 1, first =>
    if compAt comp a first pivot then __unguarded_partition_up comp a pivot fuel (first + 1)
    else first

/-- `while (comp(pivot, last)) --last;` of `__unguarded_partition`. -/
def __unguarded_partition_down (comp : α → α → Bool) (a : List α) (pivot : Nat) : Nat → Nat
  | 0 => 0
  | last + 1 =>
    if compAt comp a pivot (last + 1) then __unguarded_partition_down comp a pivot last
    else last + 1

/-- `__unguarded_partition(first, last, pivot, comp)` (lines 1860-1880); every
iteration but the last moves `first` up, so the length of the vector is fuel
enough. -/
def __unguarded_partition (comp : α → α → Bool) (pivot : Nat) :
    Nat → List α → Nat → Nat → List α × Nat
  | 0, a, first, _ => (a, first)
  | fuel + 1, a, first, last =>
    let first1 := __unguarded_partition_up comp a pivot a.length first
    let last1 := __unguarded_partition_down comp a pivot (last - 1)
    if first1 < last1 then
      __unguarded_partition comp pivot fuel (iter_swap a first1 last1) (first1 + 1) last1
    else (a, first1)

/-- `__unguarded_partition_pivot(first, last, comp)` (lines 1883-1893). -/
def __unguarded_partition_pivot (comp : α → α → Bool) (a : List α) (first last : Nat) :
    List α × Nat :=
  let mid := first + (last - first) / 2
  let a1 := __move_median_to_first comp a first (first + 1) mid (last - 1)
  __unguarded_partition comp first a1.length a1 (first + 1) last

/-- `__push_heap(first, holeIndex, topIndex, value, comp)` (`stl_heap.h` lines
131-144); the hole moves to its parent in every iteration, so `holeIndex` is
fuel enough. -/
def __push_heap (comp : α → α → Bool) (first topIndex : Nat) (value : α) :
    Nat → List α → Nat → List α
  | 0, a, holeIndex => a.set (first + holeIndex) value
  | fuel + 1, a, holeIndex =>
    let parent := (holeIndex - 1) / 2
    if holeIndex > topIndex ∧ compAtVal comp a (first + parent) value then
      __push_heap comp first topIndex value fuel
        (assignAt a (first + holeIndex) (first + parent)) parent
    else a.set (first + holeIndex) value

/-- The loop of `__adjust_heap` (`stl_heap.h` lines 226-234): the hole moves
down to the larger child.  It returns the vector, `holeIndex` and
`secondChild`. -/
def __adjust_heap_loop (comp : α → α → Bool) (first len : Nat) :
    Nat → List α → Nat → Nat → List α × Nat × Nat
  | 0, a, holeIndex, secondChild => (a, holeIndex, secondChild)
  | fuel + 1, a, holeIndex, secondChild =>
    if secondChild < (len - 1) / 2 then
      let c := 2 * (secondChild + 1)
      let c1 := if compAt comp a (first + c) (first + (c - 1)) then c - 1 else c
      __adjust_heap_loop comp first len fuel (assignAt a (first + holeIndex) (first + c1)) c1 c1
    else (a, holeIndex, secondChild)

/-- `__adjust_heap(first, holeIndex, len, value, comp)` (`stl_heap.h` lines
220-247).  The distances are signed in C++: `(len - 2) / 2` is compared only
when `len` is at least 2, where it equals the natural-number value. -/
def __adjust_heap (comp : α → α → Bool) (a : List α) (first holeIndex len : Nat)
    (value : α) : List α :=
  let r := __adjust_heap_loop comp first len len a holeIndex holeIndex
  if len % 2 = 0 ∧ 2 ≤ len ∧ r.2.2 = (len - 2) / 2 then
    let c := 2 * (r.2.2 + 1)
    __push_heap comp first holeIndex value (c - 1)
      (assignAt r.1 (first + r.2.1) (first + (c - 1))) (c - 1)
  else __push_heap comp first holeIndex value r.2.1 r.1 r.2.1

/-- `__pop_heap(first, last, result, comp)` (`stl_heap.h` lines 251-266). -/
def __pop_heap (comp : α → α → Bool) (a : List α) (first last result : Nat) : List α :=
  match a[result]? with
  | some value => __adjust_heap comp (assignAt a result first) first 0 (last - first) value
  | none => a

/-- The loop of `__make_heap` (`stl_heap.h` lines 352-360). -/
def __make_heap_loop (comp : α → α → Bool) (first len : Nat) : Nat → List α → List α
  | 0, a =>
    match a[first]? with
    | some value => __adjust_heap comp a first 0 len value
    | none => a
  | parent + 1, a =>
    match a[first + (parent + 1)]? with
    | some value =>
      __make_heap_loop comp first len parent (__adjust_heap comp a first (parent + 1) len value)
    | none => a

/-- `__make_heap(first, last, comp)` (`stl_heap.h` lines 338-361). -/
def __make_heap (comp : α → α → Bool) (a : List α) (first last : Nat) : List α :=
  if last - first < 2 then a
  else __make_heap_loop comp first (last - first) ((last - first - 2) / 2) a

/-- `__sort_heap(first, last, comp)` (`stl_heap.h` lines 416-425), as a
function of `last - first`. -/
def __sort_heap (comp : α → α → Bool) (first : Nat) : Nat → List α → List α
  | 0, a => a
  | n + 1, a =>
    if n + 1 > 1 then __sort_heap comp first n (__pop_heap comp a first (first + n) (first + n))
    else a

/-- The loop of `__heap_select` (`stl_algo.h` lines 1628-1630): `count`
iterations starting at `i`. -/
def __heap_select_loop (comp : α → α → Bool) (first middle : Nat) :
    Nat → Nat → List α → List α
  | 0, _, a => a
  | count + 1, i, a =>
    __heap_select_loop comp first middle count (i + 1)
      (if compAt comp a i first then __pop_heap comp a first middle i else a)

/-- `__heap_select(first, middle, last, comp)` (`stl_algo.h` lines 1621-1631). -/
def __heap_select (comp : α → α → Bool) (a : List α) (first middle last : Nat) : List α :=
  __heap_select_loop comp first middle (last - middle) middle (__make_heap comp a first middle)

/-- `__partial_sort(first, middle, last, comp)` (`stl_algo.h` lines 1895-1905). -/
def __partial_sort (comp : α → α → Bool) (a : List α) (first middle last : Nat) : List α :=
  __sort_heap comp first (middle - first) (__heap_select comp a first middle last)

/-- `__introsort_loop(first, last, depth_limit, comp)` (`stl_algo.h` lines
1908-1929).  The `while` loop continues with `last = cut` and the decremented
depth limit, which is the call on `(first, cut)` with that limit. -/
def __introsort_loop (comp : α → α → Bool) : Nat → List α → Nat → Nat → List α
  | 0, a, first, last =>
    if last - first > _S_threshold then __partial_sort comp a first last last else a
  | depth + 1, a, first, last =>
    if last - first > _S_threshold then
      let r := __unguarded_partition_pivot comp a first last
      __introsort_loop comp depth (__introsort_loop comp depth r.1 r.2 last) first r.2
    else a

/-- Halving `n` until it is below 2, counting the steps. -/
def __lg_loop : Nat → Nat → Nat
  | 0, _ => 0
  | fuel + 1, n => if n < 2 then 0 else __lg_loop fuel (n / 2) + 1

/-- `std::__lg(n)` (`stl_algobase.h`): the position of the highest set bit of
`n`, computed there from the count of leading zero bits; for a positive `n`
it is the binary logarithm rounded down. -/
def __lg (n : Nat) : Nat := __lg_loop n n

/-- `std::sort(first, last, comp)`, that is `__sort` (`stl_algo.h` lines
1933-1946), on the whole vector. -/
def std_sort (comp : α → α → Bool) (a : List α) : List α :=
  if a.length = 0 then a
  else
    __final_insertion_sort comp
      (__introsort_loop comp (__lg a.length * 2) a 0 a.length) 0 a.length

/-! ### Insertion sort as a function on lists -/

/-- Insertion of `val` into a range that is listed from its end: `val` goes in
front of the first element that `comp` does not order after it. -/
def insertRev (comp : α → α → Bool) (val : α) : List α → List α
  | [] => [val]
  | e :: r => if comp val e then e :: insertRev comp val r else val :: e :: r

/-- Insertion of `val` into a range from its end, the effect of
`__unguarded_linear_insert`. -/
def insertBack (comp : α → α → Bool) (val : α) (l : List α) : List α :=
  (insertRev comp val l.reverse).reverse

/-- The effect of one iteration of `__insertion_sort` on the prefix `pre`
handled so far and the next element `x`. -/
def insertionStep (comp : α → α → Bool) (pre : List α) (x : α) : List α :=
  match pre with
  | [] => [x]
  | p :: _ => if comp x p then x :: pre else insertBack comp x pre

/-! ## operator== -/

/-- First address of a chain, or a default when the chain is empty. -/
def firstOr (ns : List Nat) (d : Option Nat) : Option Nat :=
  match ns with
  | [] => d
  | a :: _ => some a

/-- Last address of a chain, or a default when the chain is empty. -/
def lastOr (ns : List Nat) (d : Option Nat) : Option Nat :=
  match ns with
  | [] => d
  | a :: rest => lastOr rest (some a)

/-- The nodes at addresses `ns` are live and linked to each other in that
order, the first one having `_prev = pv` and the last one `_next = nx`. -/
def Seg (h : Heap α) : Option Nat → List Nat → Option Nat → Prop
  | _, [], _ => True
  | pv, a :: rest, nx =>
    ∃ nd, h.get a = some nd ∧ nd._prev = pv ∧ nd._next = firstOr rest nx ∧
      Seg h (some a) rest nx

/-- The element stored at an address. -/
def dataAt (h : Heap α) (a : Nat) : Option α :=
  match h.get a with
  | some nd => some nd._data
  | none => none

/-- The elements stored at a sequence of addresses. -/
def elems (h : Heap α) (ns : List Nat) : List α :=
  ns.filterMap (dataAt h)

/-- The data-model invariants of section 3 of the specification, for the list
object `L` whose nodes are, in order, at the pairwise distinct addresses `ns`:
`_head`/`_tail` are the first/last node (null iff the list is empty), the
first node has no predecessor and the last no successor, neighbours point at
each other, and `_size` (a `std::size_t`) is the number of nodes. -/
def IsList (h : Heap α) (L : DList) (ns : List Nat) : Prop :=
  ns.Nodup ∧ Seg h none ns none ∧ L._head = firstOr ns none ∧
    L._tail = lastOr ns none ∧ L._size = ns.length ∧ ns.length < SIZE_RANGE

/-- Deciding `Seg` by walking the chain. -/
def Seg.dec (h : Heap α) :
    (pv : Option Nat) → (ns : List Nat) → (nx : Option Nat) → Decidable (Seg h pv ns nx)
  | _, [], _ => isTrue trivial
  | pv, a :: rest, nx =>
    match hg : Heap.get h a with
    | none => isFalse (fun ⟨_, h1, _⟩ => by rw [hg] at h1; cases h1)
    | some nd =>
      if hp : nd._prev = pv then
        if hn : nd._next = firstOr rest nx then
          match Seg.dec h (some a) rest nx with
          | isTrue hs => isTrue ⟨nd, hg, hp, hn, hs⟩
          | isFalse hs => isFalse (fun ⟨_, _, _, _, h4⟩ => hs h4)
        else isFalse (fun ⟨nd1, h1, _, h3, _⟩ => by
          rw [hg] at h1
          cases h1
          exact hn h3)
      else isFalse (fun ⟨nd1, h1, h2, _, _⟩ => by
        rw [hg] at h1
        cases h1
        exact hp h2)

instance (h : Heap α) (pv : Option Nat) (ns : List Nat) (nx : Option Nat) :
    Decidable (Seg h pv ns nx) :=
  Seg.dec h pv ns nx

instance (h : Heap α) (L : DList) (ns : List Nat) : Decidable (IsList h L ns) := by
  unfold IsList
  infer_instance

/-- A node with its two links exchanged. -/
def swapLinks (nd : Node α) : Node α :=
  { nd with _prev := nd._next, _next := nd._prev }

/-- The heap `h'` is `h` with the two links of every node of `ns` exchanged and
every other cell untouched. -/
def SwappedOn (h h' : Heap α) (ns : List Nat) : Prop :=
  h'.length = h.length ∧
    ∀ x, Heap.get h' x = if x ∈ ns then (Heap.get h x).map swapLinks else Heap.get h x

/-! ## Sample data -/

/-- The comparison `<=` on `int`. -/
def leInt (a b : Int) : Bool := decide (a ≤ b)

/-- The comparison `<` on `int`, the default predicate of `sort`. -/
def ltInt (a b : Int) : Bool := decide (a < b)

/-- A predicate that compares only the first component (the key) of a pair and
ignores the second (a tag that tells equal keys apart). -/
def keyLess (a b : Int × Int) : Bool := decide (a.1 < b.1)

/-- A heap holding the list `{1, 3}` at addresses 0, 1 and the list `{2}` at
address 2, as built by `twoLists [1, 3] [2]`. -/
def sampleHeap : Heap Int :=
  [some ⟨1, none, some 1⟩, some ⟨3, some 0, none⟩, some ⟨2, none, none⟩]

/-- The list object `{1, 3}` of `sampleHeap`. -/
def sampleA : DList := ⟨some 0, some 1, 2⟩

/-- The list object `{2}` of `sampleHeap`. -/
def sampleB : DList := ⟨some 2, some 2, 1⟩

/-- Four pairs of a key and a tag; under `keyLess` the first and the third are
equivalent, and so are the second and the fourth. -/
def taggedSample : List (Int × Int) := [(2, 0), (1, 1), (2, 2), (1, 3)]

/-- A heap holding the list `taggedSample` twice, at addresses 0 to 3 and 4 to
7, as built by `twoLists taggedSample taggedSample`. -/
def taggedHeap : Heap (Int × Int) :=
  [some ⟨(2, 0), none, some 1⟩, some ⟨(1, 1), some 0, some 2⟩,
    some ⟨(2, 2), some 1, some 3⟩, some ⟨(1, 3), some 2, none⟩,
    some ⟨(2, 0), none, some 5⟩, some ⟨(1, 1), some 4, some 6⟩,
    some ⟨(2, 2), some 5, some 7⟩, some ⟨(1, 3), some 6, none⟩]

/-- The first list object of `taggedHeap`. -/
def taggedA : DList := ⟨some 0, some 3, 4⟩

/-- Seventeen pairs with the same key 1 and the tags 0 to 16: under `keyLess`
any two of them are equivalent. -/
def tagged17 : List (Int × Int) :=
  [(1, 0), (1, 1), (1, 2), (1, 3), (1, 4), (1, 5), (1, 6), (1, 7), (1, 8), (1, 9), (1, 10),
    (1, 11), (1, 12), (1, 13), (1, 14), (1, 15), (1, 16)]

/-- The list of `main` after line 13: `{3, 9, 9, 1, 22, 89, 99}`, then
`push_back(999)` and `push_front(355)`. -/
def mainUpToPush : Except Fault (Heap Int × DList) := do
  let (h0, L0) ← construct [] [3, 9, 9, 1, 22, 89, 99]
  let (h1, L1) ← push_back h0 L0 999
  push_front h1 L1 355

/-- The list of `main` after line 17: `insert(begin() + 4, 9999)`. -/
def mainUpToInsert : Except Fault (Heap Int × DList) := do
  let (h, L) ← mainUpToPush
  let p ← Iterator.add h L._head 4
  let (h1, L1, _) ← insert h L p 9999
  pure (h1, L1)

/-- The heap and list object that `mainUpToInsert` returns. -/
def mainState : Heap Int × DList :=
  match mainUpToInsert with
  | .ok r => r
  | .error _ => ([], DList.empty)

/-! ## Calls that can throw -/

/-- How a call leaves: it returns a value in some state, it throws
`std::out_of_range` in the state reached at the `throw`, or it runs into
undefined behaviour. -/
inductive Exit (σ β : Type) where
  | returned (s : σ) (v : β)
  | threw (s : σ)
  | undefined

/-- A member function as a state transformer on the heap and the members of
the list object; unlike `Except`, a `throw` keeps the state it happened in. -/
def Prog (α β : Type) : Type := Heap α × DList → Exit (Heap α × DList) β

instance : Monad (Prog α) where
  pure v := fun s => .returned s v
  bind m f := fun s =>
    match m s with
    | .returned s1 v => f v s1
    | .threw s1 => .threw s1
    | .undefined => .undefined

/-- Read `_head`. -/
def Prog.head : Prog α (Option Nat) := fun s => .returned s s.2._head

/-- Read `_tail`. -/
def Prog.tail : Prog α (Option Nat) := fun s => .returned s s.2._tail

/-- Assign `_head`. -/
def Prog.setHead (p : Option Nat) : Prog α Unit :=
  fun s => .returned (s.1, { s.2 with _head := p }) ()

/-- Assign `_tail`. -/
def Prog.setTail (p : Option Nat) : Prog α Unit :=
  fun s => .returned (s.1, { s.2 with _tail := p }) ()

/-- `--_size`. -/
def Prog.decrement : Prog α Unit :=
  fun s => .returned (s.1, { s.2 with _size := decSize s.2._size }) ()

/-- Read the node at an address. -/
def Prog.load (a : Nat) : Prog α (Node α) :=
  fun s =>
    match Heap.get s.1 a with
    | some nd => .returned s nd
    | none => .undefined

/-- `a->_next = v`. -/
def Prog.storeNext (a : Nat) (v : Option Nat) : Prog α Unit :=
  fun s =>
    match Heap.get s.1 a with
    | some nd => .returned (Heap.put s.1 a { nd with _next := v }, s.2) ()
    | none => .undefined

/-- `a->_prev = v`. -/
def Prog.storePrev (a : Nat) (v : Option Nat) : Prog α Unit :=
  fun s =>
    match Heap.get s.1 a with
    | some nd => .returned (Heap.put s.1 a { nd with _prev := v }, s.2) ()
    | none => .undefined

/-- `delete a`. -/
def Prog.release (a : Nat) : Prog α Unit :=
  fun s => .returned (Heap.free s.1 a, s.2) ()

/-- `throw std::out_of_range(...)`. -/
def Prog.throwOutOfRange {β : Type} : Prog α β := fun s => .threw s

/-- `front()` (lines 273-279) as a state transformer. -/
def frontP : Prog α α := do
  let hd ← Prog.head
  match hd with
  | none => Prog.throwOutOfRange
  | some a => do
    let nd ← Prog.load a
    pure nd._data

/-- `back()` (lines 281-287) as a state transformer. -/
def backP : Prog α α := do
  let tl ← Prog.tail
  match tl with
  | none => Prog.throwOutOfRange
  | some a => do
    let nd ← Prog.load a
    pure nd._data

/-- `pop_front()` (lines 317-333) as a state transformer. -/
def pop_frontP : Prog α Unit := do
  let hd ← Prog.head
  match hd with
  | none => Prog.throwOutOfRange
  | some t => do
    let temp ← Prog.load t
    Prog.setHead temp._next
    (match temp._next with
      | some n => Prog.storePrev n none
      | none => Prog.setTail none)
    Prog.release t
    Prog.decrement

/-- `pop_back()` (lines 335-351) as a state transformer. -/
def pop_backP : Prog α Unit := do
  let tl ← Prog.tail
  match tl with
  | none => Prog.throwOutOfRange
  | some t => do
    let temp ← Prog.load t
    Prog.setTail temp._prev
    (match temp._prev with
      | some p => Prog.storeNext p none
      | none => Prog.setHead none)
    Prog.release t
    Prog.decrement

/-- `erase(pos)` (lines 416-437) as a state transformer. -/
def eraseP (pos : Option Nat) : Prog α (Option Nat) :=
  match pos with
  | none => Prog.throwOutOfRange
  | some t => do
    let temp ← Prog.load t
    (match temp._prev with
      | some p => Prog.storeNext p temp._next
      | none => Prog.setHead temp._next)
    let temp1 ← Prog.load t
    (match temp1._next with
      | some n => Prog.storePrev n temp1._prev
      | none => Prog.setTail temp1._prev)
    Prog.release t
    Prog.decrement
    let temp2 ← Prog.load t
    pure temp2._next

/-- Forget the state of a `throw`: the `Except` view of an exit. -/
def Exit.toExcept {σ β : Type} : Exit σ β → Except Fault (σ × β)
  | .returned s v => .ok (s, v)
  | .threw _ => .error .out_of_range
  | .undefined => .error .bad_access

/-! ## Sequences of operations -/

/-- The operations of a call sequence: pushes, pops, and `insert` / `erase` at
the position `begin() + k`. -/
inductive Op (α : Type) where
  | push_front (v : α)
  | push_back (v : α)
  | pop_front
  | pop_back
  | insert (k : Nat) (v : α)
  | erase (k : Nat)

/-- The state a single operation leaves: the member function is called and its
result, if any, is discarded.  `insert` and `erase` are called at the position
`begin() + k`. -/
def applyOp (s : Heap α × DList) : Op α → Except Fault (Heap α × DList)
  | .push_front v => push_front s.1 s.2 v
  | .push_back v => push_back s.1 s.2 v
  | .pop_front => pop_front s.1 s.2
  | .pop_back => pop_back s.1 s.2
  | .insert k v => do
    let p ← Iterator.add s.1 s.2._head k
    let r ← insert s.1 s.2 p v
    pure (r.1, r.2.1)
  | .erase k => do
    let p ← Iterator.add s.1 s.2._head k
    let r ← erase s.1 s.2 p
    pure (r.1, r.2.1)

/-- A sequence of operations, each applied to the state the previous one
left. -/
def runOps (s : Heap α × DList) : List (Op α) → Except Fault (Heap α × DList)
  | [] => .ok s
  | op :: ops =>
    match applyOp s op with
    | .error e => .error e
    | .ok s1 => runOps s1 ops

/-- The precondition of an operation on a list of the given size: pops need an
element, `insert` and `erase` need the position of a node. -/
def Op.valid (size : Nat) : Op α → Prop
  | .push_front _ => True
  | .push_back _ => True
  | .pop_front => 0 < size
  | .pop_back => 0 < size
  | .insert k _ => k < size
  | .erase k => k < size

/-- A sample call sequence without `erase`: `push_back(1)`, `push_front(2)`,
`insert(begin() + 1, 3)`, `pop_front()`, `pop_back()`. -/
def sampleOps : List (Op Int) :=
  [.push_back 1, .push_front 2, .insert 1 3, .pop_front, .pop_back]

/-- The heap that `sampleOps` leaves when started on the empty list: the two
first nodes are deleted, the third holds the remaining element `3`. -/
def sampleOpsHeap : Heap Int := [none, none, some ⟨3, none, none⟩]

/-- The heap and the two list objects that `A.merge(B)` leaves for the sample
lists `A = {1, 3}` and `B = {2}`. -/
def mergedSample : Heap Int × DList × DList :=
  match merge leInt 10 sampleHeap sampleA sampleB with
  | .ok r => r
  | .error _ => ([], DList.empty, DList.empty)

/-- A heap holding the list `{3}` at address 0 and the list `{1, 2}` at
addresses 1, 2, as built by `twoLists [3] [1, 2]`. -/
def loopHeap : Heap Int :=
  [some ⟨3, none, none⟩, some ⟨1, none, some 2⟩, some ⟨2, some 1, none⟩]

/-- The list object `{3}` of `loopHeap`. -/
def loopA : DList := ⟨some 0, some 0, 1⟩

/-- The list object `{1, 2}` of `loopHeap`. -/
def loopB : DList := ⟨some 1, some 2, 2⟩

/-- The heap after the first iteration of the loop of `loopA.merge(loopB)`:
the moved node at address 1 has both links pointing at itself. -/
def loopHeapAfter : Heap Int :=
  [some ⟨3, some 1, none⟩, some ⟨1, some 1, some 1⟩, some ⟨2, some 1, none⟩]

/-- A heap holding only the list `{4, 5}`, as built by `twoLists [] [4, 5]`. -/
def tailHeap : Heap Int := [some ⟨4, none, some 1⟩, some ⟨5, some 0, none⟩]

/-- The list object `{4, 5}` of `tailHeap`. -/
def tailB : DList := ⟨some 0, some 1, 2⟩

/-- The addresses met by following `_next` from a position until null. -/
def nodesFrom (h : Heap α) : Nat → Option Nat → Except Fault (List Nat)
  | _, none => .ok []
  | 0, some _ => .error .fuel
  | f + 1, some a =>
    match load h a with
    | .error e => .error e
    | .ok nd =>
      match nodesFrom h f nd._next with
      | .error e => .error e
      | .ok rest => .ok (a :: rest)

/-- The invariants of section 3 of the specification, as the claims on `merge`
and `splice` list them: `_head` is null iff `_tail` is null iff `_size` is 0;
the head node has no `_prev` and the tail node no `_next`; every node
reachable from `_head` that has a successor is the `_prev` of that successor;
`_size` is the number of nodes reachable from `_head` via `_next`. -/
def Invariants (h : Heap α) (L : DList) : Prop :=
  (L._head = none ↔ L._tail = none) ∧ (L._tail = none ↔ L._size = 0) ∧
  (∀ a, L._head = some a → ∃ nd, Heap.get h a = some nd ∧ nd._prev = none) ∧
  (∀ a, L._tail = some a → ∃ nd, Heap.get h a = some nd ∧ nd._next = none) ∧
  ∃ ns, nodesFrom h L._size L._head = .ok ns ∧ ns.length = L._size ∧
    ∀ a ∈ ns, ∀ nd b, Heap.get h a = some nd → nd._next = some b →
      ∃ nb, Heap.get h b = some nb ∧ nb._prev = some a

/-! ## Facts about the heap -/

theorem Heap.get_of_length_le (h : Heap α) (a : Nat) (ha : h.length ≤ a) :
    Heap.get h a = none := by
  unfold Heap.get
  rw [List.getElem?_eq_none ha]

theorem Heap.lt_of_get (h : Heap α) (a : Nat) (nd : Node α) (hg : Heap.get h a = some nd) :
    a < h.length := by
  by_contra hc
  rw [Heap.get_of_length_le h a (by omega)] at hg
  cases hg

theorem Heap.get_put (h : Heap α) (a b : Nat) (nd : Node α) (ha : a < h.length) :
    Heap.get (Heap.put h a nd) b = if b = a then some nd else Heap.get h b := by
  unfold Heap.get Heap.put
  rw [List.getElem?_set]
  by_cases hab : b = a
  · subst hab
    simp [ha]
  · have hba : ¬ a = b := fun e => hab e.symm
    simp [hab, hba]

theorem Heap.get_free (h : Heap α) (a b : Nat) :
    Heap.get (Heap.free h a) b = if b = a then none else Heap.get h b := by
  unfold Heap.get Heap.free
  rw [List.getElem?_set]
  by_cases hab : b = a
  · subst hab
    by_cases hl : b < h.length <;> simp [hl]
  · have hba : ¬ a = b := fun e => hab e.symm
    simp [hab, hba]

theorem Heap.get_alloc (h : Heap α) (nd : Node α) (b : Nat) :
    Heap.get (Heap.alloc h nd).2 b = if b = h.length then some nd else Heap.get h b := by
  unfold Heap.get Heap.alloc
  by_cases hb : b < h.length
  · have hne : b ≠ h.length := by omega
    simp [List.getElem?_append_left hb, hne]
  · by_cases hbe : b = h.length
    · subst hbe
      simp
    · have hlt : h.length < b := by omega
      have h1 : (h ++ [some nd])[b]? = none := by
        apply List.getElem?_eq_none
        simp
        omega
      have h2 : h[b]? = none := List.getElem?_eq_none (by omega)
      simp [h1, h2, hbe]

theorem Heap.length_put (h : Heap α) (a : Nat) (nd : Node α) :
    (Heap.put h a nd).length = h.length := by
  simp [Heap.put]

theorem Heap.length_free (h : Heap α) (a : Nat) : (Heap.free h a).length = h.length := by
  simp [Heap.free]

theorem Heap.ext_get (h h' : Heap α) (hl : h.length = h'.length)
    (hg : ∀ a, Heap.get h a = Heap.get h' a) : h = h' := by
  apply List.ext_getElem? 
  intro a
  by_cases ha : a < h.length
  · have ha' : a < h'.length := by omega
    have := hg a
    unfold Heap.get at this
    rw [List.getElem?_eq_getElem ha, List.getElem?_eq_getElem ha'] at this
    rw [List.getElem?_eq_getElem ha, List.getElem?_eq_getElem ha']
    simpa using this
  · rw [List.getElem?_eq_none (by omega), List.getElem?_eq_none (by omega)]

theorem load_ok (h : Heap α) (a : Nat) (nd : Node α) (hg : Heap.get h a = some nd) :
    load h a = .ok nd := by
  simp [load, hg]

theorem setNext_ok (h : Heap α) (a : Nat) (nd : Node α) (v : Option Nat)
    (hg : Heap.get h a = some nd) :
    setNext h a v = .ok (Heap.put h a { nd with _next := v }) := by
  simp [setNext, hg]

theorem setPrev_ok (h : Heap α) (a : Nat) (nd : Node α) (v : Option Nat)
    (hg : Heap.get h a = some nd) :
    setPrev h a v = .ok (Heap.put h a { nd with _prev := v }) := by
  simp [setPrev, hg]

theorem bind_ok {ε β γ : Type} (x : β) (f : β → Except ε γ) :
    (Except.ok x >>= f) = f x := rfl

theorem bind_error {ε β γ : Type} (e : ε) (f : β → Except ε γ) :
    ((Except.error e : Except ε β) >>= f) = Except.error e := rfl

theorem pure_ok {ε β : Type} (x : β) : (pure x : Except ε β) = Except.ok x := rfl

/-! ## Facts about chains of nodes -/

theorem firstOr_append (xs ys : List Nat) (d : Option Nat) :
    firstOr (xs ++ ys) d = firstOr xs (firstOr ys d) := by
  cases xs <;> rfl

theorem lastOr_append (xs ys : List Nat) (d : Option Nat) :
    lastOr (xs ++ ys) d = lastOr ys (lastOr xs d) := by
  induction xs generalizing d with
  | nil => rfl
  | cons a xs ih => exact ih (some a)

theorem lastOr_concat (xs : List Nat) (a : Nat) (d : Option Nat) :
    lastOr (xs ++ [a]) d = some a := by
  rw [lastOr_append]
  rfl

theorem firstOr_reverse (xs : List Nat) (d : Option Nat) :
    firstOr xs.reverse d = lastOr xs d := by
  induction xs generalizing d with
  | nil => rfl
  | cons a xs ih =>
    rw [List.reverse_cons, firstOr_append, ih]
    rfl

theorem lastOr_reverse (xs : List Nat) (d : Option Nat) :
    lastOr xs.reverse d = firstOr xs d := by
  cases xs with
  | nil => rfl
  | cons a xs =>
    rw [List.reverse_cons, lastOr_concat]
    rfl

theorem firstOr_eq_none (xs : List Nat) : firstOr xs none = none ↔ xs = [] := by
  cases xs <;> simp [firstOr]

theorem lastOr_some (xs : List Nat) (a : Nat) : ∃ b, lastOr xs (some a) = some b := by
  induction xs generalizing a with
  | nil => exact ⟨a, rfl⟩
  | cons x xs ih => exact ih x

theorem lastOr_eq_none (xs : List Nat) : lastOr xs none = none ↔ xs = [] := by
  cases xs with
  | nil => simp [lastOr]
  | cons a xs =>
    obtain ⟨b, hb⟩ := lastOr_some xs a
    simp [lastOr, hb]

theorem lastOr_mem (xs : List Nat) (d : Option Nat) (b : Nat) (hx : xs ≠ [])
    (hb : lastOr xs d = some b) : b ∈ xs := by
  induction xs generalizing d with
  | nil => exact absurd rfl hx
  | cons a xs ih =>
    cases xs with
    | nil =>
      simp [lastOr] at hb
      simp [hb]
    | cons c cs =>
      have := ih (some a) (by simp) hb
      exact List.mem_cons_of_mem _ this

theorem Seg.congr (h h' : Heap α) (pv : Option Nat) (ns : List Nat) (nx : Option Nat)
    (hg : ∀ a ∈ ns, Heap.get h' a = Heap.get h a) (hs : Seg h pv ns nx) :
    Seg h' pv ns nx := by
  induction ns generalizing pv with
  | nil => trivial
  | cons a rest ih =>
    obtain ⟨nd, h1, h2, h3, h4⟩ := hs
    refine ⟨nd, ?_, h2, h3, ih _ (fun b hb => hg b (List.mem_cons_of_mem _ hb)) h4⟩
    rw [hg a (List.mem_cons_self _ _)]
    exact h1

theorem Seg.append (h : Heap α) (pv : Option Nat) (xs ys : List Nat) (nx : Option Nat) :
    Seg h pv (xs ++ ys) nx ↔ Seg h pv xs (firstOr ys nx) ∧ Seg h (lastOr xs pv) ys nx := by
  induction xs generalizing pv with
  | nil => simp [Seg, lastOr]
  | cons a xs ih =>
    constructor
    · intro hs
      obtain ⟨nd, h1, h2, h3, h4⟩ := (hs : Seg h pv (a :: (xs ++ ys)) nx)
      have h3' : nd._next = firstOr (xs ++ ys) nx := h3
      have h4' : Seg h (some a) (xs ++ ys) nx := h4
      rw [firstOr_append] at h3'
      obtain ⟨h5, h6⟩ := (ih (some a)).1 h4'
      exact ⟨⟨nd, h1, h2, h3', h5⟩, h6⟩
    · rintro ⟨⟨nd, h1, h2, h3, h4⟩, h5⟩
      refine ⟨nd, h1, h2, ?_, (ih (some a)).2 ⟨h4, h5⟩⟩
      show nd._next = firstOr (xs ++ ys) nx
      rw [firstOr_append]
      exact h3

theorem Seg.get_some (h : Heap α) (pv : Option Nat) (ns : List Nat) (nx : Option Nat)
    (hs : Seg h pv ns nx) (a : Nat) (ha : a ∈ ns) : ∃ nd, Heap.get h a = some nd := by
  induction ns generalizing pv with
  | nil => cases ha
  | cons b rest ih =>
    obtain ⟨nd, h1, _, _, h4⟩ := hs
    rcases List.mem_cons.1 ha with e | hm
    · subst e
      exact ⟨nd, h1⟩
    · exact ih _ h4 hm

theorem Seg.lt_length (h : Heap α) (pv : Option Nat) (ns : List Nat) (nx : Option Nat)
    (hs : Seg h pv ns nx) (a : Nat) (ha : a ∈ ns) : a < h.length := by
  obtain ⟨nd, hnd⟩ := Seg.get_some h pv ns nx hs a ha
  exact Heap.lt_of_get h a nd hnd

theorem Seg.put_frame (h : Heap α) (pv : Option Nat) (ns : List Nat) (nx : Option Nat)
    (a : Nat) (nd : Node α) (ha : a ∉ ns) (hl : a < h.length) (hs : Seg h pv ns nx) :
    Seg (Heap.put h a nd) pv ns nx := by
  apply Seg.congr h _ pv ns nx _ hs
  intro b hb
  rw [Heap.get_put h a b nd hl]
  have : b ≠ a := fun e => ha (e ▸ hb)
  simp [this]

theorem Seg.free_frame (h : Heap α) (pv : Option Nat) (ns : List Nat) (nx : Option Nat)
    (a : Nat) (ha : a ∉ ns) (hs : Seg h pv ns nx) :
    Seg (Heap.free h a) pv ns nx := by
  apply Seg.congr h _ pv ns nx _ hs
  intro b hb
  rw [Heap.get_free h a b]
  have : b ≠ a := fun e => ha (e ▸ hb)
  simp [this]

theorem Seg.alloc_frame (h : Heap α) (pv : Option Nat) (ns : List Nat) (nx : Option Nat)
    (nd : Node α) (hs : Seg h pv ns nx) :
    Seg (Heap.alloc h nd).2 pv ns nx := by
  apply Seg.congr h _ pv ns nx _ hs
  intro b hb
  rw [Heap.get_alloc h nd b]
  have : b ≠ h.length := Nat.ne_of_lt (Seg.lt_length h pv ns nx hs b hb)
  simp [this]

theorem Seg.setPrev_first (h : Heap α) (pv : Option Nat) (a : Nat) (rest : List Nat)
    (nx v : Option Nat) (nd : Node α) (ha : a ∉ rest) (hg : Heap.get h a = some nd)
    (hs : Seg h pv (a :: rest) nx) :
    Seg (Heap.put h a { nd with _prev := v }) v (a :: rest) nx := by
  have hl := Heap.lt_of_get h a nd hg
  obtain ⟨nd1, h1, _, h3, h4⟩ := hs
  rw [hg] at h1
  cases h1
  refine ⟨{ nd with _prev := v }, ?_, rfl, h3, Seg.put_frame h _ rest nx a _ ha hl h4⟩
  rw [Heap.get_put h a a _ hl]
  simp

theorem Seg.setNext_last (h : Heap α) (pv : Option Nat) (xs : List Nat) (a : Nat)
    (nx v : Option Nat) (nd : Node α) (ha : a ∉ xs) (hg : Heap.get h a = some nd)
    (hs : Seg h pv (xs ++ [a]) nx) :
    Seg (Heap.put h a { nd with _next := v }) pv (xs ++ [a]) v := by
  have hl := Heap.lt_of_get h a nd hg
  rw [Seg.append] at hs ⊢
  obtain ⟨hs1, nd1, h1, h2, _, _⟩ := hs
  rw [hg] at h1
  cases h1
  refine ⟨Seg.put_frame h pv xs _ a _ ha hl hs1, { nd with _next := v }, ?_, h2, rfl, trivial⟩
  rw [Heap.get_put h a a _ hl]
  simp

/-! ## Facts about the stored elements and the traversals -/

theorem elems_congr (h h' : Heap α) (ns : List Nat)
    (hg : ∀ a ∈ ns, dataAt h' a = dataAt h a) : elems h' ns = elems h ns := by
  induction ns with
  | nil => rfl
  | cons a rest ih =>
    simp only [elems, List.filterMap_cons]
    rw [hg a (List.mem_cons_self _ _)]
    have := ih (fun b hb => hg b (List.mem_cons_of_mem _ hb))
    simp only [elems] at this
    rw [this]

theorem elems_append (h : Heap α) (xs ys : List Nat) :
    elems h (xs ++ ys) = elems h xs ++ elems h ys := by
  simp [elems, List.filterMap_append]

theorem elems_cons (h : Heap α) (a : Nat) (rest : List Nat) (nd : Node α)
    (hg : Heap.get h a = some nd) : elems h (a :: rest) = nd._data :: elems h rest := by
  simp [elems, List.filterMap_cons, dataAt, hg]

theorem dataAt_put (h : Heap α) (a b : Nat) (nd nd' : Node α) (hg : Heap.get h a = some nd)
    (hd : nd'._data = nd._data) : dataAt (Heap.put h a nd') b = dataAt h b := by
  unfold dataAt
  rw [Heap.get_put h a b nd' (Heap.lt_of_get h a nd hg)]
  by_cases hb : b = a
  · subst hb
    simp [hg, hd]
  · simp [hb]

theorem elems_put (h : Heap α) (a : Nat) (nd nd' : Node α) (ns : List Nat)
    (hg : Heap.get h a = some nd) (hd : nd'._data = nd._data) :
    elems (Heap.put h a nd') ns = elems h ns :=
  elems_congr h _ ns (fun b _ => dataAt_put h a b nd nd' hg hd)

theorem elems_length (h : Heap α) (pv : Option Nat) (ns : List Nat) (nx : Option Nat)
    (hs : Seg h pv ns nx) : (elems h ns).length = ns.length := by
  induction ns generalizing pv with
  | nil => rfl
  | cons a rest ih =>
    obtain ⟨nd, h1, _, _, h4⟩ := hs
    rw [elems_cons h a rest nd h1]
    simp [ih _ h4]

theorem forward_of_seg (h : Heap α) (pv : Option Nat) (ns : List Nat) (fuel : Nat)
    (hs : Seg h pv ns none) (hf : ns.length ≤ fuel) :
    forward h fuel (firstOr ns none) = .ok (elems h ns) := by
  induction ns generalizing pv fuel with
  | nil => cases fuel <;> rfl
  | cons a rest ih =>
    obtain ⟨nd, h1, _, h3, h4⟩ := hs
    cases fuel with
    | zero => simp at hf
    | succ f =>
      have hf' : rest.length ≤ f := by simpa using hf
      show forward h (f + 1) (some a) = _
      simp only [forward, load_ok h a nd h1, h3, ih _ f h4 hf', elems_cons h a rest nd h1]

theorem backward_of_seg (h : Heap α) (ns : List Nat) (nx : Option Nat) (fuel : Nat)
    (hs : Seg h none ns nx) (hf : ns.length ≤ fuel) :
    backward h fuel (lastOr ns none) = .ok (elems h ns).reverse := by
  induction ns using List.reverseRecOn generalizing nx fuel with
  | nil => cases fuel <;> rfl
  | append_singleton xs a ih =>
    rw [Seg.append] at hs
    obtain ⟨hs1, nd, h1, h2, _, _⟩ := hs
    cases fuel with
    | zero => simp at hf
    | succ f =>
      have hf' : xs.length ≤ f := by simpa using hf
      have hx := ih _ f hs1 hf'
      have he : elems h [a] = [nd._data] := elems_cons h a [] nd h1
      rw [lastOr_concat, elems_append, he]
      simp only [backward, load_ok h a nd h1, h2, List.reverse_append, List.reverse_cons,
        List.reverse_nil, List.nil_append, List.singleton_append]
      cases xs with
      | nil => cases f <;> rfl
      | cons x xs' =>
        rw [hx]

/-! ## C1: merge -/

/-- C1. The receiver `{1, 3}` and the argument `{2}` are both sorted ascending.
`merge` returns, but the forward traversal of the receiver is still `{1, 3}`:
the element `2` is not reachable, although `_size` is 3 and the argument is
empty.  The merged sequence `{1, 2, 3}` required by the claim is not
produced. -/
theorem merge_drops_inserted_element :
    twoLists [(1 : Int), 3] [2] = .ok (sampleHeap, sampleA, sampleB) ∧
    IsList sampleHeap sampleA [0, 1] ∧ IsList sampleHeap sampleB [2] ∧
    ∃ h' A', merge leInt 10 sampleHeap sampleA sampleB = .ok (h', A', DList.empty) ∧
      forward h' 10 A'._head = .ok [1, 3] ∧ A'._size = 3 :=
  ⟨rfl, by decide, by decide, _, _, rfl, rfl, rfl⟩

/-! ## C2: splice -/

theorem snoc_cases (l : List Nat) (hl : l ≠ []) : ∃ L b, l = L ++ [b] := by
  rcases List.eq_nil_or_concat l with e | ⟨L, b, e⟩
  · exact absurd e hl
  · exact ⟨L, b, by rw [e, List.concat_eq_append]⟩

theorem Seg.head_get (h : Heap α) (pv : Option Nat) (a : Nat) (rest : List Nat)
    (nx : Option Nat) (hs : Seg h pv (a :: rest) nx) :
    ∃ nd, Heap.get h a = some nd ∧ nd._prev = pv ∧ nd._next = firstOr rest nx := by
  obtain ⟨nd, h1, h2, h3, _⟩ := hs
  exact ⟨nd, h1, h2, h3⟩

theorem Seg.last_get (h : Heap α) (pv : Option Nat) (xs : List Nat) (a : Nat)
    (nx : Option Nat) (hs : Seg h pv (xs ++ [a]) nx) :
    ∃ nd, Heap.get h a = some nd ∧ nd._prev = lastOr xs pv ∧ nd._next = nx := by
  rw [Seg.append] at hs
  obtain ⟨_, nd, h1, h2, h3, _⟩ := hs
  exact ⟨nd, h1, h2, h3⟩

theorem splice_at_node (h : Heap α) (A B : DList) (pre : List Nat) (p : Nat)
    (post nsB : List Nat)
    (hA : IsList h A (pre ++ p :: post)) (hB : IsList h B nsB)
    (hdisj : ∀ a ∈ pre ++ p :: post, a ∉ nsB)
    (hsz : (pre ++ p :: post).length + nsB.length < SIZE_RANGE) (hne : nsB ≠ []) :
    ∃ h' A', splice h A (some p) B = .ok (h', A', ⟨none, none, 0⟩) ∧
      IsList h' A' (pre ++ nsB ++ p :: post) ∧ (∀ a, dataAt h' a = dataAt h a) ∧
      A'._size = A._size + B._size := by
  obtain ⟨hndA, hsA, hhA, htA, hzA, _⟩ := hA
  obtain ⟨hndB, hsB, hhB, htB, hzB, _⟩ := hB
  obtain ⟨b0, restB, eB0⟩ := List.exists_cons_of_ne_nil hne
  obtain ⟨initB, bl, eBl⟩ := snoc_cases nsB hne
  have hBsize : B._size ≠ 0 := by
    rw [hzB, eB0]
    simp
  have hBhead : B._head = some b0 := by rw [hhB, eB0]; rfl
  have hBtail : B._tail = some bl := by rw [htB, eBl, lastOr_concat]
  -- separation facts
  have hb0B : b0 ∈ nsB := by rw [eB0]; simp
  have hblB : bl ∈ nsB := by rw [eBl]; simp
  have hpB : p ∉ nsB := hdisj p (by simp)
  have hpreB : ∀ a ∈ pre, a ∉ nsB := fun a ha => hdisj a (by simp [ha])
  have hpostB : ∀ a ∈ post, a ∉ nsB := fun a ha => hdisj a (by simp [ha])
  have hb0pre : b0 ∉ pre := fun hc => hpreB b0 hc hb0B
  have hb0pp : b0 ∉ p :: post := fun hc => hdisj b0 (by simp [List.mem_cons.1 hc]) hb0B
  have hblpre : bl ∉ pre := fun hc => hpreB bl hc hblB
  have hblpp : bl ∉ p :: post := fun hc => hdisj bl (by simp [List.mem_cons.1 hc]) hblB
  have hb0rest : b0 ∉ restB := by
    rw [eB0] at hndB
    exact (List.nodup_cons.1 hndB).1
  have hblinit : bl ∉ initB := by
    rw [eBl] at hndB
    have := List.nodup_append.1 hndB
    intro hc
    exact this.2.2 hc (by simp)
  have hndA' := List.nodup_append.1 hndA
  have hppre : p ∉ pre := fun hc => hndA'.2.2 hc (by simp)
  have hppost : p ∉ post := (List.nodup_cons.1 hndA'.2.1).1
  -- the three segments
  rw [Seg.append] at hsA
  obtain ⟨hpre, hpp⟩ := hsA
  have hpre : Seg h none pre (some p) := hpre
  obtain ⟨pn, hpn, hpnprev, hpnnext⟩ := Seg.head_get h _ p post none hpp
  have hsB0 : Seg h none (b0 :: restB) none := eB0 ▸ hsB
  obtain ⟨bn, hbn, _, _⟩ := Seg.head_get h _ b0 restB none hsB0
  -- step 1: other._head->_prev = pos.node->_prev
  have e1 := setPrev_ok h b0 bn pn._prev hbn
  have hl0 := Heap.lt_of_get h b0 bn hbn
  have S1B : Seg (Heap.put h b0 { bn with _prev := pn._prev }) (lastOr pre none) nsB none := by
    rw [eB0, ← hpnprev]
    exact Seg.setPrev_first h none b0 restB none _ bn hb0rest hbn hsB0
  have S1pre := Seg.put_frame h none pre (some p) b0 { bn with _prev := pn._prev } hb0pre hl0 hpre
  have S1pp := Seg.put_frame h _ (p :: post) none b0 { bn with _prev := pn._prev } hb0pp hl0 hpp
  have D1 : ∀ a, dataAt (Heap.put h b0 { bn with _prev := pn._prev }) a = dataAt h a :=
    fun a => dataAt_put h b0 a bn _ hbn rfl
  generalize Heap.put h b0 { bn with _prev := pn._prev } = h1 at e1 S1B S1pre S1pp D1
  obtain ⟨pn1, hpn1, hpn1prev, _⟩ := Seg.head_get h1 _ p post none S1pp
  -- step 2: link the predecessor of pos, or move _head
  have step2 : ∃ h2 A1, (match pn1._prev with
      | some q => (do
        let h2 ← setNext h1 q B._head
        pure (h2, A) : Except Fault (Heap α × DList))
      | none => pure (h1, { A with _head := B._head })) = .ok (h2, A1) ∧
      Seg h2 none pre (some b0) ∧ Seg h2 (lastOr pre none) nsB none ∧
      Seg h2 (lastOr pre none) (p :: post) none ∧ (∀ a, dataAt h2 a = dataAt h1 a) ∧
      A1._head = firstOr pre (some b0) ∧ A1._tail = A._tail ∧ A1._size = A._size := by
    by_cases hpe : pre = []
    · subst hpe
      have : pn1._prev = none := hpn1prev
      rw [this]
      exact ⟨h1, _, rfl, trivial, S1B, S1pp, fun _ => rfl, hBhead, rfl, rfl⟩
    · obtain ⟨ipre, q, eq⟩ := snoc_cases pre hpe
      subst eq
      have hq : pn1._prev = some q := by rw [hpn1prev, lastOr_concat]
      obtain ⟨qn, hqn, _, _⟩ := Seg.last_get h1 _ ipre q _ S1pre
      have hlq := Heap.lt_of_get h1 q qn hqn
      have hqi : q ∉ ipre := by
        have := List.nodup_append.1 hndA'.1
        intro hc
        exact this.2.2 hc (by simp)
      have hqB : q ∉ nsB := hpreB q (by simp)
      have hqpp : q ∉ p :: post := by
        intro hc
        exact hndA'.2.2 (by simp) hc
      rw [hq]
      refine ⟨Heap.put h1 q { qn with _next := some b0 }, A, ?_, ?_, ?_, ?_, ?_, ?_, rfl, rfl⟩
      · simp only [setNext_ok h1 q qn _ hqn, hBhead, bind_ok, pure_ok]
      · exact Seg.setNext_last h1 none ipre q _ (some b0) qn hqi hqn S1pre
      · exact Seg.put_frame h1 _ nsB none q _ hqB hlq S1B
      · exact Seg.put_frame h1 _ (p :: post) none q _ hqpp hlq S1pp
      · exact fun a => dataAt_put h1 q a qn _ hqn rfl
      · rw [hhA, firstOr_append, firstOr_append]
        cases ipre <;> rfl
  obtain ⟨h2, A1, e2, S2pre, S2B, S2pp, D2, hA1h, hA1t, hA1s⟩ := step2
  -- step 3: pos.node->_prev = other._tail
  obtain ⟨pn2, hpn2, _, _⟩ := Seg.head_get h2 _ p post none S2pp
  have hl2 := Heap.lt_of_get h2 p pn2 hpn2
  have e3 := setPrev_ok h2 p pn2 (some bl) hpn2
  have S3pp := Seg.setPrev_first h2 _ p post none (some bl) pn2 hppost hpn2 S2pp
  have S3pre := Seg.put_frame h2 none pre (some b0) p { pn2 with _prev := some bl } hppre hl2 S2pre
  have S3B := Seg.put_frame h2 _ nsB none p { pn2 with _prev := some bl } hpB hl2 S2B
  have D3 : ∀ a, dataAt (Heap.put h2 p { pn2 with _prev := some bl }) a = dataAt h2 a :=
    fun a => dataAt_put h2 p a pn2 _ hpn2 rfl
  generalize Heap.put h2 p { pn2 with _prev := some bl } = h3 at e3 S3pp S3pre S3B D3
  -- step 4: other._tail->_next = pos.node
  rw [eBl] at S3B
  obtain ⟨bln, hbln, _, _⟩ := Seg.last_get h3 _ initB bl _ S3B
  have hl3 := Heap.lt_of_get h3 bl bln hbln
  have e4 := setNext_ok h3 bl bln (some p) hbln
  have S4B := Seg.setNext_last h3 _ initB bl none (some p) bln hblinit hbln S3B
  have S4pre := Seg.put_frame h3 none pre (some b0) bl { bln with _next := some p } hblpre hl3 S3pre
  have S4pp := Seg.put_frame h3 _ (p :: post) none bl { bln with _next := some p } hblpp hl3 S3pp
  have D4 : ∀ a, dataAt (Heap.put h3 bl { bln with _next := some p }) a = dataAt h3 a :=
    fun a => dataAt_put h3 bl a bln _ hbln rfl
  generalize Heap.put h3 bl { bln with _next := some p } = h4 at e4 S4B S4pre S4pp D4
  rw [← eBl] at S4B
  have hlen : (pre ++ nsB ++ p :: post).length = (pre ++ p :: post).length + nsB.length := by
    simp only [List.length_append, List.length_cons]
    omega
  have hsum : addSize A1._size B._size = A._size + B._size := by
    rw [hA1s, hzA, hzB]
    exact Nat.mod_eq_of_lt hsz
  refine ⟨h4, { A1 with _size := addSize A1._size B._size }, ?_, ?_, ?_, hsum⟩
  · simp only [hBhead, bind_ok, pure_ok] at e2
    simp only [splice, hBsize, if_false, hBhead, hBtail, nonNull, load_ok h p pn hpn, e1,
      load_ok h1 p pn1 hpn1, e2, e3, e4, bind_ok, pure_ok]
  · refine ⟨?_, ?_, ?_, ?_, ?_, ?_⟩
    · rw [List.append_assoc]
      rw [List.nodup_append] at hndA ⊢
      refine ⟨hndA.1, ?_, ?_⟩
      · rw [List.nodup_append]
        refine ⟨hndB, hndA.2.1, ?_⟩
        intro a ha hb
        exact hdisj a (List.mem_append_right _ hb) ha
      · intro a ha hb
        rcases List.mem_append.1 hb with hb | hb
        · exact hpreB a ha hb
        · exact hndA.2.2 ha hb
    · rw [Seg.append, Seg.append]
      refine ⟨⟨?_, ?_⟩, ?_⟩
      · have : firstOr nsB (firstOr (p :: post) none) = some b0 := by rw [eB0]; rfl
        rw [this]
        exact S4pre
      · exact S4B
      · have : lastOr (pre ++ nsB) none = some bl := by rw [lastOr_append, eBl, lastOr_concat]
        rw [this]
        exact S4pp
    · show A1._head = _
      rw [hA1h, List.append_assoc, firstOr_append, firstOr_append, eB0]
      rfl
    · show A1._tail = _
      rw [hA1t, htA, lastOr_append, lastOr_append]
      rfl
    · show addSize A1._size B._size = _
      rw [hsum, hlen, hzA, hzB]
    · rw [hlen]
      exact hsz
  · intro a
    rw [D4, D3, D2, D1]

theorem splice_at_end (h : Heap α) (A B : DList) (nsA nsB : List Nat)
    (hA : IsList h A nsA) (hB : IsList h B nsB)
    (hdisj : ∀ a ∈ nsA, a ∉ nsB)
    (hsz : nsA.length + nsB.length < SIZE_RANGE) (hne : nsB ≠ []) :
    ∃ h' A', splice h A none B = .ok (h', A', ⟨none, none, 0⟩) ∧
      IsList h' A' (nsA ++ nsB) ∧ (∀ a, dataAt h' a = dataAt h a) ∧
      A'._size = A._size + B._size := by
  obtain ⟨hndA, hsA, hhA, htA, hzA, _⟩ := hA
  obtain ⟨hndB, hsB, hhB, htB, hzB, _⟩ := hB
  obtain ⟨b0, restB, eB0⟩ := List.exists_cons_of_ne_nil hne
  have hBsize : B._size ≠ 0 := by
    rw [hzB, eB0]
    simp
  have hBhead : B._head = some b0 := by rw [hhB, eB0]; rfl
  have hb0B : b0 ∈ nsB := by rw [eB0]; simp
  have hb0rest : b0 ∉ restB := by
    rw [eB0] at hndB
    exact (List.nodup_cons.1 hndB).1
  have hsum : addSize A._size B._size = A._size + B._size := by
    rw [hzA, hzB]
    exact Nat.mod_eq_of_lt hsz
  have hnd : (nsA ++ nsB).Nodup := by
    rw [List.nodup_append]
    exact ⟨hndA, hndB, fun a ha hb => hdisj a ha hb⟩
  by_cases hAe : nsA = []
  · subst hAe
    have hAt : A._tail = none := htA
    refine ⟨h, { _head := B._head, _tail := B._tail, _size := addSize A._size B._size }, ?_,
      ?_, fun _ => rfl, hsum⟩
    · simp only [splice, hBsize, if_false, hAt, bind_ok, pure_ok]
    · refine ⟨hnd, ?_, hhB, htB, ?_, ?_⟩
      · exact hsB
      · show addSize A._size B._size = _
        rw [hsum, hzA, hzB]
        simp
      · simpa using hsz
  · obtain ⟨initA, t, eA⟩ := snoc_cases nsA hAe
    subst eA
    have hAt : A._tail = some t := by rw [htA, lastOr_concat]
    have hti : t ∉ initA := by
      have := List.nodup_append.1 hndA
      intro hc
      exact this.2.2 hc (by simp)
    have htB' : t ∉ nsB := hdisj t (by simp)
    have hb0A : b0 ∉ initA ++ [t] := fun hc => hdisj b0 hc hb0B
    obtain ⟨tn, htn, _, _⟩ := Seg.last_get h _ initA t _ hsA
    have hlt := Heap.lt_of_get h t tn htn
    -- _tail->_next = other._head
    have e1 := setNext_ok h t tn (some b0) htn
    have S1A := Seg.setNext_last h none initA t none (some b0) tn hti htn hsA
    have S1B := Seg.put_frame h none nsB none t { tn with _next := some b0 } htB' hlt hsB
    have D1 : ∀ a, dataAt (Heap.put h t { tn with _next := some b0 }) a = dataAt h a :=
      fun a => dataAt_put h t a tn _ htn rfl
    generalize Heap.put h t { tn with _next := some b0 } = h1 at e1 S1A S1B D1
    -- other._head->_prev = _tail
    rw [eB0] at S1B
    obtain ⟨bn, hbn, _, _⟩ := Seg.head_get h1 _ b0 restB none S1B
    have hl1 := Heap.lt_of_get h1 b0 bn hbn
    have e2 := setPrev_ok h1 b0 bn (some t) hbn
    have S2B := Seg.setPrev_first h1 none b0 restB none (some t) bn hb0rest hbn S1B
    have S2A := Seg.put_frame h1 none (initA ++ [t]) (some b0) b0 { bn with _prev := some t }
      hb0A hl1 S1A
    have D2 : ∀ a, dataAt (Heap.put h1 b0 { bn with _prev := some t }) a = dataAt h1 a :=
      fun a => dataAt_put h1 b0 a bn _ hbn rfl
    generalize Heap.put h1 b0 { bn with _prev := some t } = h2 at e2 S2B S2A D2
    rw [← eB0] at S2B
    refine ⟨h2, { _head := A._head, _tail := B._tail, _size := addSize A._size B._size }, ?_,
      ?_, ?_, hsum⟩
    · simp only [splice, hBsize, if_false, hAt, hBhead, nonNull, e1, e2, bind_ok, pure_ok]
    · refine ⟨hnd, ?_, ?_, ?_, ?_, ?_⟩
      · rw [Seg.append]
        refine ⟨?_, ?_⟩
        · have : firstOr nsB none = some b0 := by rw [eB0]; rfl
          rw [this]
          exact S2A
        · rw [lastOr_concat]
          exact S2B
      · show A._head = _
        rw [hhA, firstOr_append, firstOr_append, firstOr_append]
        cases initA <;> rfl
      · show B._tail = _
        rw [htB, lastOr_append, eB0]
        rfl
      · show addSize A._size B._size = _
        rw [hsum, hzA, hzB]
        exact (List.length_append _ _).symm
      · have := List.length_append (initA ++ [t]) nsB
        omega
    · intro a
      rw [D2, D1]

theorem elems_take (h : Heap α) (pv : Option Nat) (ns : List Nat) (nx : Option Nat)
    (hs : Seg h pv ns nx) (k : Nat) : elems h (ns.take k) = (elems h ns).take k := by
  induction ns generalizing pv k with
  | nil => simp [elems]
  | cons a rest ih =>
    obtain ⟨nd, h1, _, _, h4⟩ := hs
    cases k with
    | zero => simp [elems]
    | succ k =>
      rw [List.take_succ_cons, elems_cons h a _ nd h1, elems_cons h a rest nd h1,
        List.take_succ_cons, ih _ h4 k]

theorem elems_drop (h : Heap α) (pv : Option Nat) (ns : List Nat) (nx : Option Nat)
    (hs : Seg h pv ns nx) (k : Nat) : elems h (ns.drop k) = (elems h ns).drop k := by
  induction ns generalizing pv k with
  | nil => simp [elems]
  | cons a rest ih =>
    obtain ⟨nd, h1, _, _, h4⟩ := hs
    cases k with
    | zero => simp
    | succ k =>
      rw [List.drop_succ_cons, elems_cons h a rest nd h1, List.drop_succ_cons, ih _ h4 k]

theorem elems_eq_of_dataAt (h h' : Heap α) (ns : List Nat)
    (hd : ∀ a, dataAt h' a = dataAt h a) : elems h' ns = elems h ns :=
  elems_congr h h' ns (fun a _ => hd a)

theorem IsList.forward (h : Heap α) (L : DList) (ns : List Nat) (fuel : Nat)
    (hL : IsList h L ns) (hf : ns.length ≤ fuel) :
    forward h fuel L._head = .ok (elems h ns) := by
  obtain ⟨_, hs, hh, _, _, _⟩ := hL
  rw [hh]
  exact forward_of_seg h none ns fuel hs hf

theorem IsList.backward (h : Heap α) (L : DList) (ns : List Nat) (fuel : Nat)
    (hL : IsList h L ns) (hf : ns.length ≤ fuel) :
    backward h fuel L._tail = .ok (elems h ns).reverse := by
  obtain ⟨_, hs, _, ht, _, _⟩ := hL
  rw [ht]
  exact backward_of_seg h ns none fuel hs hf

/-- C2. `A.splice(p, B)` on well-formed lists `A` and `B` that share no node,
with `p` the node of `A` at index `k` or the end sentinel (`k = len(A)`), and
with the total count representable in `std::size_t`: the call returns, the
forward traversal of `A` becomes `A[0..k) ++ B ++ A[k..)`, the size of `A`
becomes the sum of the two sizes, `B` is left with null head, null tail and
size 0, `A` is well formed again, and nothing changes when `B` is empty. -/
theorem splice_spec (h : Heap α) (A B : DList) (nsA nsB : List Nat) (k : Nat)
    (hA : IsList h A nsA) (hB : IsList h B nsB) (hdisj : ∀ a ∈ nsA, a ∉ nsB)
    (hk : k ≤ nsA.length) (hsz : nsA.length + nsB.length < SIZE_RANGE) :
    ∃ h' A' B', splice h A nsA[k]? B = .ok (h', A', B') ∧
      IsList h' A' (nsA.take k ++ nsB ++ nsA.drop k) ∧
      (∀ fuel as bs, nsA.length + nsB.length ≤ fuel →
        forward h fuel A._head = .ok as → forward h fuel B._head = .ok bs →
        forward h' fuel A'._head = .ok (as.take k ++ bs ++ as.drop k)) ∧
      A'._size = A._size + B._size ∧
      B' = ⟨none, none, 0⟩ ∧
      (nsB = [] → h' = h ∧ A' = A ∧ B' = B) := by
  have hsA := hA.2.1
  have key : ∀ h' A', IsList h' A' (nsA.take k ++ nsB ++ nsA.drop k) →
      (∀ a, dataAt h' a = dataAt h a) →
      ∀ fuel as bs, nsA.length + nsB.length ≤ fuel →
        forward h fuel A._head = .ok as → forward h fuel B._head = .ok bs →
        forward h' fuel A'._head = .ok (as.take k ++ bs ++ as.drop k) := by
    intro h' A' hL hd fuel as bs hf has hbs
    rw [IsList.forward h A nsA fuel hA (by omega)] at has
    rw [IsList.forward h B nsB fuel hB (by omega)] at hbs
    cases has
    cases hbs
    rw [IsList.forward h' A' _ fuel hL, elems_eq_of_dataAt h h' _ hd, elems_append, elems_append,
      elems_take h none nsA none hsA, elems_drop h none nsA none hsA]
    have := List.length_take_le k nsA
    simp only [List.length_append, List.length_take, List.length_drop]
    omega
  by_cases hne : nsB = []
  · subst hne
    have hB0 : B = ⟨none, none, 0⟩ := by
      obtain ⟨_, _, hh, ht, hz, _⟩ := hB
      cases B
      simp only [firstOr, lastOr, List.length_nil] at hh ht hz
      simp [hh, ht, hz]
    have hL : IsList h A (nsA.take k ++ [] ++ nsA.drop k) := by
      simpa using hA
    refine ⟨h, A, B, ?_, hL, key h A hL (fun _ => rfl), ?_, hB0, fun _ => ⟨rfl, rfl, rfl⟩⟩
    · simp [splice, hB0]
    · simp [hB0]
  · rcases Nat.lt_or_ge k nsA.length with hlt | hge
    · have hdec : nsA = nsA.take k ++ nsA[k] :: nsA.drop (k + 1) := by
        rw [← List.drop_eq_getElem_cons hlt, List.take_append_drop]
      have hdrop : nsA.drop k = nsA[k] :: nsA.drop (k + 1) := List.drop_eq_getElem_cons hlt
      obtain ⟨h', A', hrun, hL, hd, hz⟩ := splice_at_node h A B (nsA.take k) nsA[k]
        (nsA.drop (k + 1)) nsB (hdec ▸ hA) hB (hdec ▸ hdisj) (by rw [← hdec]; exact hsz) hne
      rw [← hdrop] at hL
      refine ⟨h', A', _, ?_, hL, key h' A' hL hd, hz, rfl, fun e => absurd e hne⟩
      rw [List.getElem?_eq_getElem hlt]
      exact hrun
    · have hkeq : k = nsA.length := by omega
      subst hkeq
      obtain ⟨h', A', hrun, hL, hd, hz⟩ := splice_at_end h A B nsA nsB hA hB hdisj hsz hne
      have hL' : IsList h' A' (nsA.take nsA.length ++ nsB ++ nsA.drop nsA.length) := by
        simpa using hL
      refine ⟨h', A', _, ?_, hL', key h' A' hL' hd, hz, rfl, fun e => absurd e hne⟩
      rw [List.getElem?_eq_none (Nat.le_refl _)]
      exact hrun

theorem splice_spec_witness :
    ∃ h' A' B', splice sampleHeap sampleA (some 1) sampleB = .ok (h', A', B') ∧
      forward h' 3 A'._head = .ok [1, 2, 3] ∧ A'._size = 3 ∧ B' = ⟨none, none, 0⟩ := by
  obtain ⟨h', A', B', hrun, _, hf, hz, hb, _⟩ :=
    splice_spec sampleHeap sampleA sampleB [0, 1] [2] 1 (by decide) (by decide) (by decide)
      (by decide) (by decide)
  exact ⟨h', A', B', hrun, hf 3 [1, 3] [2] (by decide) rfl rfl, hz, hb⟩

/-! ## C6, C7: reverse -/

theorem swapLinks_swapLinks (nd : Node α) : swapLinks (swapLinks nd) = nd := by
  cases nd
  rfl

theorem swapLinks_data (nd : Node α) : (swapLinks nd)._data = nd._data := rfl

theorem reverseLoop_spec (h : Heap α) (pv : Option Nat) (ns : List Nat) (fuel : Nat)
    (hnd : ns.Nodup) (hs : Seg h pv ns none) (hf : ns.length ≤ fuel) :
    ∃ h', reverseLoop fuel h (firstOr ns none) = .ok h' ∧ SwappedOn h h' ns := by
  induction ns generalizing h pv fuel with
  | nil =>
    refine ⟨h, ?_, rfl, fun x => by simp⟩
    cases fuel <;> rfl
  | cons a rest ih =>
    cases fuel with
    | zero => simp at hf
    | succ f =>
      have hf' : rest.length ≤ f := by simpa using hf
      obtain ⟨har, hndr⟩ := List.nodup_cons.1 hnd
      obtain ⟨nd, h1, h2, h3, h4⟩ := hs
      have hl := Heap.lt_of_get h a nd h1
      have e1 := setPrev_ok h a nd nd._next h1
      have g1 : Heap.get (Heap.put h a { nd with _prev := nd._next }) a
          = some { nd with _prev := nd._next } := by
        rw [Heap.get_put h a a _ hl]
        simp
      have e2 := setNext_ok _ a _ nd._prev g1
      have hl1 : a < (Heap.put h a { nd with _prev := nd._next }).length := by
        rw [Heap.length_put]
        exact hl
      have g2 : ∀ x, Heap.get (Heap.put (Heap.put h a { nd with _prev := nd._next }) a
          { { nd with _prev := nd._next } with _next := nd._prev }) x
          = if x = a then some (swapLinks nd) else Heap.get h x := by
        intro x
        rw [Heap.get_put _ a x _ hl1, Heap.get_put h a x _ hl]
        by_cases hx : x = a <;> simp [hx, swapLinks]
      have l2 : (Heap.put (Heap.put h a { nd with _prev := nd._next }) a
          { { nd with _prev := nd._next } with _next := nd._prev }).length = h.length := by
        rw [Heap.length_put, Heap.length_put]
      generalize Heap.put (Heap.put h a { nd with _prev := nd._next }) a
          { { nd with _prev := nd._next } with _next := nd._prev } = h2 at e2 g2 l2
      generalize Heap.put h a { nd with _prev := nd._next } = h1' at e1 e2
      have e3 : load h2 a = .ok (swapLinks nd) := load_ok h2 a _ (by rw [g2]; simp)
      have hs2 : Seg h2 (some a) rest none := by
        apply Seg.congr h h2 _ rest none _ h4
        intro b hb
        rw [g2]
        have : b ≠ a := fun e => har (e ▸ hb)
        simp [this]
      obtain ⟨h', hrun, hlen, hget⟩ := ih h2 (some a) f hndr hs2 hf'
      refine ⟨h', ?_, ?_, ?_⟩
      · show reverseLoop (f + 1) h (some a) = _
        simp only [reverseLoop, load_ok h a nd h1, e1, e2, e3, bind_ok]
        have : (swapLinks nd)._prev = firstOr rest none := h3
        rw [this]
        exact hrun
      · rw [hlen, l2]
      · intro x
        rw [hget, g2]
        by_cases hxa : x = a
        · subst hxa
          simp [har, h1]
        · by_cases hxr : x ∈ rest <;> simp [hxa, hxr]

theorem Seg.swapped (h h' : Heap α) (pv : Option Nat) (ns : List Nat) (nx : Option Nat)
    (hsw : ∀ x ∈ ns, Heap.get h' x = (Heap.get h x).map swapLinks)
    (hs : Seg h pv ns nx) : Seg h' nx ns.reverse pv := by
  induction ns generalizing pv with
  | nil => trivial
  | cons a rest ih =>
    obtain ⟨nd, h1, h2, h3, h4⟩ := hs
    rw [List.reverse_cons, Seg.append]
    refine ⟨ih (some a) (fun x hx => hsw x (List.mem_cons_of_mem _ hx)) h4, swapLinks nd, ?_,
      ?_, ?_, trivial⟩
    · rw [hsw a (List.mem_cons_self _ _), h1]
      rfl
    · show nd._next = _
      rw [h3, lastOr_reverse]
    · exact h2

theorem SwappedOn.dataAt (h h' : Heap α) (ns : List Nat) (hsw : SwappedOn h h' ns) (a : Nat) :
    dataAt h' a = dataAt h a := by
  unfold DoublyLinkedList.dataAt
  rw [hsw.2 a]
  by_cases ha : a ∈ ns
  · cases hg : Heap.get h a <;> simp [ha, swapLinks]
  · simp [ha]

theorem SwappedOn.isList (h h' : Heap α) (L : DList) (ns : List Nat)
    (hsw : SwappedOn h h' ns) (hL : IsList h L ns) :
    IsList h' ⟨L._tail, L._head, L._size⟩ ns.reverse := by
  obtain ⟨hnd, hs, hh, ht, hz, hb⟩ := hL
  refine ⟨List.nodup_reverse.2 hnd, ?_, ?_, ?_, ?_, ?_⟩
  · apply Seg.swapped h h' none ns none _ hs
    intro x hx
    rw [hsw.2 x]
    simp [hx]
  · show L._tail = _
    rw [ht, firstOr_reverse]
  · show L._head = _
    rw [hh, lastOr_reverse]
  · show L._size = _
    rw [hz, List.length_reverse]
  · rw [List.length_reverse]
    exact hb

theorem SwappedOn.refl_of_short (h : Heap α) (L : DList) (ns : List Nat)
    (hL : IsList h L ns) (hlt : ns.length < 2) :
    SwappedOn h h ns ∧ (⟨L._tail, L._head, L._size⟩ : DList) = L := by
  obtain ⟨hnd, hs, hh, ht, hz, hb⟩ := hL
  match ns, hlt with
  | [], _ =>
    refine ⟨⟨rfl, fun x => by simp⟩, ?_⟩
    cases L
    simp only [firstOr, lastOr] at hh ht
    simp [hh, ht]
  | [a], _ =>
    obtain ⟨nd, h1, h2, h3, _⟩ := hs
    refine ⟨⟨rfl, fun x => ?_⟩, ?_⟩
    · by_cases hx : x = a
      · subst hx
        cases nd
        simp only [firstOr] at h2 h3
        simp [h1, swapLinks, h2, h3]
      · simp [hx]
    · cases L
      simp only [firstOr, lastOr] at hh ht
      simp [hh, ht]

theorem reverse_run (h : Heap α) (L : DList) (ns : List Nat) (fuel : Nat)
    (hL : IsList h L ns) (hf : ns.length ≤ fuel) :
    ∃ h', reverse fuel h L = .ok (h', ⟨L._tail, L._head, L._size⟩) ∧ SwappedOn h h' ns := by
  by_cases hlt : ns.length < 2
  · obtain ⟨hsw, hLe⟩ := SwappedOn.refl_of_short h L ns hL hlt
    refine ⟨h, ?_, hsw⟩
    have : L._size < 2 := by rw [hL.2.2.2.2.1]; exact hlt
    simp only [reverse, this, if_true]
    rw [hLe]
  · obtain ⟨h', hrun, hsw⟩ := reverseLoop_spec h none ns fuel hL.1 hL.2.1 hf
    refine ⟨h', ?_, hsw⟩
    have : ¬ L._size < 2 := by rw [hL.2.2.2.2.1]; exact hlt
    rw [← hL.2.2.1] at hrun
    simp only [reverse, this, if_false, hrun, bind_ok, pure_ok]

/-- C6. `reverse()` on a well-formed list returns; afterwards the forward
traversal is the reverse of the forward traversal `xs` before the call, the
backward traversal from `_tail` is `xs`, `_size` is unchanged, and the list is
well formed on the reversed node sequence. -/
theorem reverse_spec (h : Heap α) (L : DList) (ns : List Nat) (fuel : Nat) (xs : List α)
    (hL : IsList h L ns) (hf : ns.length ≤ fuel) (hxs : forward h fuel L._head = .ok xs) :
    ∃ h' L', reverse fuel h L = .ok (h', L') ∧
      forward h' fuel L'._head = .ok xs.reverse ∧
      backward h' fuel L'._tail = .ok xs ∧
      L'._size = L._size ∧ IsList h' L' ns.reverse := by
  obtain ⟨h', hrun, hsw⟩ := reverse_run h L ns fuel hL hf
  have hL' := SwappedOn.isList h h' L ns hsw hL
  have hf' : ns.reverse.length ≤ fuel := by rw [List.length_reverse]; exact hf
  have hel : elems h' ns.reverse = (elems h ns).reverse := by
    rw [elems_eq_of_dataAt h h' _ (SwappedOn.dataAt h h' ns hsw)]
    simp [elems, List.filterMap_reverse]
  rw [IsList.forward h L ns fuel hL hf] at hxs
  cases hxs
  refine ⟨h', _, hrun, ?_, ?_, rfl, hL'⟩
  · rw [IsList.forward h' _ _ fuel hL' hf', hel]
  · rw [IsList.backward h' _ _ fuel hL' hf', hel, List.reverse_reverse]

/-- C7. Applying `reverse()` twice to a well-formed list returns the very heap
and list object it started from: the same `_head`, `_tail` and `_size`, and the
same `_prev`, `_next` and element in every node. -/
theorem reverse_reverse (h : Heap α) (L : DList) (ns : List Nat) (fuel : Nat)
    (hL : IsList h L ns) (hf : ns.length ≤ fuel) :
    ∃ h1 L1, reverse fuel h L = .ok (h1, L1) ∧ reverse fuel h1 L1 = .ok (h, L) := by
  obtain ⟨h1, hrun1, hsw1⟩ := reverse_run h L ns fuel hL hf
  have hL1 := SwappedOn.isList h h1 L ns hsw1 hL
  have hf' : ns.reverse.length ≤ fuel := by rw [List.length_reverse]; exact hf
  obtain ⟨h2, hrun2, hsw2⟩ := reverse_run h1 _ ns.reverse fuel hL1 hf'
  have hh : h2 = h := by
    apply Heap.ext_get
    · rw [hsw2.1, hsw1.1]
    · intro x
      rw [hsw2.2 x, hsw1.2 x]
      by_cases hx : x ∈ ns
      · cases hg : Heap.get h x <;> simp [hx, swapLinks_swapLinks]
      · simp [hx]
  refine ⟨h1, _, hrun1, ?_⟩
  rw [hrun2, hh]

theorem reverse_spec_witness :
    ∃ h' L', reverse 2 sampleHeap sampleA = .ok (h', L') ∧
      forward h' 2 L'._head = .ok [3, 1] ∧ backward h' 2 L'._tail = .ok [1, 3] ∧
      L'._size = 2 := by
  obtain ⟨h', L', hrun, hf, hb, hz, _⟩ :=
    reverse_spec sampleHeap sampleA [0, 1] 2 [1, 3] (by decide) (by decide) rfl
  exact ⟨h', L', hrun, hf, hb, hz⟩

theorem reverse_reverse_witness :
    ∃ h1 L1, reverse 2 sampleHeap sampleA = .ok (h1, L1) ∧
      reverse 2 h1 L1 = .ok (sampleHeap, sampleA) :=
  reverse_reverse sampleHeap sampleA [0, 1] 2 (by decide) (by decide)

/-! ## C9: emplace and insert -/

theorem dataAt_alloc (h : Heap α) (nd : Node α) (a : Nat) (ha : a < h.length) :
    dataAt (Heap.alloc h nd).2 a = dataAt h a := by
  unfold dataAt
  rw [Heap.get_alloc]
  have : a ≠ h.length := Nat.ne_of_lt ha
  simp [this]

theorem emplace_at_node (h : Heap α) (L : DList) (pre : List Nat) (p : Nat) (post : List Nat)
    (v : α) (hL : IsList h L (pre ++ p :: post))
    (hsz : (pre ++ p :: post).length + 1 < SIZE_RANGE) :
    ∃ h' L', emplace h L (some p) v = .ok (h', L', some h.length) ∧
      IsList h' L' (pre ++ h.length :: p :: post) ∧
      (∀ a, a < h.length → dataAt h' a = dataAt h a) ∧
      dataAt h' h.length = some v ∧
      L'._size = L._size + 1 ∧
      (∃ pn, Heap.get h' p = some pn ∧ pn._prev = some h.length) := by
  obtain ⟨hnd, hs, hh, ht, hz, _⟩ := hL
  have hnd' := List.nodup_append.1 hnd
  have hppre : p ∉ pre := fun hc => hnd'.2.2 hc (by simp)
  have hppost : p ∉ post := (List.nodup_cons.1 hnd'.2.1).1
  have hlt : ∀ a ∈ pre ++ p :: post, a < h.length := Seg.lt_length h none _ none hs
  have hnn : h.length ∉ pre ++ p :: post := fun hc => Nat.lt_irrefl _ (hlt _ hc)
  have hnnpre : h.length ∉ pre := fun hc => hnn (by simp [hc])
  have hnnpp : h.length ∉ p :: post := fun hc => hnn (by simp [List.mem_cons.1 hc])
  have hpnn : p ≠ h.length := Nat.ne_of_lt (hlt p (by simp))
  rw [Seg.append] at hs
  obtain ⟨hpre, hpp⟩ := hs
  have hpre : Seg h none pre (some p) := hpre
  obtain ⟨pn, hpn, hpnprev, hpnnext⟩ := Seg.head_get h _ p post none hpp
  -- new Node(value, pos.node->_prev, pos.node)
  have S1pre := Seg.alloc_frame h none pre (some p) ⟨v, pn._prev, some p⟩ hpre
  have S1pp := Seg.alloc_frame h _ (p :: post) none ⟨v, pn._prev, some p⟩ hpp
  have G1 : Heap.get (Heap.alloc h ⟨v, pn._prev, some p⟩).2 h.length
      = some ⟨v, pn._prev, some p⟩ := by
    rw [Heap.get_alloc]
    simp
  have D1 : ∀ a, a < h.length → dataAt (Heap.alloc h ⟨v, pn._prev, some p⟩).2 a = dataAt h a :=
    fun a ha => dataAt_alloc h _ a ha
  have hal : Heap.alloc h ⟨v, pn._prev, some p⟩
      = (h.length, (Heap.alloc h ⟨v, pn._prev, some p⟩).2) := rfl
  generalize (Heap.alloc h ⟨v, pn._prev, some p⟩).2 = h1 at S1pre S1pp G1 D1 hal
  obtain ⟨pn1, hpn1, hpn1prev, _⟩ := Seg.head_get h1 _ p post none S1pp
  -- link the predecessor of pos, or move _head
  have step2 : ∃ h2 L1, (match pn1._prev with
      | some q => (do
        let h2 ← setNext h1 q (some h.length)
        pure (h2, L) : Except Fault (Heap α × DList))
      | none => pure (h1, { L with _head := some h.length })) = .ok (h2, L1) ∧
      Seg h2 none pre (some h.length) ∧ Seg h2 (lastOr pre none) (p :: post) none ∧
      Heap.get h2 h.length = some ⟨v, lastOr pre none, some p⟩ ∧
      (∀ a, dataAt h2 a = dataAt h1 a) ∧
      L1._head = firstOr pre (some h.length) ∧ L1._tail = L._tail ∧ L1._size = L._size := by
    by_cases hpe : pre = []
    · subst hpe
      have : pn1._prev = none := hpn1prev
      rw [this]
      refine ⟨h1, _, rfl, trivial, S1pp, ?_, fun _ => rfl, rfl, rfl, rfl⟩
      rw [G1, hpnprev]
    · obtain ⟨ipre, q, eq⟩ := snoc_cases pre hpe
      subst eq
      have hq : pn1._prev = some q := by rw [hpn1prev, lastOr_concat]
      obtain ⟨qn, hqn, _, _⟩ := Seg.last_get h1 _ ipre q _ S1pre
      have hlq := Heap.lt_of_get h1 q qn hqn
      have hqi : q ∉ ipre := by
        have := List.nodup_append.1 hnd'.1
        intro hc
        exact this.2.2 hc (by simp)
      have hqpp : q ∉ p :: post := by
        intro hc
        exact hnd'.2.2 (by simp) hc
      have hqnn : h.length ≠ q := fun e => hnnpre (by simp [e])
      rw [hq]
      refine ⟨Heap.put h1 q { qn with _next := some h.length }, L, ?_, ?_, ?_, ?_, ?_, ?_,
        rfl, rfl⟩
      · simp only [setNext_ok h1 q qn _ hqn, bind_ok, pure_ok]
      · exact Seg.setNext_last h1 none ipre q _ (some h.length) qn hqi hqn S1pre
      · exact Seg.put_frame h1 _ (p :: post) none q _ hqpp hlq S1pp
      · rw [Heap.get_put h1 q _ _ hlq, G1, hpnprev]
        simp [hqnn]
      · exact fun a => dataAt_put h1 q a qn _ hqn rfl
      · rw [hh, firstOr_append, firstOr_append]
        cases ipre <;> rfl
  obtain ⟨h2, L1, e2, S2pre, S2pp, G2, D2, hL1h, hL1t, hL1s⟩ := step2
  -- pos.node->_prev = new_node
  obtain ⟨pn2, hpn2, _, _⟩ := Seg.head_get h2 _ p post none S2pp
  have hl2 := Heap.lt_of_get h2 p pn2 hpn2
  have e3 := setPrev_ok h2 p pn2 (some h.length) hpn2
  have S3pp := Seg.setPrev_first h2 _ p post none (some h.length) pn2 hppost hpn2 S2pp
  have S3pre := Seg.put_frame h2 none pre (some h.length) p { pn2 with _prev := some h.length }
    hppre hl2 S2pre
  have G3 : Heap.get (Heap.put h2 p { pn2 with _prev := some h.length }) h.length
      = some ⟨v, lastOr pre none, some p⟩ := by
    rw [Heap.get_put h2 p _ _ hl2, G2]
    simp [hpnn.symm]
  have G3p : Heap.get (Heap.put h2 p { pn2 with _prev := some h.length }) p
      = some { pn2 with _prev := some h.length } := by
    rw [Heap.get_put h2 p _ _ hl2]
    simp
  have D3 : ∀ a, dataAt (Heap.put h2 p { pn2 with _prev := some h.length }) a = dataAt h2 a :=
    fun a => dataAt_put h2 p a pn2 _ hpn2 rfl
  generalize Heap.put h2 p { pn2 with _prev := some h.length } = h3 at e3 S3pp S3pre G3 G3p D3
  have hsum : incSize L1._size = L._size + 1 := by
    rw [hL1s, hz]
    exact Nat.mod_eq_of_lt hsz
  have hlen : (pre ++ h.length :: p :: post).length = (pre ++ p :: post).length + 1 := by
    simp only [List.length_append, List.length_cons]
    omega
  refine ⟨h3, { L1 with _size := incSize L1._size }, ?_, ?_, ?_, ?_, hsum, ⟨_, G3p, rfl⟩⟩
  · simp only [bind_ok, pure_ok] at e2
    simp only [emplace, load_ok h p pn hpn, hal, load_ok h1 p pn1 hpn1, e2, e3, bind_ok,
      pure_ok]
  · refine ⟨?_, ?_, ?_, ?_, ?_, ?_⟩
    · rw [List.nodup_append] at hnd ⊢
      refine ⟨hnd.1, List.nodup_cons.2 ⟨hnnpp, hnd.2.1⟩, ?_⟩
      intro a ha hb
      rcases List.mem_cons.1 hb with e | hb
      · exact hnnpre (e ▸ ha)
      · exact hnd.2.2 ha hb
    · rw [Seg.append]
      refine ⟨S3pre, ⟨v, lastOr pre none, some p⟩, G3, rfl, rfl, S3pp⟩
    · show L1._head = _
      rw [hL1h, firstOr_append]
      rfl
    · show L1._tail = _
      rw [hL1t, ht, lastOr_append, lastOr_append]
      rfl
    · show incSize L1._size = _
      rw [hsum, hlen, hz]
    · rw [hlen]
      exact hsz
  · intro a ha
    rw [D3, D2, D1 a ha]
  · unfold dataAt
    rw [G3]

/-- C9. `insert(p, v)` (which is `emplace(p, v)`) on a well-formed list, with
`p` the node at index `k` and the new count representable in `std::size_t`:
the call returns the position of a new node holding `v`; the forward traversal
becomes the old one with `v` inserted at index `k`; `_size` grows by 1; the
new node is the `_prev` of the node `p`; the list stays well formed.  The run
of `main` up to line 17 yields `{355,3,9,9,9999,1,22,89,99,999}`. -/
theorem insert_spec (h : Heap α) (L : DList) (ns : List Nat) (k : Nat) (v : α)
    (hL : IsList h L ns) (hk : k < ns.length) (hsz : ns.length + 1 < SIZE_RANGE) :
    (∃ h' L' nn, insert h L ns[k]? v = .ok (h', L', some nn) ∧
      IsList h' L' (ns.take k ++ nn :: ns.drop k) ∧
      (∀ fuel xs, ns.length + 1 ≤ fuel → forward h fuel L._head = .ok xs →
        forward h' fuel L'._head = .ok (xs.take k ++ v :: xs.drop k)) ∧
      L'._size = L._size + 1 ∧
      dataAt h' nn = some v ∧
      (∃ p pn, ns[k]? = some p ∧ Heap.get h' p = some pn ∧ pn._prev = some nn)) ∧
    (mainUpToInsert >>= fun r => forward r.1 10 r.2._head)
      = .ok [355, 3, 9, 9, 9999, 1, 22, 89, 99, 999] := by
  refine ⟨?_, rfl⟩
  have hdec : ns = ns.take k ++ ns[k] :: ns.drop (k + 1) := by
    rw [← List.drop_eq_getElem_cons hk, List.take_append_drop]
  have hdrop : ns.drop k = ns[k] :: ns.drop (k + 1) := List.drop_eq_getElem_cons hk
  obtain ⟨h', L', hrun, hL', hd, hv, hz, pn, hpn, hpp⟩ :=
    emplace_at_node h L (ns.take k) ns[k] (ns.drop (k + 1)) v (hdec ▸ hL)
      (by rw [← hdec]; exact hsz)
  rw [← hdrop] at hL'
  have hlt : ∀ a ∈ ns, a < h.length := Seg.lt_length h none ns none hL.2.1
  refine ⟨h', L', h.length, ?_, hL', ?_, hz, hv, ⟨ns[k], pn, ?_, hpn, hpp⟩⟩
  · rw [List.getElem?_eq_getElem hk]
    exact hrun
  · intro fuel xs hf hxs
    rw [IsList.forward h L ns fuel hL (by omega)] at hxs
    cases hxs
    have hlen : (ns.take k ++ h.length :: ns.drop k).length ≤ fuel := by
      have := List.length_take_le k ns
      simp only [List.length_append, List.length_cons, List.length_take, List.length_drop]
      omega
    obtain ⟨nd, hnd⟩ : ∃ nd, Heap.get h' h.length = some nd ∧ nd._data = v := by
      unfold dataAt at hv
      cases hg : Heap.get h' h.length with
      | none => rw [hg] at hv; cases hv
      | some nd =>
        rw [hg] at hv
        exact ⟨nd, rfl, by simpa using hv⟩
    rw [IsList.forward h' L' _ fuel hL' hlen, elems_append, elems_cons h' _ _ nd hnd.1, hnd.2,
      elems_congr h h' (ns.take k) (fun a ha => hd a (hlt a (List.mem_of_mem_take ha))),
      elems_congr h h' (ns.drop k) (fun a ha => hd a (hlt a (List.mem_of_mem_drop ha))),
      elems_take h none ns none hL.2.1, elems_drop h none ns none hL.2.1]
  · exact List.getElem?_eq_getElem hk

theorem insert_spec_witness :
    ∃ h' L' nn, insert sampleHeap sampleA (some 1) 7 = .ok (h', L', some nn) ∧
      forward h' 3 L'._head = .ok [1, 7, 3] ∧ L'._size = 3 := by
  obtain ⟨⟨h', L', nn, hrun, _, hf, hz, _⟩, _⟩ :=
    insert_spec sampleHeap sampleA [0, 1] 1 7 (by decide) (by decide) (by decide)
  exact ⟨h', L', nn, hrun, hf 3 [1, 3] (by decide) rfl, hz⟩

/-! ## C10: erase -/

theorem load_error (h : Heap α) (a : Nat) (e : Fault) (he : load h a = .error e) :
    e = .bad_access := by
  unfold load at he
  split at he
  · cases he
  · cases he
    rfl

theorem setNext_error (h : Heap α) (a : Nat) (v : Option Nat) (e : Fault)
    (he : setNext h a v = .error e) : e = .bad_access := by
  unfold setNext at he
  split at he
  · cases he
  · cases he
    rfl

theorem setPrev_error (h : Heap α) (a : Nat) (v : Option Nat) (e : Fault)
    (he : setPrev h a v = .error e) : e = .bad_access := by
  unfold setPrev at he
  split at he
  · cases he
  · cases he
    rfl

theorem eraseUnlink_result (h : Heap α) (L : DList) (t : Nat) :
    eraseUnlink h L t = .error .bad_access ∨
      ∃ h2 L2, eraseUnlink h L t = .ok (Heap.free h2 t, L2) := by
  unfold eraseUnlink
  cases e0 : load h t with
  | error e =>
    left
    rw [load_error h t e e0]
    rfl
  | ok temp =>
    simp only [bind_ok]
    cases e1 : (match temp._prev with
      | some p => (do
        let h1 ← setNext h p temp._next
        pure (h1, L) : Except Fault (Heap α × DList))
      | none => pure (h, { L with _head := temp._next })) with
    | error e =>
      left
      have : e = .bad_access := by
        split at e1
        · cases e1' : setNext h _ temp._next with
          | error e' =>
            rw [e1'] at e1
            cases e1
            exact setNext_error _ _ _ _ e1'
          | ok x =>
            rw [e1'] at e1
            cases e1
        · cases e1
      rw [this]
      rfl
    | ok r1 =>
      obtain ⟨h1, L1⟩ := r1
      simp only [bind_ok]
      cases e2 : load h1 t with
      | error e =>
        left
        rw [load_error h1 t e e2]
        rfl
      | ok temp1 =>
        simp only [bind_ok]
        cases e3 : (match temp1._next with
          | some n => (do
            let h2 ← setPrev h1 n temp1._prev
            pure (h2, L1) : Except Fault (Heap α × DList))
          | none => pure (h1, { L1 with _tail := temp1._prev })) with
        | error e =>
          left
          have : e = .bad_access := by
            split at e3
            · cases e3' : setPrev h1 _ temp1._prev with
              | error e' =>
                rw [e3'] at e3
                cases e3
                exact setPrev_error _ _ _ _ e3'
              | ok x =>
                rw [e3'] at e3
                cases e3
            · cases e3
          rw [this]
          rfl
        | ok r2 =>
          obtain ⟨h2, L2⟩ := r2
          right
          exact ⟨h2, _, rfl⟩

theorem erase_faults (h : Heap α) (L : DList) (t : Nat) :
    erase h L (some t) = .error .bad_access := by
  rcases eraseUnlink_result h L t with e | ⟨h2, L2, e⟩
  · simp only [erase, e, bind_error]
  · have : load (Heap.free h2 t) t = .error .bad_access := by
      unfold load
      rw [Heap.get_free]
      simp
    simp only [erase, e, bind_ok, this, bind_error]

theorem decSize_pos (n : Nat) (h0 : 0 < n) (hn : n < SIZE_RANGE) : decSize n = n - 1 := by
  unfold decSize
  unfold SIZE_RANGE at hn ⊢
  omega

theorem eraseUnlink_spec (h : Heap α) (L : DList) (pre : List Nat) (t : Nat)
    (post : List Nat) (hL : IsList h L (pre ++ t :: post)) :
    ∃ h' L', eraseUnlink h L t = .ok (h', L') ∧ IsList h' L' (pre ++ post) ∧
      (∀ a, a ≠ t → dataAt h' a = dataAt h a) ∧ Heap.get h' t = none ∧
      L'._size = L._size - 1 := by
  obtain ⟨hnd, hs, hh, ht, hz, hb⟩ := hL
  have hnd' := List.nodup_append.1 hnd
  have htpre : t ∉ pre := fun hc => hnd'.2.2 hc (by simp)
  have htpost : t ∉ post := (List.nodup_cons.1 hnd'.2.1).1
  have hndpost : post.Nodup := (List.nodup_cons.1 hnd'.2.1).2
  rw [Seg.append] at hs
  obtain ⟨hpre, htp⟩ := hs
  have hpre : Seg h none pre (some t) := hpre
  obtain ⟨temp, htemp, hprev, hnext, hpost⟩ := htp
  -- if (temp->_prev) temp->_prev->_next = temp->_next; else _head = temp->_next;
  have stepA : ∃ h1 L1, (match temp._prev with
      | some p => (do
        let h1 ← setNext h p temp._next
        pure (h1, L) : Except Fault (Heap α × DList))
      | none => pure (h, { L with _head := temp._next })) = .ok (h1, L1) ∧
      Seg h1 none pre (firstOr post none) ∧ Seg h1 (some t) post none ∧
      Heap.get h1 t = some temp ∧ (∀ a, dataAt h1 a = dataAt h a) ∧
      L1._head = firstOr (pre ++ post) none ∧ L1._tail = L._tail ∧ L1._size = L._size := by
    by_cases hpe : pre = []
    · subst hpe
      have : temp._prev = none := hprev
      rw [this]
      refine ⟨h, _, rfl, trivial, hpost, htemp, fun _ => rfl, ?_, rfl, rfl⟩
      show temp._next = _
      rw [hnext]
      rfl
    · obtain ⟨ipre, q, eq⟩ := snoc_cases pre hpe
      subst eq
      have hq : temp._prev = some q := by rw [hprev, lastOr_concat]
      obtain ⟨qn, hqn, _, _⟩ := Seg.last_get h _ ipre q _ hpre
      have hlq := Heap.lt_of_get h q qn hqn
      have hqi : q ∉ ipre := by
        have := List.nodup_append.1 hnd'.1
        intro hc
        exact this.2.2 hc (by simp)
      have hqpost : q ∉ post := by
        intro hc
        exact hnd'.2.2 (by simp) (List.mem_cons_of_mem _ hc)
      have hqt : t ≠ q := fun e => htpre (by simp [e])
      rw [hq]
      refine ⟨Heap.put h q { qn with _next := temp._next }, L, ?_, ?_, ?_, ?_, ?_, ?_, rfl, rfl⟩
      · simp only [setNext_ok h q qn _ hqn, bind_ok, pure_ok]
      · rw [← hnext]
        exact Seg.setNext_last h none ipre q _ temp._next qn hqi hqn hpre
      · exact Seg.put_frame h _ post none q _ hqpost hlq hpost
      · rw [Heap.get_put h q t _ hlq]
        simp [hqt, htemp]
      · exact fun a => dataAt_put h q a qn _ hqn rfl
      · rw [hh, firstOr_append, firstOr_append, firstOr_append]
        cases ipre <;> rfl
  obtain ⟨h1, L1, eA, SApre, SApost, GA, DA, hL1h, hL1t, hL1s⟩ := stepA
  -- if (temp->_next) temp->_next->_prev = temp->_prev; else _tail = temp->_prev;
  have stepB : ∃ h2 L2, (match temp._next with
      | some n => (do
        let h2 ← setPrev h1 n temp._prev
        pure (h2, L1) : Except Fault (Heap α × DList))
      | none => pure (h1, { L1 with _tail := temp._prev })) = .ok (h2, L2) ∧
      Seg h2 none pre (firstOr post none) ∧ Seg h2 (lastOr pre none) post none ∧
      (∀ a, dataAt h2 a = dataAt h1 a) ∧
      L2._head = firstOr (pre ++ post) none ∧ L2._tail = lastOr (pre ++ post) none ∧
      L2._size = L._size := by
    cases post with
    | nil =>
      have : temp._next = none := hnext
      rw [this]
      refine ⟨h1, _, rfl, SApre, trivial, fun _ => rfl, hL1h, ?_, hL1s⟩
      show temp._prev = _
      rw [hprev]
      simp
    | cons n rpost =>
      have hn : temp._next = some n := hnext
      obtain ⟨nn, hnn, _, _⟩ := Seg.head_get h1 _ n rpost none SApost
      have hln := Heap.lt_of_get h1 n nn hnn
      have hnr : n ∉ rpost := (List.nodup_cons.1 hndpost).1
      have hnpre : n ∉ pre := by
        intro hc
        exact hnd'.2.2 hc (by simp)
      rw [hn]
      refine ⟨Heap.put h1 n { nn with _prev := temp._prev }, L1, ?_, ?_, ?_, ?_, hL1h, ?_,
        hL1s⟩
      · simp only [setPrev_ok h1 n nn _ hnn, bind_ok, pure_ok]
      · exact Seg.put_frame h1 none pre _ n _ hnpre hln SApre
      · rw [← hprev]
        exact Seg.setPrev_first h1 _ n rpost none temp._prev nn hnr hnn SApost
      · exact fun a => dataAt_put h1 n a nn _ hnn rfl
      · rw [hL1t, ht, lastOr_append, lastOr_append]
        rfl
  obtain ⟨h2, L2, eB, SBpre, SBpost, DB, hL2h, hL2t, hL2s⟩ := stepB
  have hlen : (pre ++ t :: post).length = (pre ++ post).length + 1 := by
    simp only [List.length_append, List.length_cons]
    omega
  have hdec : decSize L2._size = L._size - 1 := by
    rw [hL2s]
    apply decSize_pos
    · rw [hz, hlen]
      omega
    · rw [hz]
      exact hb
  refine ⟨Heap.free h2 t, { L2 with _size := decSize L2._size }, ?_, ?_, ?_, ?_, hdec⟩
  · simp only [bind_ok, pure_ok] at eA eB
    simp only [eraseUnlink, load_ok h t temp htemp, eA, load_ok h1 t temp GA, eB, bind_ok,
      pure_ok]
  · refine ⟨?_, ?_, hL2h, hL2t, ?_, ?_⟩
    · rw [List.nodup_append] at hnd ⊢
      refine ⟨hnd.1, hndpost, ?_⟩
      intro a ha hc
      exact hnd.2.2 ha (List.mem_cons_of_mem _ hc)
    · rw [Seg.append]
      exact ⟨Seg.free_frame h2 none pre _ t htpre SBpre,
        Seg.free_frame h2 _ post none t htpost SBpost⟩
    · show decSize L2._size = _
      rw [hdec, hz, hlen]
      omega
    · omega
  · intro a ha
    have e : dataAt (Heap.free h2 t) a = dataAt h2 a := by
      unfold dataAt
      rw [Heap.get_free]
      simp [ha]
    rw [e, DB, DA]
  · rw [Heap.get_free]
    simp

/-- C10. On the well-formed list `{1, 3}`, `erase(begin())` does unlink and
delete the first node (the remaining list is `{3}` with `_size` 1), but the
position it returns is `temp->_next` read on line 436 from the node deleted on
line 434: the call ends in an access to a freed node instead of returning the
position of the node that followed. -/
theorem erase_reads_deleted_node :
    IsList sampleHeap sampleA [0, 1] ∧
    erase sampleHeap sampleA (some 0) = .error .bad_access ∧
    ∃ h1 L1, eraseUnlink sampleHeap sampleA 0 = .ok (h1, L1) ∧
      forward h1 2 L1._head = .ok [3] ∧ L1._size = 1 ∧
      load h1 0 = .error .bad_access :=
  ⟨by decide, erase_faults sampleHeap sampleA 0, _, _, rfl, rfl, rfl, rfl⟩

/-! ## C3: unique -/

/-- C3. On `{3, 9, 9, 1, 22, 89, 89, 99}`, built by the initializer-list
constructor, `unique()` does not return `{3, 9, 1, 22, 89, 99}`: with any fuel
the run ends in a fault, and as soon as the loop reaches the first pair of
equal neighbours (`fuel + 2` iterations allowed) the fault is an access to a
freed node.  The last part shows the state in which the loop continues after
the unlinking done by `erase(next)`: the node `next` (address 2) is deleted,
and `next` itself was not reassigned. -/
theorem unique_faults_on_adjacent_duplicates (fuel : Nat) :
    (∃ e, (construct [] [(3 : Int), 9, 9, 1, 22, 89, 89, 99] >>= fun r =>
        unique fuel r.1 r.2) = .error e) ∧
    (construct [] [(3 : Int), 9, 9, 1, 22, 89, 89, 99] >>= fun r =>
        unique (fuel + 2) r.1 r.2) = .error .bad_access ∧
    (∃ h L h1 L1, construct [] [(3 : Int), 9, 9, 1, 22, 89, 89, 99] = .ok (h, L) ∧
      eraseUnlink h L 2 = .ok (h1, L1) ∧ load h1 2 = .error .bad_access) := by
  refine ⟨?_, rfl, _, _, _, _, rfl, rfl, rfl⟩
  match fuel with
  | 0 => exact ⟨_, rfl⟩
  | 1 => exact ⟨_, rfl⟩
  | f + 2 => exact ⟨_, rfl⟩

/-! ## C4, C5, C8: sort -/

theorem clearLoop_spec (h : Heap α) (pv : Option Nat) (ns : List Nat) (fuel : Nat)
    (hnd : ns.Nodup) (hs : Seg h pv ns none) (hf : ns.length ≤ fuel) :
    ∃ h', clearLoop fuel h (firstOr ns none) = .ok h' ∧ h'.length = h.length ∧
      ∀ x, x ∉ ns → Heap.get h' x = Heap.get h x := by
  induction ns generalizing h pv fuel with
  | nil =>
    refine ⟨h, ?_, rfl, fun _ _ => rfl⟩
    cases fuel <;> rfl
  | cons a rest ih =>
    cases fuel with
    | zero => simp at hf
    | succ f =>
      have hf' : rest.length ≤ f := by simpa using hf
      obtain ⟨har, hndr⟩ := List.nodup_cons.1 hnd
      obtain ⟨nd, h1, _, h3, h4⟩ := hs
      have hs1 := Seg.free_frame h (some a) rest none a har h4
      obtain ⟨h', hrun, hlen, hget⟩ := ih (Heap.free h a) (some a) f hndr hs1 hf'
      refine ⟨h', ?_, ?_, ?_⟩
      · show clearLoop (f + 1) h (some a) = _
        simp only [clearLoop, load_ok h a nd h1, bind_ok, h3]
        exact hrun
      · rw [hlen, Heap.length_free]
      · intro x hx
        have hxa : x ≠ a := fun e => hx (by simp [e])
        have hxr : x ∉ rest := fun hc => hx (by simp [hc])
        rw [hget x hxr, Heap.get_free]
        simp [hxa]

theorem alloc_props (h : Heap α) (nd : Node α) (ns : List Nat) (hs : Seg h none ns none) :
    ∃ h1, Heap.alloc h nd = (h.length, h1) ∧ Seg h1 none ns none ∧
      (∀ x, Heap.get h1 x = if x = h.length then some nd else Heap.get h x) ∧
      (∀ a, a < h.length → dataAt h1 a = dataAt h a) ∧ h1.length = h.length + 1 :=
  ⟨(Heap.alloc h nd).2, rfl, Seg.alloc_frame h none ns none nd hs,
    fun x => Heap.get_alloc h nd x, fun a ha => dataAt_alloc h nd a ha, by simp [Heap.alloc]⟩

theorem push_back_spec (h : Heap α) (L : DList) (ns : List Nat) (v : α)
    (hL : IsList h L ns) (hsz : ns.length + 1 < SIZE_RANGE) :
    ∃ h' L', push_back h L v = .ok (h', L') ∧ IsList h' L' (ns ++ [h.length]) ∧
      h'.length = h.length + 1 ∧
      (∀ a, a < h.length → dataAt h' a = dataAt h a) ∧
      dataAt h' h.length = some v ∧
      (∀ x, x < h.length → x ∉ ns → Heap.get h' x = Heap.get h x) ∧
      L'._size = L._size + 1 := by
  obtain ⟨hnd, hs, hh, ht, hz, _⟩ := hL
  have hlt : ∀ a ∈ ns, a < h.length := Seg.lt_length h none _ none hs
  have hnn : h.length ∉ ns := fun hc => Nat.lt_irrefl _ (hlt _ hc)
  have hsum : incSize L._size = L._size + 1 := by
    rw [hz]
    exact Nat.mod_eq_of_lt hsz
  have hnd' : (ns ++ [h.length]).Nodup := by
    rw [List.nodup_append]
    refine ⟨hnd, by simp, ?_⟩
    intro a ha hb
    simp only [List.mem_singleton] at hb
    exact hnn (hb ▸ ha)
  have hlen : (ns ++ [h.length]).length = ns.length + 1 := by simp
  by_cases hne : ns = []
  · subst hne
    have hT : L._tail = none := ht
    have hH : L._head = none := hh
    obtain ⟨h1, hal, S1, G1, D1, l1⟩ := alloc_props h ⟨v, none, none⟩ [] hs
    refine ⟨h1, ⟨some h.length, some h.length, incSize L._size⟩, ?_, ?_, l1, D1, ?_, ?_, hsum⟩
    · simp only [push_back, emplace_back, hal, hT, hH]
    · refine ⟨hnd', ?_, rfl, rfl, ?_, ?_⟩
      · refine ⟨⟨v, none, none⟩, ?_, rfl, rfl, trivial⟩
        rw [G1]
        simp
      · show incSize L._size = _
        rw [hsum, hz]
        rfl
      · rw [hlen]
        exact hsz
    · unfold dataAt
      rw [G1]
      simp
    · intro x hx _
      rw [G1]
      simp [Nat.ne_of_lt hx]
  · obtain ⟨ini, t, e⟩ := snoc_cases ns hne
    subst e
    have hT : L._tail = some t := by rw [ht, lastOr_concat]
    have hH : ∃ x, L._head = some x := by
      rw [hh, firstOr_append]
      cases ini
      · exact ⟨t, rfl⟩
      · exact ⟨_, rfl⟩
    obtain ⟨x0, hH⟩ := hH
    have hti : t ∉ ini := by
      have := List.nodup_append.1 hnd
      intro hc
      exact this.2.2 hc (by simp)
    have htl : t < h.length := hlt t (by simp)
    obtain ⟨h1, hal, S1, G1, D1, l1⟩ := alloc_props h ⟨v, some t, none⟩ _ hs
    obtain ⟨tn, htn, _, _⟩ := Seg.last_get h1 _ ini t _ S1
    have hl1 := Heap.lt_of_get h1 t tn htn
    have e2 := setNext_ok h1 t tn (some h.length) htn
    have S2 := Seg.setNext_last h1 none ini t none (some h.length) tn hti htn S1
    have G2 : ∀ x, Heap.get (Heap.put h1 t { tn with _next := some h.length }) x
        = if x = t then some { tn with _next := some h.length } else Heap.get h1 x :=
      fun x => Heap.get_put h1 t x _ hl1
    have D2 : ∀ a, dataAt (Heap.put h1 t { tn with _next := some h.length }) a = dataAt h1 a :=
      fun a => dataAt_put h1 t a tn _ htn rfl
    have l2 : (Heap.put h1 t { tn with _next := some h.length }).length = h.length + 1 := by
      rw [Heap.length_put, l1]
    generalize Heap.put h1 t { tn with _next := some h.length } = h2 at e2 S2 G2 D2 l2
    have hnt : h.length ≠ t := fun e => Nat.lt_irrefl _ (e ▸ htl)
    have G2n : Heap.get h2 h.length = some ⟨v, some t, none⟩ := by
      rw [G2, G1]
      simp [hnt]
    refine ⟨h2, ⟨some x0, some h.length, incSize L._size⟩, ?_, ?_, l2, ?_, ?_, ?_, hsum⟩
    · simp only [push_back, emplace_back, hal, hT, hH, e2]
    · refine ⟨hnd', ?_, ?_, ?_, ?_, ?_⟩
      · rw [Seg.append]
        refine ⟨S2, ⟨v, some t, none⟩, G2n, ?_, rfl, trivial⟩
        rw [lastOr_concat]
      · show some x0 = _
        rw [← hH, hh, firstOr_append, firstOr_append, firstOr_append]
        cases ini <;> rfl
      · show some h.length = _
        rw [lastOr_concat]
      · show incSize L._size = _
        rw [hsum, hz, hlen]
      · rw [hlen]
        exact hsz
    · intro a ha
      rw [D2, D1 a ha]
    · unfold dataAt
      rw [G2n]
    · intro x hx hxn
      have hxt : x ≠ t := fun e => hxn (by simp [e])
      rw [G2, G1]
      simp [hxt, Nat.ne_of_lt hx]

theorem pushAll_spec (h : Heap α) (L : DList) (ns : List Nat) (vs : List α)
    (hL : IsList h L ns) (hsz : ns.length + vs.length < SIZE_RANGE) :
    ∃ h' L' ms, pushAll h L vs = .ok (h', L') ∧ IsList h' L' (ns ++ ms) ∧
      elems h' (ns ++ ms) = elems h ns ++ vs ∧
      h.length ≤ h'.length ∧ (∀ m ∈ ms, h.length ≤ m) ∧
      (∀ x, x < h.length → x ∉ ns → Heap.get h' x = Heap.get h x) ∧
      (∀ a, a < h.length → dataAt h' a = dataAt h a) := by
  induction vs generalizing h L ns with
  | nil =>
    exact ⟨h, L, [], rfl, by simpa using hL, by simp, Nat.le_refl _, by simp,
      fun _ _ _ => rfl, fun _ _ => rfl⟩
  | cons v vs ih =>
    have hsz1 : ns.length + 1 < SIZE_RANGE := by
      simp only [List.length_cons] at hsz
      omega
    obtain ⟨h1, L1, hrun1, hL1, hl1, hd1, hv1, hfr1, _⟩ := push_back_spec h L ns v hL hsz1
    have hsz2 : (ns ++ [h.length]).length + vs.length < SIZE_RANGE := by
      simp only [List.length_cons, List.length_append, List.length_nil] at hsz ⊢
      omega
    obtain ⟨h', L', ms, hrun, hL', hel, hle, hms, hfr, hd⟩ :=
      ih h1 L1 (ns ++ [h.length]) hL1 hsz2
    have hlt : ∀ a ∈ ns, a < h.length := Seg.lt_length h none ns none hL.2.1
    refine ⟨h', L', h.length :: ms, ?_, ?_, ?_, by omega, ?_, ?_, ?_⟩
    · show pushAll h L (v :: vs) = _
      simp only [pushAll, hrun1]
      exact hrun
    · simpa using hL'
    · have e1 : elems h1 (ns ++ [h.length]) = elems h ns ++ [v] := by
        rw [elems_append, elems_congr h h1 ns (fun a ha => hd1 a (hlt a ha))]
        simp [elems, List.filterMap_cons, hv1]
      have : ns ++ h.length :: ms = (ns ++ [h.length]) ++ ms := by simp
      rw [this, hel, e1]
      simp
    · intro m hm
      rcases List.mem_cons.1 hm with e | hm
      · omega
      · have := hms m hm
        omega
    · intro x hx hxn
      have hx1 : x ∉ ns ++ [h.length] := by
        intro hc
        rcases List.mem_append.1 hc with hc | hc
        · exact hxn hc
        · simp only [List.mem_singleton] at hc
          omega
      rw [hfr x (by omega) hx1, hfr1 x hx hxn]
    · intro a ha
      rw [hd a (by omega), hd1 a ha]

theorem sort_run (stdSort : (α → α → Bool) → List α → List α) (pred : α → α → Bool)
    (fuel : Nat) (h : Heap α) (L : DList) (ns : List Nat)
    (hL : IsList h L ns) (hf : ns.length ≤ fuel)
    (hperm : (stdSort pred (elems h ns)).Perm (elems h ns)) :
    ∃ h' L' ns', sort stdSort pred fuel h L = .ok (h', L') ∧ IsList h' L' ns' ∧
      elems h' ns' = (if 1 < ns.length then stdSort pred (elems h ns) else elems h ns) ∧
      L'._size = L._size ∧ ns'.length = ns.length ∧
      (∀ x, x < h.length → x ∉ ns → Heap.get h' x = Heap.get h x) ∧
      h.length ≤ h'.length ∧ (∀ m ∈ ns', m ∈ ns ∨ h.length ≤ m) := by
  have hz := hL.2.2.2.2.1
  by_cases hgt : 1 < ns.length
  · have hsz : L._size > 1 := by rw [hz]; exact hgt
    have hfw := IsList.forward h L ns fuel hL hf
    obtain ⟨hc, hrunc, hlenc, hfrc⟩ := clearLoop_spec h none ns fuel hL.1 hL.2.1 hf
    rw [← hL.2.2.1] at hrunc
    have hLc : IsList hc ⟨none, none, 0⟩ [] :=
      ⟨List.nodup_nil, trivial, rfl, rfl, rfl, by decide⟩
    have hlen : (stdSort pred (elems h ns)).length = ns.length := by
      rw [hperm.length_eq, elems_length h none ns none hL.2.1]
    have hb : ([] : List Nat).length + (stdSort pred (elems h ns)).length < SIZE_RANGE := by
      rw [hlen]
      simpa using hL.2.2.2.2.2
    obtain ⟨h', L', ms, hrun, hL', hel, hle, hms, hfr, _⟩ :=
      pushAll_spec hc ⟨none, none, 0⟩ [] (stdSort pred (elems h ns)) hLc hb
    simp only [List.nil_append] at hL' hel
    have hel' : elems h' ms = stdSort pred (elems h ns) := by simpa [elems] using hel
    have hmslen : ms.length = ns.length := by
      rw [← elems_length h' none ms none hL'.2.1, hel', hlen]
    refine ⟨h', L', ms, ?_, hL', ?_, ?_, hmslen, ?_, by omega, ?_⟩
    · simp only [sort, hsz, if_true, hfw, clear, hrunc, bind_ok, pure_ok]
      exact hrun
    · rw [hel']
      simp [hgt]
    · rw [hL'.2.2.2.2.1, hmslen, hz]
    · intro x hx hxn
      rw [hfr x (by omega) (by simp), hfrc x hxn]
    · intro m hm
      right
      have := hms m hm
      omega
  · have hsz : ¬ L._size > 1 := by rw [hz]; exact hgt
    refine ⟨h, L, ns, ?_, hL, ?_, rfl, rfl, fun _ _ _ => rfl, Nat.le_refl _,
      fun m hm => Or.inl hm⟩
    · simp only [sort, hsz, if_false]
    · simp [hgt]

/-! ### Orderings and sorted permutations -/

theorem StrictWeak.asymm {pred : α → α → Bool} (hsw : StrictWeak pred) (a b : α)
    (hab : pred a b = true) : pred b a = false := by
  cases hba : pred b a with
  | false => rfl
  | true =>
    have := hsw.2.1 a b a hab hba
    rw [hsw.1 a] at this
    cases this

theorem StrictWeak.ge_trans {pred : α → α → Bool} (hsw : StrictWeak pred) (a b c : α)
    (h1 : pred b a = false) (h2 : pred c b = false) : pred c a = false := by
  cases hca : pred c a with
  | false => rfl
  | true =>
    cases hbc : pred b c with
    | true =>
      have := hsw.2.1 b c a hbc hca
      rw [h1] at this
      cases this
    | false =>
      cases hab : pred a b with
      | true =>
        have := hsw.2.1 c a b hca hab
        rw [h2] at this
        cases this
      | false =>
        have := (hsw.2.2 c b a h2 hbc h1 hab).1
        rw [hca] at this
        cases this

theorem equiv_iff (pred : α → α → Bool) (a b : α) :
    equiv pred a b = true ↔ pred a b = false ∧ pred b a = false := by
  unfold equiv
  cases pred a b <;> cases pred b a <;> simp

theorem equiv_symm (pred : α → α → Bool) (a b : α) (hab : equiv pred a b = true) :
    equiv pred b a = true := by
  rw [equiv_iff] at hab ⊢
  exact ⟨hab.2, hab.1⟩

theorem StrictWeak.equiv_trans {pred : α → α → Bool} (hsw : StrictWeak pred) (a b c : α)
    (hab : equiv pred a b = true) (hbc : equiv pred b c = true) : equiv pred a c = true := by
  rw [equiv_iff] at hab hbc ⊢
  exact hsw.2.2 a b c hab.1 hab.2 hbc.1 hbc.2

theorem insertSorted_perm (pred : α → α → Bool) (x : α) (l : List α) :
    (insertSorted pred x l).Perm (x :: l) := by
  induction l with
  | nil => exact List.Perm.refl _
  | cons y ys ih =>
    unfold insertSorted
    split
    · exact (List.Perm.cons y ih).trans (List.Perm.swap x y ys)
    · exact List.Perm.refl _

theorem insertionSort_perm (pred : α → α → Bool) (l : List α) :
    (insertionSort pred l).Perm l := by
  induction l with
  | nil => exact List.Perm.refl _
  | cons x xs ih =>
    show (insertSorted pred x (insertionSort pred xs)).Perm (x :: xs)
    exact (insertSorted_perm pred x _).trans (List.Perm.cons x ih)

theorem insertSorted_sorted {pred : α → α → Bool} (hsw : StrictWeak pred) (x : α)
    (l : List α) (hl : l.Pairwise (fun a b => pred b a = false)) :
    (insertSorted pred x l).Pairwise (fun a b => pred b a = false) := by
  induction l with
  | nil => simp [insertSorted]
  | cons y ys ih =>
    obtain ⟨hy, hys⟩ := List.pairwise_cons.1 hl
    unfold insertSorted
    split
    · rename_i hyx
      refine List.pairwise_cons.2 ⟨?_, ih hys⟩
      intro z hz
      rcases List.mem_cons.1 ((insertSorted_perm pred x ys).mem_iff.1 hz) with e | hz
      · rw [e]
        exact hsw.asymm y x hyx
      · exact hy z hz
    · rename_i hyx
      have hyx' : pred y x = false := by
        cases hp : pred y x with
        | false => rfl
        | true => exact absurd hp hyx
      refine List.pairwise_cons.2 ⟨?_, hl⟩
      intro z hz
      rcases List.mem_cons.1 hz with e | hz
      · rw [e]
        exact hyx'
      · exact hsw.ge_trans x y z hyx' (hy z hz)

theorem insertionSort_sorted {pred : α → α → Bool} (hsw : StrictWeak pred) (l : List α) :
    (insertionSort pred l).Pairwise (fun a b => pred b a = false) := by
  induction l with
  | nil => exact List.Pairwise.nil
  | cons x xs ih => exact insertSorted_sorted hsw x _ ih

theorem insertionSort_meets_spec :
    StdSortSpec (insertionSort : (α → α → Bool) → List α → List α) :=
  fun pred hsw xs => ⟨insertionSort_perm pred xs, insertionSort_sorted hsw xs⟩

theorem sorted_perm_unique {pred : α → α → Bool} (l1 l2 : List α) (hp : l1.Perm l2)
    (h1 : l1.Pairwise (fun a b => pred b a = false))
    (h2 : l2.Pairwise (fun a b => pred b a = false))
    (hinj : ∀ x ∈ l1, ∀ y ∈ l1, equiv pred x y = true → x = y) : l1 = l2 := by
  induction l1 generalizing l2 with
  | nil => exact (List.Perm.nil_eq hp)
  | cons a t1 ih =>
    cases l2 with
    | nil => exact absurd hp.symm (List.not_perm_nil_cons _ _)
    | cons b t2 =>
      obtain ⟨ha, ht1⟩ := List.pairwise_cons.1 h1
      obtain ⟨hb, ht2⟩ := List.pairwise_cons.1 h2
      have hab : a = b := by
        by_cases e : a = b
        · exact e
        · have hbin : b ∈ a :: t1 := hp.mem_iff.2 (List.mem_cons_self _ _)
          have hain : a ∈ b :: t2 := hp.mem_iff.1 (List.mem_cons_self _ _)
          have hb1 : b ∈ t1 := by
            rcases List.mem_cons.1 hbin with e' | hm
            · exact absurd e'.symm e
            · exact hm
          have ha2 : a ∈ t2 := by
            rcases List.mem_cons.1 hain with e' | hm
            · exact absurd e' e
            · exact hm
          exact hinj a (List.mem_cons_self _ _) b hbin
            ((equiv_iff pred a b).2 ⟨hb a ha2, ha b hb1⟩)
      subst hab
      have hpt : t1.Perm t2 := (List.perm_cons a).1 hp
      rw [ih t2 hpt ht1 ht2
        (fun x hx y hy => hinj x (List.mem_cons_of_mem _ hx) y (List.mem_cons_of_mem _ hy))]

theorem ltInt_strictWeak : StrictWeak ltInt := by
  refine ⟨?_, ?_, ?_⟩
  · intro a
    simp [ltInt]
  · intro a b c
    simp only [ltInt, decide_eq_true_eq]
    omega
  · intro a b c
    simp only [ltInt, decide_eq_false_iff_not]
    omega

theorem ltInt_equiv_eq (a b : Int) (hab : equiv ltInt a b = true) : a = b := by
  rw [equiv_iff] at hab
  simp only [ltInt, decide_eq_false_iff_not] at hab
  omega

theorem keyLess_strictWeak : StrictWeak keyLess := by
  refine ⟨?_, ?_, ?_⟩
  · intro a
    simp [keyLess]
  · intro a b c
    simp only [keyLess, decide_eq_true_eq]
    omega
  · intro a b c
    simp only [keyLess, decide_eq_false_iff_not]
    omega

/-! ### The loop bounds of the `std::sort` model -/

theorem compAt_of_length_le (comp : α → α → Bool) (a : List α) (i j : Nat)
    (hi : a.length ≤ i) : compAt comp a i j = false := by
  simp [compAt, List.getElem?_eq_none hi]

/-- The upward scan of `__unguarded_partition` does not depend on its bound
once the bound reaches the end of the vector. -/
theorem unguarded_partition_up_bound (comp : α → α → Bool) (a : List α) (pivot : Nat)
    (f1 : Nat) : ∀ (f2 first : Nat), a.length ≤ first + f1 → a.length ≤ first + f2 →
      __unguarded_partition_up comp a pivot f1 first
        = __unguarded_partition_up comp a pivot f2 first := by
  induction f1 with
  | zero =>
    intro f2 first h1 _
    have hc := compAt_of_length_le comp a first pivot (by omega)
    cases f2 <;> simp [__unguarded_partition_up, hc]
  | succ k ih =>
    intro f2 first h1 h2
    cases f2 with
    | zero =>
      have hc := compAt_of_length_le comp a first pivot (by omega)
      simp [__unguarded_partition_up, hc]
    | succ m =>
      simp only [__unguarded_partition_up]
      split
      · exact ih m (first + 1) (by omega) (by omega)
      · rfl

theorem unguarded_partition_down_le (comp : α → α → Bool) (a : List α) (pivot : Nat)
    (last : Nat) : __unguarded_partition_down comp a pivot last ≤ last := by
  induction last with
  | zero => simp [__unguarded_partition_down]
  | succ n ih =>
    simp only [__unguarded_partition_down]
    split
    · omega
    · exact Nat.le_refl _

/-- The loop of `__unguarded_partition` does not depend on its bound once the
bound is positive and at least `last`. -/
theorem unguarded_partition_bound (comp : α → α → Bool) (pivot : Nat) (f1 : Nat) :
    ∀ (f2 : Nat) (a : List α) (first last : Nat), last ≤ f1 → last ≤ f2 → 0 < f1 → 0 < f2 →
      __unguarded_partition comp pivot f1 a first last
        = __unguarded_partition comp pivot f2 a first last := by
  induction f1 with
  | zero =>
    intro f2 a first last _ _ h0 _
    exact absurd h0 (Nat.lt_irrefl 0)
  | succ k ih =>
    intro f2 a first last h1 h2 _ h0
    cases f2 with
    | zero => exact absurd h0 (Nat.lt_irrefl 0)
    | succ m =>
      have hd := unguarded_partition_down_le comp a pivot (last - 1)
      simp only [__unguarded_partition]
      split
      · rename_i hlt
        exact ih m _ _ _ (by omega) (by omega) (by omega) (by omega)
      · rfl

/-- The loop of `__push_heap` does not depend on its bound once the bound is
at least `holeIndex`. -/
theorem push_heap_bound (comp : α → α → Bool) (first topIndex : Nat) (value : α) (f1 : Nat) :
    ∀ (f2 : Nat) (a : List α) (holeIndex : Nat), holeIndex ≤ f1 → holeIndex ≤ f2 →
      __push_heap comp first topIndex value f1 a holeIndex
        = __push_heap comp first topIndex value f2 a holeIndex := by
  induction f1 with
  | zero =>
    intro f2 a holeIndex h1 _
    have h0 : holeIndex = 0 := by omega
    subst h0
    cases f2 <;> simp [__push_heap]
  | succ k ih =>
    intro f2 a holeIndex h1 h2
    cases f2 with
    | zero =>
      have h0 : holeIndex = 0 := by omega
      subst h0
      simp [__push_heap]
    | succ m =>
      simp only [__push_heap]
      split
      · exact ih m _ _ (by omega) (by omega)
      · rfl

/-- The loop of `__adjust_heap` does not depend on its bound once the bound
covers the distance from `secondChild` to `(len - 1) / 2`. -/
theorem adjust_heap_loop_bound (comp : α → α → Bool) (first len : Nat) (f1 : Nat) :
    ∀ (f2 : Nat) (a : List α) (holeIndex secondChild : Nat),
      (len - 1) / 2 ≤ secondChild + f1 → (len - 1) / 2 ≤ secondChild + f2 →
      __adjust_heap_loop comp first len f1 a holeIndex secondChild
        = __adjust_heap_loop comp first len f2 a holeIndex secondChild := by
  induction f1 with
  | zero =>
    intro f2 a holeIndex secondChild h1 _
    have hn : ¬ secondChild < (len - 1) / 2 := by omega
    cases f2 <;> simp [__adjust_heap_loop, hn]
  | succ k ih =>
    intro f2 a holeIndex secondChild h1 h2
    cases f2 with
    | zero =>
      have hn : ¬ secondChild < (len - 1) / 2 := by omega
      simp [__adjust_heap_loop, hn]
    | succ m =>
      simp only [__adjust_heap_loop]
      split
      · split
        · exact ih m _ _ _ (by omega) (by omega)
        · exact ih m _ _ _ (by omega) (by omega)
      · rfl

/-! ### The insertion sort of `std::sort` -/

theorem getElem?_append_length (pre : List α) (y : α) (post : List α) :
    (pre ++ y :: post)[pre.length]? = some y := by
  induction pre with
  | nil => simp
  | cons p pre ih => simpa using ih

theorem set_append_length (pre : List α) (y z : α) (post : List α) :
    (pre ++ y :: post).set pre.length z = pre ++ z :: post := by
  induction pre with
  | nil => rfl
  | cons p pre ih => simp [ih]

theorem assignAt_snoc (q : List α) (e y : α) (post : List α) :
    assignAt (q ++ e :: y :: post) (q.length + 1) q.length = q ++ e :: e :: post := by
  have h1 : (q ++ e :: y :: post)[q.length]? = some e := getElem?_append_length q e _
  have h2 : (q ++ e :: y :: post).set (q.length + 1) e = q ++ e :: e :: post := by
    have := set_append_length (q ++ [e]) y e post
    simp only [List.length_append, List.length_singleton, List.append_assoc,
      List.singleton_append] at this
    exact this
  simp only [assignAt, h1, h2]

theorem insertBack_snoc (comp : α → α → Bool) (val : α) (q : List α) (e : α) :
    insertBack comp val (q ++ [e])
      = if comp val e then insertBack comp val q ++ [e] else q ++ [e, val] := by
  unfold insertBack
  rw [List.reverse_append, List.reverse_singleton, List.singleton_append]
  by_cases hc : comp val e = true
  · simp [insertRev, hc]
  · simp [insertRev, hc]

theorem unguarded_linear_insert_loop_spec (comp : α → α → Bool) (val : α) (pre : List α) :
    ∀ (y : α) (post : List α),
      __unguarded_linear_insert_loop comp val pre.length (pre ++ y :: post)
        = insertBack comp val pre ++ post := by
  induction pre using List.reverseRecOn with
  | nil =>
    intro y post
    rfl
  | append_singleton q e ih =>
    intro y post
    have hlen : (q ++ [e]).length = q.length + 1 := by simp
    have harr : q ++ [e] ++ y :: post = q ++ e :: y :: post := by simp
    rw [hlen, harr, insertBack_snoc]
    have hget : (q ++ e :: y :: post)[q.length]? = some e := getElem?_append_length q e _
    by_cases hc : comp val e = true
    · simp only [__unguarded_linear_insert_loop, compValAt, hget, hc, if_true]
      rw [assignAt_snoc, ih e (e :: post)]
      simp
    · have hset : (q ++ e :: y :: post).set (q.length + 1) val = q ++ e :: val :: post := by
        have := set_append_length (q ++ [e]) y val post
        simp only [List.length_append, List.length_singleton, List.append_assoc,
          List.singleton_append] at this
        exact this
      simp only [__unguarded_linear_insert_loop, compValAt, hget, hc, hset]
      simp

theorem unguarded_linear_insert_spec (comp : α → α → Bool) (pre : List α) (x : α)
    (post : List α) :
    __unguarded_linear_insert comp (pre ++ x :: post) pre.length
      = insertBack comp x pre ++ post := by
  simp only [__unguarded_linear_insert, getElem?_append_length]
  exact unguarded_linear_insert_loop_spec comp x pre x post

theorem move_backward_succ (t : Nat) (a : List α) :
    move_backward 0 (t + 1) a = move_backward 0 t (assignAt a (t + 1) t) := by
  rw [move_backward, if_pos (Nat.zero_lt_succ t)]

theorem move_backward_spec (p : α) (pt : List α) :
    ∀ (y : α) (post : List α),
      move_backward 0 (pt.length + 1) (p :: pt ++ y :: post) = p :: p :: pt ++ post := by
  induction pt using List.reverseRecOn with
  | nil =>
    intro y post
    rfl
  | append_singleton q e ih =>
    intro y post
    have hlen : (q ++ [e]).length + 1 = (p :: q).length + 1 := by simp
    have harr : p :: (q ++ [e]) ++ y :: post = (p :: q) ++ e :: y :: post := by simp
    rw [hlen, harr, move_backward_succ, assignAt_snoc (p :: q) e y post]
    have := ih e (e :: post)
    simp only [List.length_cons, List.cons_append] at this ⊢
    rw [this]
    simp

theorem insertion_sort_step_spec (comp : α → α → Bool) (p : α) (pt : List α) (x : α)
    (post : List α) :
    __insertion_sort_step comp (p :: pt ++ x :: post) 0 (pt.length + 1)
      = insertionStep comp (p :: pt) x ++ post := by
  have hget : (p :: pt ++ x :: post)[pt.length + 1]? = some x := by
    have := getElem?_append_length (p :: pt) x post
    simpa using this
  have h0 : (p :: pt ++ x :: post)[0]? = some p := by simp
  by_cases hc : comp x p = true
  · simp only [__insertion_sort_step, compAt, hget, h0, hc, if_true, insertionStep]
    rw [move_backward_spec p pt x post]
    rfl
  · simp only [__insertion_sort_step, compAt, hget, h0, hc, insertionStep]
    have := unguarded_linear_insert_spec comp (p :: pt) x post
    simpa using this

theorem insertRev_length (comp : α → α → Bool) (val : α) (l : List α) :
    (insertRev comp val l).length = l.length + 1 := by
  induction l with
  | nil => rfl
  | cons e r ih =>
    by_cases hc : comp val e = true
    · simp [insertRev, hc, ih]
    · simp [insertRev, hc]

theorem insertionStep_length (comp : α → α → Bool) (pre : List α) (x : α) :
    (insertionStep comp pre x).length = pre.length + 1 := by
  cases pre with
  | nil => rfl
  | cons p pt =>
    by_cases hc : comp x p = true
    · simp [insertionStep, hc]
    · simp [insertionStep, hc, insertBack, insertRev_length]

theorem insertion_sort_loop_spec (comp : α → α → Bool) (rest : List α) :
    ∀ (pre : List α), pre ≠ [] →
      __insertion_sort_loop comp 0 rest.length pre.length (pre ++ rest)
        = rest.foldl (insertionStep comp) pre := by
  induction rest with
  | nil =>
    intro pre _
    simp [__insertion_sort_loop]
  | cons x rest ih =>
    intro pre hne
    cases pre with
    | nil => exact absurd rfl hne
    | cons p pt =>
      have hstep := insertion_sort_step_spec comp p pt x rest
      have hl := insertionStep_length comp (p :: pt) x
      have hne' : insertionStep comp (p :: pt) x ≠ [] := by
        intro e
        rw [e] at hl
        simp at hl
      have := ih (insertionStep comp (p :: pt) x) hne'
      rw [hl] at this
      simp only [List.length_cons, __insertion_sort_loop, List.foldl_cons] at this ⊢
      rw [hstep]
      exact this

theorem lg_loop_eq_log2 (fuel : Nat) : ∀ n, n ≤ fuel → __lg_loop fuel n = Nat.log2 n := by
  induction fuel with
  | zero =>
    intro n hn
    have : n = 0 := by omega
    subst this
    rw [Nat.log2]
    simp [__lg_loop]
  | succ f ih =>
    intro n hn
    rw [Nat.log2]
    by_cases h2 : n < 2
    · have : ¬ n ≥ 2 := by omega
      simp [__lg_loop, h2, this]
    · have : n ≥ 2 := by omega
      simp only [__lg_loop, h2, this, if_true, if_false]
      rw [ih (n / 2) (by omega)]

theorem lg_eq_log2 (n : Nat) : __lg n = Nat.log2 n :=
  lg_loop_eq_log2 n n (Nat.le_refl n)

theorem introsort_loop_small (comp : α → α → Bool) (depth : Nat) (a : List α)
    (first last : Nat) (hn : last - first ≤ _S_threshold) :
    __introsort_loop comp depth a first last = a := by
  have : ¬ last - first > _S_threshold := by omega
  cases depth <;> simp only [__introsort_loop, this, if_false]

theorem std_sort_small (comp : α → α → Bool) (x : α) (rest : List α)
    (hn : (x :: rest).length ≤ _S_threshold) :
    std_sort comp (x :: rest) = rest.foldl (insertionStep comp) [x] := by
  have h1 : ¬ (x :: rest).length = 0 := by simp
  have h2 : ¬ (x :: rest).length - 0 > _S_threshold := by
    simp only [Nat.sub_zero]
    omega
  have h3 : ¬ 0 = (x :: rest).length := by simp
  unfold std_sort
  rw [if_neg h1, introsort_loop_small comp _ _ 0 _ (by simpa using hn)]
  unfold __final_insertion_sort
  rw [if_neg h2]
  unfold __insertion_sort
  rw [if_neg h3]
  have := insertion_sort_loop_spec comp rest [x] (by simp)
  simpa using this

/-! ### Insertion sort: permutation, order, stability, sorted input -/

theorem insertRev_perm (comp : α → α → Bool) (val : α) (l : List α) :
    (insertRev comp val l).Perm (val :: l) := by
  induction l with
  | nil => exact List.Perm.refl _
  | cons e r ih =>
    by_cases hc : comp val e = true
    · simp only [insertRev, hc, if_true]
      exact (List.Perm.cons e ih).trans (List.Perm.swap val e r)
    · simp only [insertRev, hc]
      exact List.Perm.refl _

theorem insertBack_perm (comp : α → α → Bool) (val : α) (l : List α) :
    (insertBack comp val l).Perm (l ++ [val]) := by
  unfold insertBack
  refine (List.reverse_perm _).trans ((insertRev_perm comp val l.reverse).trans ?_)
  exact (List.Perm.cons val (List.reverse_perm l)).trans (List.perm_append_singleton val l).symm

theorem insertionStep_perm (comp : α → α → Bool) (pre : List α) (x : α) :
    (insertionStep comp pre x).Perm (pre ++ [x]) := by
  cases pre with
  | nil => exact List.Perm.refl _
  | cons p pt =>
    by_cases hc : comp x p = true
    · simp only [insertionStep, hc, if_true]
      exact (List.perm_append_singleton x (p :: pt)).symm
    · simp only [insertionStep, hc]
      exact insertBack_perm comp x (p :: pt)

theorem insertionFold_perm (comp : α → α → Bool) (rest : List α) :
    ∀ pre : List α, (rest.foldl (insertionStep comp) pre).Perm (pre ++ rest) := by
  induction rest with
  | nil =>
    intro pre
    simp
  | cons x rest ih =>
    intro pre
    rw [List.foldl_cons]
    refine (ih _).trans ?_
    have := (insertionStep_perm comp pre x).append_right rest
    simpa using this

/-- A range listed from its end is in order when no element is ordered before
a later one of the listing. -/
theorem insertRev_sorted {comp : α → α → Bool} (hsw : StrictWeak comp) (val : α) (l : List α)
    (hl : l.Pairwise (fun a b => comp a b = false)) :
    (insertRev comp val l).Pairwise (fun a b => comp a b = false) := by
  induction l with
  | nil => exact List.pairwise_singleton _ _
  | cons e r ih =>
    obtain ⟨he, hr⟩ := List.pairwise_cons.1 hl
    by_cases hc : comp val e = true
    · simp only [insertRev, hc, if_true]
      refine List.pairwise_cons.2 ⟨?_, ih hr⟩
      intro b hb
      rcases List.mem_cons.1 ((insertRev_perm comp val r).mem_iff.1 hb) with e1 | hm
      · rw [e1]
        exact hsw.asymm val e hc
      · exact he b hm
    · simp only [insertRev, hc]
      have hve : comp val e = false := by simpa using hc
      refine List.pairwise_cons.2 ⟨?_, hl⟩
      intro b hb
      rcases List.mem_cons.1 hb with e1 | hm
      · rw [e1]
        exact hve
      · exact hsw.ge_trans b e val (he b hm) hve

theorem insertBack_sorted {comp : α → α → Bool} (hsw : StrictWeak comp) (val : α) (l : List α)
    (hl : l.Pairwise (fun a b => comp b a = false)) :
    (insertBack comp val l).Pairwise (fun a b => comp b a = false) := by
  unfold insertBack
  rw [List.pairwise_reverse]
  apply insertRev_sorted hsw
  rw [List.pairwise_reverse]
  exact hl

theorem lt_all_of_lt_head {comp : α → α → Bool} (hsw : StrictWeak comp) (x p : α)
    (pt : List α) (hl : (p :: pt).Pairwise (fun a b => comp b a = false))
    (hc : comp x p = true) : ∀ e ∈ p :: pt, comp x e = true := by
  intro e he
  have hep : comp e p = false := by
    rcases List.mem_cons.1 he with e1 | hm
    · rw [e1]
      exact hsw.1 p
    · exact (List.pairwise_cons.1 hl).1 e hm
  cases hxe : comp x e with
  | true => rfl
  | false =>
    have := hsw.ge_trans p e x hep hxe
    rw [hc] at this
    cases this

theorem insertionStep_sorted {comp : α → α → Bool} (hsw : StrictWeak comp) (pre : List α)
    (x : α) (hl : pre.Pairwise (fun a b => comp b a = false)) :
    (insertionStep comp pre x).Pairwise (fun a b => comp b a = false) := by
  cases pre with
  | nil => exact List.pairwise_singleton _ _
  | cons p pt =>
    by_cases hc : comp x p = true
    · simp only [insertionStep, hc, if_true]
      refine List.pairwise_cons.2 ⟨?_, hl⟩
      intro e he
      exact hsw.asymm x e (lt_all_of_lt_head hsw x p pt hl hc e he)
    · simp only [insertionStep, hc]
      exact insertBack_sorted hsw x _ hl

theorem insertionFold_sorted {comp : α → α → Bool} (hsw : StrictWeak comp) (rest : List α) :
    ∀ pre : List α, pre.Pairwise (fun a b => comp b a = false) →
      (rest.foldl (insertionStep comp) pre).Pairwise (fun a b => comp b a = false) := by
  induction rest with
  | nil =>
    intro pre hl
    exact hl
  | cons x rest ih =>
    intro pre hl
    rw [List.foldl_cons]
    exact ih _ (insertionStep_sorted hsw pre x hl)

theorem filter_equiv_eq_nil {comp : α → α → Bool} (hsw : StrictWeak comp) (c x : α)
    (l : List α) (hcx : equiv comp c x = true) (hlt : ∀ e ∈ l, comp x e = true) :
    l.filter (fun y => equiv comp c y) = [] := by
  rw [List.filter_eq_nil_iff]
  intro e he hce
  have hxe := hsw.equiv_trans x c e (equiv_symm comp c x hcx) hce
  rw [equiv_iff] at hxe
  rw [hlt e he] at hxe
  cases hxe.1

theorem insertRev_filter {comp : α → α → Bool} (hsw : StrictWeak comp) (c val : α)
    (l : List α) :
    (insertRev comp val l).filter (fun y => equiv comp c y)
      = (val :: l).filter (fun y => equiv comp c y) := by
  induction l with
  | nil => rfl
  | cons e r ih =>
    by_cases hc : comp val e = true
    · simp only [insertRev, hc, if_true]
      rw [List.filter_cons, ih]
      by_cases h1 : equiv comp c val = true
      · have h2 : equiv comp c e = false := by
          cases h : equiv comp c e with
          | false => rfl
          | true =>
            have hve := hsw.equiv_trans val c e (equiv_symm comp c val h1) h
            rw [equiv_iff] at hve
            rw [hc] at hve
            cases hve.1
        simp [List.filter_cons, h1, h2]
      · have h1' : equiv comp c val = false := by simpa using h1
        simp [List.filter_cons, h1']
    · simp [insertRev, hc]

theorem insertBack_filter {comp : α → α → Bool} (hsw : StrictWeak comp) (c val : α)
    (l : List α) :
    (insertBack comp val l).filter (fun y => equiv comp c y)
      = (l ++ [val]).filter (fun y => equiv comp c y) := by
  unfold insertBack
  have hrev : val :: l.reverse = (l ++ [val]).reverse := by simp
  rw [List.filter_reverse, insertRev_filter hsw, hrev, List.filter_reverse, List.reverse_reverse]

theorem insertionStep_filter {comp : α → α → Bool} (hsw : StrictWeak comp) (c : α)
    (pre : List α) (x : α) (hl : pre.Pairwise (fun a b => comp b a = false)) :
    (insertionStep comp pre x).filter (fun y => equiv comp c y)
      = (pre ++ [x]).filter (fun y => equiv comp c y) := by
  cases pre with
  | nil => rfl
  | cons p pt =>
    by_cases hc : comp x p = true
    · simp only [insertionStep, hc, if_true]
      by_cases h1 : equiv comp c x = true
      · have hnil := filter_equiv_eq_nil hsw c x (p :: pt) h1
          (lt_all_of_lt_head hsw x p pt hl hc)
        rw [List.filter_append, hnil, List.filter_cons, if_pos h1, hnil]
        simp [h1]
      · have h1' : equiv comp c x = false := by simpa using h1
        rw [List.filter_append, List.filter_cons]
        simp [h1']
    · simp only [insertionStep, hc]
      exact insertBack_filter hsw c x (p :: pt)

theorem insertionFold_filter {comp : α → α → Bool} (hsw : StrictWeak comp) (c : α)
    (rest : List α) :
    ∀ pre : List α, pre.Pairwise (fun a b => comp b a = false) →
      (rest.foldl (insertionStep comp) pre).filter (fun y => equiv comp c y)
        = (pre ++ rest).filter (fun y => equiv comp c y) := by
  induction rest with
  | nil =>
    intro pre _
    simp
  | cons x rest ih =>
    intro pre hl
    have happ : pre ++ x :: rest = (pre ++ [x]) ++ rest := by simp
    rw [List.foldl_cons, ih _ (insertionStep_sorted hsw pre x hl), List.filter_append,
      insertionStep_filter hsw c pre x hl, happ, List.filter_append (pre ++ [x])]

theorem insertBack_of_sorted (comp : α → α → Bool) (p : α) (pt : List α) (x : α)
    (hl : (p :: pt ++ [x]).Pairwise (fun a b => comp b a = false)) :
    insertBack comp x (p :: pt) = p :: pt ++ [x] := by
  obtain ⟨q, e, hq⟩ : ∃ q e, p :: pt = q ++ [e] := by
    rcases List.eq_nil_or_concat (p :: pt) with h | ⟨q, e, h⟩
    · cases h
    · exact ⟨q, e, by simpa using h⟩
  rw [hq] at hl ⊢
  have hxe : comp x e = false := by
    have := List.pairwise_append.1 hl
    exact this.2.2 e (by simp) x (by simp)
  rw [insertBack_snoc]
  simp [hxe]

theorem insertionStep_of_sorted (comp : α → α → Bool) (p : α) (pt : List α) (x : α)
    (hl : (p :: pt ++ [x]).Pairwise (fun a b => comp b a = false)) :
    insertionStep comp (p :: pt) x = p :: pt ++ [x] := by
  have hxp : comp x p = false := by
    have := (List.pairwise_cons.1 hl).1 x (by simp)
    exact this
  simp only [insertionStep, hxp]
  exact insertBack_of_sorted comp p pt x hl

theorem insertionFold_of_sorted (comp : α → α → Bool) (rest : List α) :
    ∀ (p : α) (pt : List α), (p :: pt ++ rest).Pairwise (fun a b => comp b a = false) →
      rest.foldl (insertionStep comp) (p :: pt) = p :: pt ++ rest := by
  induction rest with
  | nil =>
    intro p pt _
    simp
  | cons x rest ih =>
    intro p pt hl
    have hl1 : (p :: pt ++ [x]).Pairwise (fun a b => comp b a = false) := by
      have : p :: pt ++ x :: rest = (p :: pt ++ [x]) ++ rest := by simp
      rw [this] at hl
      exact (List.pairwise_append.1 hl).1
    rw [List.foldl_cons, insertionStep_of_sorted comp p pt x hl1]
    have := ih p (pt ++ [x]) (by simpa using hl)
    simpa using this

/-! ### `std::sort` on at most 16 elements -/

theorem std_sort_small_perm (comp : α → α → Bool) (a : List α)
    (hn : a.length ≤ _S_threshold) : (std_sort comp a).Perm a := by
  cases a with
  | nil => exact List.Perm.refl _
  | cons x rest =>
    rw [std_sort_small comp x rest hn]
    exact insertionFold_perm comp rest [x]

theorem std_sort_small_sorted {comp : α → α → Bool} (hsw : StrictWeak comp) (a : List α)
    (hn : a.length ≤ _S_threshold) :
    (std_sort comp a).Pairwise (fun a b => comp b a = false) := by
  cases a with
  | nil => exact List.Pairwise.nil
  | cons x rest =>
    rw [std_sort_small comp x rest hn]
    exact insertionFold_sorted hsw rest [x] (List.pairwise_singleton _ _)

theorem std_sort_small_stable {comp : α → α → Bool} (hsw : StrictWeak comp) (a : List α)
    (hn : a.length ≤ _S_threshold) (c : α) :
    (std_sort comp a).filter (fun y => equiv comp c y) = a.filter (fun y => equiv comp c y) := by
  cases a with
  | nil => rfl
  | cons x rest =>
    rw [std_sort_small comp x rest hn]
    exact insertionFold_filter hsw c rest [x] (List.pairwise_singleton _ _)

theorem std_sort_small_of_sorted (comp : α → α → Bool) (a : List α)
    (hn : a.length ≤ _S_threshold) (hl : a.Pairwise (fun a b => comp b a = false)) :
    std_sort comp a = a := by
  cases a with
  | nil => rfl
  | cons x rest =>
    rw [std_sort_small comp x rest hn]
    exact insertionFold_of_sorted comp rest x [] hl

theorem sort_run_frame (stdSort : (α → α → Bool) → List α → List α) (pred : α → α → Bool)
    (fuel : Nat) (h : Heap α) (L : DList) (ns : List Nat)
    (hL : IsList h L ns) (hf : ns.length ≤ fuel)
    (hperm : (stdSort pred (elems h ns)).Perm (elems h ns)) :
    ∃ h' L' ns', sort stdSort pred fuel h L = .ok (h', L') ∧ IsList h' L' ns' ∧
      elems h' ns' = (if 1 < ns.length then stdSort pred (elems h ns) else elems h ns) ∧
      L'._size = L._size ∧ ns'.length = ns.length ∧
      ∀ (M : DList) (ms : List Nat), IsList h M ms → (∀ a ∈ ns, a ∉ ms) →
        IsList h' M ms ∧ elems h' ms = elems h ms ∧ (∀ a ∈ ns', a ∉ ms) := by
  obtain ⟨h', L', ns', hrun, hL', hel, hz, hlen, hfr, hle, hnew⟩ :=
    sort_run stdSort pred fuel h L ns hL hf hperm
  refine ⟨h', L', ns', hrun, hL', hel, hz, hlen, ?_⟩
  intro M ms hM hdis
  have hlt : ∀ a ∈ ms, a < h.length := Seg.lt_length h none ms none hM.2.1
  have hget : ∀ a ∈ ms, Heap.get h' a = Heap.get h a :=
    fun a ha => hfr a (hlt a ha) (fun hc => hdis a hc ha)
  refine ⟨⟨hM.1, Seg.congr h h' none ms none hget hM.2.1, hM.2.2.1, hM.2.2.2.1,
    hM.2.2.2.2.1, hM.2.2.2.2.2⟩, ?_, ?_⟩
  · apply elems_congr
    intro a ha
    unfold dataAt
    rw [hget a ha]
  · intro a ha hc
    rcases hnew a ha with h1 | h1
    · exact hdis a h1 hc
    · have := hlt a hc
      omega

/-- C4. `sort(pred)` on a well-formed list, for a strict weak ordering `pred`
and any `std::sort` meeting the standard's contract: the call returns, the
forward traversal `ys` afterwards is a permutation of the traversal `xs`
before, no element of `ys` is preceded by one that `pred` orders strictly
after it, `_size` is unchanged and the list is well formed.  Applied to the
list of `main` (line 19) the result is `{1,3,9,9,22,89,99,355,999,9999}`. -/
theorem sort_spec (stdSort : (β : Type) → (β → β → Bool) → List β → List β)
    (pred : α → α → Bool)
    (fuel : Nat) (h : Heap α) (L : DList) (ns : List Nat) (xs : List α)
    (hstd : ∀ β, StdSortSpec (stdSort β)) (hsw : StrictWeak pred)
    (hL : IsList h L ns) (hf : ns.length ≤ fuel) (hxs : forward h fuel L._head = .ok xs) :
    (∃ h' L' ns' ys, sort (stdSort α) pred fuel h L = .ok (h', L') ∧ IsList h' L' ns' ∧
      forward h' fuel L'._head = .ok ys ∧ ys.Perm xs ∧
      ys.Pairwise (fun a b => pred b a = false) ∧ L'._size = L._size) ∧
    (mainUpToInsert >>= fun r => sort (stdSort Int) ltInt 10 r.1 r.2 >>= fun r' =>
        forward r'.1 10 r'.2._head) = .ok [1, 3, 9, 9, 22, 89, 99, 355, 999, 9999] := by
  have gen : ∀ (β : Type) (srt : (β → β → Bool) → List β → List β) (p : β → β → Bool)
      (g : Heap β) (M : DList) (ms : List Nat) (f : Nat) (vs : List β),
      StdSortSpec srt → StrictWeak p → IsList g M ms → ms.length ≤ f →
      forward g f M._head = .ok vs →
      ∃ g' M' ms' ys, sort srt p f g M = .ok (g', M') ∧ IsList g' M' ms' ∧
        forward g' f M'._head = .ok ys ∧ ys.Perm vs ∧
        ys.Pairwise (fun a b => p b a = false) ∧ M'._size = M._size := by
    intro β srt p g M ms f vs hs hp hM hfm hvs
    rw [IsList.forward g M ms f hM hfm] at hvs
    cases hvs
    obtain ⟨hperm, hsorted⟩ := hs p hp (elems g ms)
    obtain ⟨g', M', ms', hrun, hM', hel, hz, hlen, _⟩ :=
      sort_run srt p f g M ms hM hfm hperm
    refine ⟨g', M', ms', elems g' ms', hrun, hM',
      IsList.forward g' M' ms' f hM' (by omega), ?_, ?_, hz⟩
    · rw [hel]
      split
      · exact hperm
      · exact List.Perm.refl _
    · rw [hel]
      split
      · exact hsorted
      · rename_i hle
        have hl : (elems g ms).length ≤ 1 := by
          rw [elems_length g none ms none hM.2.1]
          omega
        match hm : elems g ms, hl with
        | [], _ => exact List.Pairwise.nil
        | [a], _ => exact List.pairwise_singleton _ a
  refine ⟨gen α (stdSort α) pred h L ns fuel xs (hstd α) hsw hL hf hxs, ?_⟩
  have hmain : mainUpToInsert = .ok mainState := rfl
  have hM : IsList mainState.1 mainState.2 [8, 0, 1, 2, 9, 3, 4, 5, 6, 7] := by decide
  have hfw : forward mainState.1 10 mainState.2._head
      = .ok [355, 3, 9, 9, 9999, 1, 22, 89, 99, 999] := rfl
  obtain ⟨g', M', ms', ys, hrun, _, hys, hperm, hsorted, _⟩ :=
    gen Int (stdSort Int) ltInt mainState.1 mainState.2 _ 10 _ (hstd Int) ltInt_strictWeak hM
      (by decide) hfw
  have hyeq : ys = [1, 3, 9, 9, 22, 89, 99, 355, 999, 9999] := by
    apply sorted_perm_unique ys _ (hperm.trans (by decide)) hsorted (by decide)
    intro x _ y _ hxy
    exact ltInt_equiv_eq x y hxy
  rw [hmain]
  simp only [bind_ok, hrun, hys, hyeq]

theorem sort_spec_witness :
    ∃ h' L' ys, sort insertionSort ltInt 2 sampleHeap sampleA = .ok (h', L') ∧
      forward h' 2 L'._head = .ok ys ∧ ys.Perm [1, 3] ∧
      ys.Pairwise (fun a b => ltInt b a = false) ∧ L'._size = 2 := by
  obtain ⟨⟨h', L', _, ys, hrun, _, hf, hp, hs, hz⟩, _⟩ :=
    sort_spec (fun _ => insertionSort) ltInt 2 sampleHeap sampleA [0, 1] [1, 3]
      (fun _ => insertionSort_meets_spec) ltInt_strictWeak (by decide) (by decide) rfl
  exact ⟨h', L', ys, hrun, hf, hp, hs, hz⟩

theorem sort_run_std_sort (pred : α → α → Bool) (fuel : Nat) (h : Heap α) (L : DList)
    (ns : List Nat) (hL : IsList h L ns) (hf : ns.length ≤ fuel) (hn : ns.length ≤ 16) :
    ∃ h' L' ns', sort std_sort pred fuel h L = .ok (h', L') ∧ IsList h' L' ns' ∧
      elems h' ns' = std_sort pred (elems h ns) ∧
      L'._size = L._size ∧ ns'.length = ns.length ∧
      ∀ (M : DList) (ms : List Nat), IsList h M ms → (∀ a ∈ ns, a ∉ ms) →
        IsList h' M ms ∧ elems h' ms = elems h ms ∧ (∀ a ∈ ns', a ∉ ms) := by
  have hlen : (elems h ns).length = ns.length := elems_length h none ns none hL.2.1
  have hsmall : (elems h ns).length ≤ _S_threshold := by
    rw [hlen]
    exact hn
  obtain ⟨h', L', ns', hrun, hL', hel, hz, hlen', hfr⟩ :=
    sort_run_frame std_sort pred fuel h L ns hL hf (std_sort_small_perm pred _ hsmall)
  refine ⟨h', L', ns', hrun, hL', ?_, hz, hlen', hfr⟩
  rw [hel]
  split
  · rfl
  · rename_i hle
    have hl : (elems h ns).length ≤ 1 := by omega
    match hm : elems h ns, hl with
    | [], _ => rfl
    | [a], _ =>
      exact (std_sort_small_of_sorted pred [a] (by show 1 ≤ 16; omega)
        (List.pairwise_singleton _ a)).symm

set_option maxRecDepth 100000 in
/-- C5, counterexample.  `keyLess` is a strict weak ordering under which any
two of the pairs `(1,0)`, ..., `(1,16)` are equivalent.  The list of these 17
pairs in the order of their tags is sorted by `sort(keyLess)` with the
`std::sort` of libstdc++ into the tag order 8, 16, 15, ..., 9, 0, 7, ..., 1:
the median-of-three step and the partition of the introsort swap equivalent
elements, so for instance `(1,0)` was before `(1,8)` and is behind it after the
call. -/
theorem sort_reorders_equivalent_elements :
    StrictWeak keyLess ∧ equiv keyLess (1, 0) (1, 8) = true ∧
    (construct [] tagged17 >>= fun r => forward r.1 17 r.2._head) = .ok tagged17 ∧
    (construct [] tagged17 >>= fun r =>
      sort std_sort keyLess 17 r.1 r.2 >>= fun r' => forward r'.1 17 r'.2._head)
      = .ok [(1, 8), (1, 16), (1, 15), (1, 14), (1, 13), (1, 12), (1, 11), (1, 10), (1, 9),
        (1, 0), (1, 7), (1, 6), (1, 5), (1, 4), (1, 3), (1, 2), (1, 1)] :=
  ⟨keyLess_strictWeak, rfl, rfl, rfl⟩

/-- C5, amended.  `sort(pred)` with the `std::sort` of libstdc++ on a
well-formed list of at most 16 elements, for a strict weak ordering `pred`:
the call returns, the forward traversal `ys` afterwards is a permutation of
the traversal `xs` before in which no element is preceded by one that `pred`
orders after it, and for every value `c` the elements equivalent to `c` appear
in `ys` in the same order as in `xs`. -/
theorem sort_stable_up_to_sixteen (pred : α → α → Bool)
    (fuel : Nat) (h : Heap α) (L : DList) (ns : List Nat) (xs : List α)
    (hsw : StrictWeak pred) (hL : IsList h L ns) (hf : ns.length ≤ fuel)
    (hxs : forward h fuel L._head = .ok xs) (hn : L._size ≤ 16) :
    ∃ h' L' ys, sort std_sort pred fuel h L = .ok (h', L') ∧
      forward h' fuel L'._head = .ok ys ∧ ys.Perm xs ∧
      ys.Pairwise (fun a b => pred b a = false) ∧
      ∀ c, ys.filter (fun y => equiv pred c y) = xs.filter (fun y => equiv pred c y) := by
  rw [IsList.forward h L ns fuel hL hf] at hxs
  cases hxs
  have hn' : ns.length ≤ 16 := by
    rw [← hL.2.2.2.2.1]
    exact hn
  have hsmall : (elems h ns).length ≤ _S_threshold := by
    rw [elems_length h none ns none hL.2.1]
    exact hn'
  obtain ⟨h', L', ns', hrun, hL', hel, _, hlen, _⟩ :=
    sort_run_std_sort pred fuel h L ns hL hf hn'
  refine ⟨h', L', elems h' ns', hrun, IsList.forward h' L' ns' fuel hL' (by omega), ?_, ?_, ?_⟩
  · rw [hel]
    exact std_sort_small_perm pred _ hsmall
  · rw [hel]
    exact std_sort_small_sorted hsw _ hsmall
  · intro c
    rw [hel]
    exact std_sort_small_stable hsw _ hsmall c

theorem sort_stable_up_to_sixteen_witness :
    ∃ h' L' ys, sort std_sort keyLess 4 taggedHeap taggedA = .ok (h', L') ∧
      forward h' 4 L'._head = .ok ys ∧ ys.Perm taggedSample ∧
      ys.Pairwise (fun a b => keyLess b a = false) ∧
      ∀ c, ys.filter (fun y => equiv keyLess c y)
        = taggedSample.filter (fun y => equiv keyLess c y) :=
  sort_stable_up_to_sixteen keyLess 4 taggedHeap taggedA [0, 1, 2, 3] taggedSample
    keyLess_strictWeak (by decide) (by decide) rfl (by decide)

theorem Iterator.add_seg (h : Heap α) (pv : Option Nat) (ns : List Nat) (n : Nat)
    (hs : Seg h pv ns none) : Iterator.add h (firstOr ns none) n = .ok ns[n]? := by
  induction ns generalizing pv n with
  | nil => cases n <;> rfl
  | cons a rest ih =>
    obtain ⟨nd, h1, _, h3, h4⟩ := hs
    cases n with
    | zero => simp [Iterator.add, firstOr]
    | succ m =>
      show Iterator.add h (some a) (m + 1) = _
      simp only [Iterator.add, load_ok h a nd h1, bind_ok, h3, ih _ m h4,
        List.getElem?_cons_succ]

theorem getElem?_as_firstOr (ns : List Nat) (i : Nat) :
    ns[i]? = firstOr (ns.drop i) none := by
  induction ns generalizing i with
  | nil => simp [firstOr]
  | cons a rest ih =>
    cases i with
    | zero => simp [firstOr]
    | succ j => simpa using ih j

/-- C19. On a well-formed list with node sequence `ns`, `begin() + n` is the
position of the node at index `n` when `n < len` and the end sentinel when
`n >= len` (`ns[n]?` is `none` exactly then); a position at index `i`, or the
end sentinel (`i = len`), advanced by `n` is the position at index `i + n`,
or the end sentinel when `i + n >= len`.  The advance always returns. -/
theorem iterator_add_spec (h : Heap α) (L : DList) (ns : List Nat) (i n : Nat)
    (hL : IsList h L ns) :
    Iterator.add h L._head n = .ok ns[n]? ∧
    Iterator.add h ns[i]? n = .ok ns[i + n]? ∧
    (n < ns.length → ∃ a, Iterator.add h L._head n = .ok (some a) ∧ ns[n]? = some a) ∧
    (ns.length ≤ n → Iterator.add h L._head n = .ok none) := by
  obtain ⟨_, hs, hh, _, _, _⟩ := hL
  have hbegin : Iterator.add h L._head n = .ok ns[n]? := by
    rw [hh]
    exact Iterator.add_seg h none ns n hs
  refine ⟨hbegin, ?_, ?_, ?_⟩
  · have hsplit : Seg h none (ns.take i ++ ns.drop i) none := by
      rw [List.take_append_drop]
      exact hs
    rw [Seg.append] at hsplit
    rw [getElem?_as_firstOr, Iterator.add_seg h _ (ns.drop i) n hsplit.2, List.getElem?_drop]
  · intro hn
    exact ⟨ns[n], by rw [hbegin, List.getElem?_eq_getElem hn], List.getElem?_eq_getElem hn⟩
  · intro hn
    rw [hbegin, List.getElem?_eq_none hn]

theorem iterator_add_spec_witness :
    Iterator.add sampleHeap sampleA._head 1 = .ok (some 1) ∧
    Iterator.add sampleHeap sampleA._head 5 = .ok none := by
  obtain ⟨h1, _, _, h4⟩ := iterator_add_spec sampleHeap sampleA [0, 1] 0 1 (by decide)
  obtain ⟨_, _, _, h5⟩ := iterator_add_spec sampleHeap sampleA [0, 1] 0 5 (by decide)
  exact ⟨h1, h5 (by decide)⟩

/-! ## C13: push_back and push_front -/

theorem push_front_spec (h : Heap α) (L : DList) (ns : List Nat) (v : α)
    (hL : IsList h L ns) (hsz : ns.length + 1 < SIZE_RANGE) :
    ∃ h' L', push_front h L v = .ok (h', L') ∧ IsList h' L' (h.length :: ns) ∧
      h'.length = h.length + 1 ∧
      (∀ a, a < h.length → dataAt h' a = dataAt h a) ∧
      dataAt h' h.length = some v ∧
      L'._size = L._size + 1 := by
  obtain ⟨hnd, hs, hh, ht, hz, _⟩ := hL
  have hlt : ∀ a ∈ ns, a < h.length := Seg.lt_length h none _ none hs
  have hnn : h.length ∉ ns := fun hc => Nat.lt_irrefl _ (hlt _ hc)
  have hsum : incSize L._size = L._size + 1 := by
    rw [hz]
    exact Nat.mod_eq_of_lt hsz
  have hnd' : (h.length :: ns).Nodup := List.nodup_cons.2 ⟨hnn, hnd⟩
  cases ns with
  | nil =>
    have hT : L._tail = none := ht
    have hH : L._head = none := hh
    obtain ⟨h1, hal, S1, G1, D1, l1⟩ := alloc_props h ⟨v, none, none⟩ [] hs
    refine ⟨h1, ⟨some h.length, some h.length, incSize L._size⟩, ?_, ?_, l1, D1, ?_, hsum⟩
    · simp only [push_front, emplace_front, hal, hT, hH]
    · refine ⟨hnd', ?_, rfl, rfl, ?_, ?_⟩
      · refine ⟨⟨v, none, none⟩, ?_, rfl, rfl, trivial⟩
        rw [G1]
        simp
      · show incSize L._size = _
        rw [hsum, hz]
        rfl
      · exact hsz
    · unfold dataAt
      rw [G1]
      simp
  | cons x rest =>
    have hH : L._head = some x := hh
    obtain ⟨t, hT⟩ : ∃ t, L._tail = some t := by
      rw [ht]
      exact lastOr_some rest x
    have hxr : x ∉ rest := (List.nodup_cons.1 hnd).1
    have hxl : x < h.length := hlt x (by simp)
    obtain ⟨h1, hal, S1, G1, D1, l1⟩ := alloc_props h ⟨v, none, some x⟩ _ hs
    obtain ⟨xn, hxn, _, _⟩ := Seg.head_get h1 _ x rest none S1
    have hl1 := Heap.lt_of_get h1 x xn hxn
    have e2 := setPrev_ok h1 x xn (some h.length) hxn
    have S2 := Seg.setPrev_first h1 none x rest none (some h.length) xn hxr hxn S1
    have G2 : ∀ y, Heap.get (Heap.put h1 x { xn with _prev := some h.length }) y
        = if y = x then some { xn with _prev := some h.length } else Heap.get h1 y :=
      fun y => Heap.get_put h1 x y _ hl1
    have D2 : ∀ a, dataAt (Heap.put h1 x { xn with _prev := some h.length }) a = dataAt h1 a :=
      fun a => dataAt_put h1 x a xn _ hxn rfl
    have l2 : (Heap.put h1 x { xn with _prev := some h.length }).length = h.length + 1 := by
      rw [Heap.length_put, l1]
    generalize Heap.put h1 x { xn with _prev := some h.length } = h2 at e2 S2 G2 D2 l2
    have hnx : h.length ≠ x := fun e => Nat.lt_irrefl _ (e ▸ hxl)
    have G2n : Heap.get h2 h.length = some ⟨v, none, some x⟩ := by
      rw [G2, G1]
      simp [hnx]
    refine ⟨h2, ⟨some h.length, some t, incSize L._size⟩, ?_, ?_, l2, ?_, ?_, hsum⟩
    · simp only [push_front, emplace_front, hal, hT, hH, e2]
    · refine ⟨hnd', ?_, rfl, ?_, ?_, ?_⟩
      · exact ⟨⟨v, none, some x⟩, G2n, rfl, rfl, S2⟩
      · show some t = _
        rw [← hT, ht]
        rfl
      · show incSize L._size = _
        rw [hsum, hz]
        rfl
      · exact hsz
    · intro a ha
      rw [D2, D1 a ha]
    · unfold dataAt
      rw [G2n]

/-- C13. On a well-formed list with forward traversal `xs` whose count plus
one is representable in `std::size_t`, `push_back(v)` returns and makes the
traversal `xs ++ [v]`, `push_front(v)` returns and makes it `v :: xs`; each
increases `_size` by exactly 1 and leaves the list well formed.  The run of
`main` up to line 13 yields `{355,3,9,9,1,22,89,99,999}`. -/
theorem push_spec (h : Heap α) (L : DList) (ns : List Nat) (v : α) (fuel : Nat)
    (xs : List α) (hL : IsList h L ns) (hsz : ns.length + 1 < SIZE_RANGE)
    (hf : ns.length + 1 ≤ fuel) (hxs : forward h fuel L._head = .ok xs) :
    (∃ h' L' ns', push_back h L v = .ok (h', L') ∧ IsList h' L' ns' ∧
      forward h' fuel L'._head = .ok (xs ++ [v]) ∧ L'._size = L._size + 1) ∧
    (∃ h' L' ns', push_front h L v = .ok (h', L') ∧ IsList h' L' ns' ∧
      forward h' fuel L'._head = .ok (v :: xs) ∧ L'._size = L._size + 1) ∧
    (mainUpToPush >>= fun r => forward r.1 9 r.2._head)
      = .ok [355, 3, 9, 9, 1, 22, 89, 99, 999] := by
  rw [IsList.forward h L ns fuel hL (by omega)] at hxs
  cases hxs
  have hlt : ∀ a ∈ ns, a < h.length := Seg.lt_length h none ns none hL.2.1
  refine ⟨?_, ?_, rfl⟩
  · obtain ⟨h', L', hrun, hL', _, hd, hv, _, hz⟩ := push_back_spec h L ns v hL hsz
    refine ⟨h', L', _, hrun, hL', ?_, hz⟩
    rw [IsList.forward h' L' _ fuel hL' (by simpa using hf), elems_append,
      elems_congr h h' ns (fun a ha => hd a (hlt a ha))]
    simp [elems, List.filterMap_cons, hv]
  · obtain ⟨h', L', hrun, hL', _, hd, hv, hz⟩ := push_front_spec h L ns v hL hsz
    refine ⟨h', L', _, hrun, hL', ?_, hz⟩
    rw [IsList.forward h' L' _ fuel hL' (by simpa using hf)]
    have : elems h' (h.length :: ns) = v :: elems h' ns := by
      simp [elems, List.filterMap_cons, hv]
    rw [this, elems_congr h h' ns (fun a ha => hd a (hlt a ha))]

theorem push_spec_witness :
    (∃ h' L', push_back sampleHeap sampleA 7 = .ok (h', L') ∧
      forward h' 3 L'._head = .ok [1, 3, 7] ∧ L'._size = 3) ∧
    (∃ h' L', push_front sampleHeap sampleA 7 = .ok (h', L') ∧
      forward h' 3 L'._head = .ok [7, 1, 3] ∧ L'._size = 3) := by
  obtain ⟨⟨h1, L1, _, r1, _, f1, z1⟩, ⟨h2, L2, _, r2, _, f2, z2⟩, _⟩ :=
    push_spec sampleHeap sampleA [0, 1] 7 3 [1, 3] (by decide) (by decide) (by decide) rfl
  exact ⟨⟨h1, L1, r1, f1, z1⟩, ⟨h2, L2, r2, f2, z2⟩⟩

/-! ## C14: pop_front and pop_back -/

theorem dataAt_free (h : Heap α) (t a : Nat) (ha : a ≠ t) :
    dataAt (Heap.free h t) a = dataAt h a := by
  unfold dataAt
  rw [Heap.get_free]
  simp [ha]

theorem pop_front_spec (h : Heap α) (L : DList) (t : Nat) (rest : List Nat)
    (hL : IsList h L (t :: rest)) :
    ∃ h' L', pop_front h L = .ok (h', L') ∧ IsList h' L' rest ∧
      (∀ a, a ≠ t → dataAt h' a = dataAt h a) ∧ Heap.get h' t = none ∧
      h'.length = h.length ∧ L'._size = L._size - 1 := by
  obtain ⟨hnd, hs, hh, ht, hz, hb⟩ := hL
  obtain ⟨htr, hndr⟩ := List.nodup_cons.1 hnd
  have hH : L._head = some t := hh
  obtain ⟨temp, htemp, _, hnext, hrest⟩ := hs
  have hdec : decSize L._size = L._size - 1 := by
    apply decSize_pos
    · rw [hz]
      simp
    · rw [hz]
      exact hb
  have hlen : rest.length = L._size - 1 := by
    rw [hz]
    simp
  have hbr : rest.length < SIZE_RANGE := by
    simp only [List.length_cons] at hb
    omega
  cases rest with
  | nil =>
    have hn : temp._next = none := hnext
    refine ⟨Heap.free h t, ⟨none, none, decSize L._size⟩, ?_, ?_, ?_, ?_, ?_, hdec⟩
    · simp only [pop_front, hH, load_ok h t temp htemp, hn, bind_ok, pure_ok]
    · exact ⟨List.nodup_nil, trivial, rfl, rfl, by rw [hdec, ← hlen], hbr⟩
    · exact fun a ha => dataAt_free h t a ha
    · rw [Heap.get_free]
      simp
    · exact Heap.length_free h t
  | cons n rr =>
    have hn : temp._next = some n := hnext
    have hnr : n ∉ rr := (List.nodup_cons.1 hndr).1
    have hnt : n ≠ t := fun e => htr (by simp [e])
    obtain ⟨nn, hnn, _, _⟩ := Seg.head_get h _ n rr none hrest
    have e1 := setPrev_ok h n nn none hnn
    have S1 := Seg.setPrev_first h _ n rr none none nn hnr hnn hrest
    have D1 : ∀ a, dataAt (Heap.put h n { nn with _prev := none }) a = dataAt h a :=
      fun a => dataAt_put h n a nn _ hnn rfl
    have l1 : (Heap.put h n { nn with _prev := none }).length = h.length :=
      Heap.length_put h n _
    generalize Heap.put h n { nn with _prev := none } = h1 at e1 S1 D1 l1
    refine ⟨Heap.free h1 t, ⟨some n, L._tail, decSize L._size⟩, ?_, ?_, ?_, ?_, ?_, hdec⟩
    · simp only [pop_front, hH, load_ok h t temp htemp, hn, e1, bind_ok, pure_ok]
    · refine ⟨hndr, Seg.free_frame h1 none _ none t htr S1, rfl, ?_, ?_, hbr⟩
      · show L._tail = _
        rw [ht]
        rfl
      · show decSize L._size = _
        rw [hdec, ← hlen]
    · intro a ha
      rw [dataAt_free h1 t a ha, D1]
    · rw [Heap.get_free]
      simp
    · rw [Heap.length_free, l1]

theorem pop_back_spec (h : Heap α) (L : DList) (ini : List Nat) (t : Nat)
    (hL : IsList h L (ini ++ [t])) :
    ∃ h' L', pop_back h L = .ok (h', L') ∧ IsList h' L' ini ∧
      (∀ a, a ≠ t → dataAt h' a = dataAt h a) ∧ Heap.get h' t = none ∧
      h'.length = h.length ∧ L'._size = L._size - 1 := by
  obtain ⟨hnd, hs, hh, ht, hz, hb⟩ := hL
  have hnd' := List.nodup_append.1 hnd
  have hti : t ∉ ini := fun hc => hnd'.2.2 hc (by simp)
  have hT : L._tail = some t := by rw [ht, lastOr_concat]
  obtain ⟨temp, htemp, hprev, _⟩ := Seg.last_get h _ ini t _ hs
  have hini : Seg h none ini (some t) := ((Seg.append h none ini [t] none).1 hs).1
  have hdec : decSize L._size = L._size - 1 := by
    apply decSize_pos
    · rw [hz]
      simp
    · rw [hz]
      exact hb
  have hlen : ini.length = L._size - 1 := by
    rw [hz]
    simp
  have hbr : ini.length < SIZE_RANGE := by
    simp only [List.length_append, List.length_cons, List.length_nil] at hb
    omega
  by_cases hie : ini = []
  · subst hie
    have hp : temp._prev = none := hprev
    refine ⟨Heap.free h t, ⟨none, none, decSize L._size⟩, ?_, ?_, ?_, ?_, ?_, hdec⟩
    · simp only [pop_back, hT, load_ok h t temp htemp, hp, bind_ok, pure_ok]
    · exact ⟨List.nodup_nil, trivial, rfl, rfl, by rw [hdec, ← hlen], hbr⟩
    · exact fun a ha => dataAt_free h t a ha
    · rw [Heap.get_free]
      simp
    · exact Heap.length_free h t
  · obtain ⟨ii, p, e⟩ := snoc_cases ini hie
    subst e
    have hp : temp._prev = some p := by rw [hprev, lastOr_concat]
    have hpi : p ∉ ii := by
      have := List.nodup_append.1 hnd'.1
      intro hc
      exact this.2.2 hc (by simp)
    obtain ⟨pn, hpn, _, _⟩ := Seg.last_get h _ ii p _ hini
    have e1 := setNext_ok h p pn none hpn
    have S1 := Seg.setNext_last h none ii p _ none pn hpi hpn hini
    have D1 : ∀ a, dataAt (Heap.put h p { pn with _next := none }) a = dataAt h a :=
      fun a => dataAt_put h p a pn _ hpn rfl
    have l1 : (Heap.put h p { pn with _next := none }).length = h.length :=
      Heap.length_put h p _
    generalize Heap.put h p { pn with _next := none } = h1 at e1 S1 D1 l1
    refine ⟨Heap.free h1 t, ⟨L._head, some p, decSize L._size⟩, ?_, ?_, ?_, ?_, ?_, hdec⟩
    · simp only [pop_back, hT, load_ok h t temp htemp, hp, e1, bind_ok, pure_ok]
    · refine ⟨hnd'.1, Seg.free_frame h1 none _ none t hti S1, ?_, ?_, ?_, hbr⟩
      · show L._head = _
        rw [hh, firstOr_append, firstOr_append, firstOr_append]
        cases ii <;> rfl
      · show some p = _
        rw [lastOr_concat]
      · show decSize L._size = _
        rw [hdec, ← hlen]
    · intro a ha
      rw [dataAt_free h1 t a ha, D1]
    · rw [Heap.get_free]
      simp
    · rw [Heap.length_free, l1]

/-- C14. On a non-empty well-formed list with forward traversal `xs`,
`pop_front()` returns and leaves the traversal `xs.tail`, `pop_back()` returns
and leaves `xs.dropLast`; each decreases `_size` by 1 and leaves the list well
formed; when the list had one element, both leave `_head` and `_tail` null and
`_size` 0. -/
theorem pop_spec (h : Heap α) (L : DList) (ns : List Nat) (fuel : Nat) (xs : List α)
    (hL : IsList h L ns) (hne : ns ≠ []) (hf : ns.length ≤ fuel)
    (hxs : forward h fuel L._head = .ok xs) :
    (∃ h' L' ns', pop_front h L = .ok (h', L') ∧ IsList h' L' ns' ∧
      forward h' fuel L'._head = .ok xs.tail ∧ L'._size = L._size - 1 ∧
      (ns.length = 1 → L' = ⟨none, none, 0⟩)) ∧
    (∃ h' L' ns', pop_back h L = .ok (h', L') ∧ IsList h' L' ns' ∧
      forward h' fuel L'._head = .ok xs.dropLast ∧ L'._size = L._size - 1 ∧
      (ns.length = 1 → L' = ⟨none, none, 0⟩)) := by
  rw [IsList.forward h L ns fuel hL hf] at hxs
  cases hxs
  have hz := hL.2.2.2.2.1
  have hempty : ∀ (g : Heap α) (M : DList), IsList g M [] → M = ⟨none, none, 0⟩ := by
    intro g M hM
    obtain ⟨_, _, h1, h2, h3, _⟩ := hM
    cases M
    simp only [firstOr, lastOr, List.length_nil] at h1 h2 h3
    simp [h1, h2, h3]
  constructor
  · obtain ⟨t, rest, e⟩ := List.exists_cons_of_ne_nil hne
    subst e
    have hnd := hL.1
    obtain ⟨htr, _⟩ := List.nodup_cons.1 hnd
    obtain ⟨nd, hg, _⟩ := Seg.head_get h _ t rest none hL.2.1
    obtain ⟨h', L', hrun, hL', hd, _, _, hsz⟩ := pop_front_spec h L t rest hL
    refine ⟨h', L', rest, hrun, hL', ?_, hsz, ?_⟩
    · rw [IsList.forward h' L' rest fuel hL' (by simp at hf; omega), elems_cons h t rest nd hg,
        List.tail_cons]
      rw [elems_congr h h' rest (fun a ha => hd a (fun e => htr (e ▸ ha)))]
    · intro h1
      have : rest = [] := by
        cases rest with
        | nil => rfl
        | cons _ _ => simp at h1
      subst this
      exact hempty h' L' hL'
  · obtain ⟨ini, t, e⟩ := snoc_cases ns hne
    subst e
    have hnd := List.nodup_append.1 hL.1
    have hti : t ∉ ini := fun hc => hnd.2.2 hc (by simp)
    obtain ⟨nd, hg, _⟩ := Seg.last_get h _ ini t _ hL.2.1
    obtain ⟨h', L', hrun, hL', hd, _, _, hsz⟩ := pop_back_spec h L ini t hL
    refine ⟨h', L', ini, hrun, hL', ?_, hsz, ?_⟩
    · rw [IsList.forward h' L' ini fuel hL' (by simp at hf; omega), elems_append,
        elems_cons h t [] nd hg]
      have : elems h ([] : List Nat) = [] := rfl
      rw [this, List.dropLast_concat]
      rw [elems_congr h h' ini (fun a ha => hd a (fun e => hti (e ▸ ha)))]
    · intro h1
      have : ini = [] := by
        cases ini with
        | nil => rfl
        | cons _ _ => simp at h1
      subst this
      exact hempty h' L' hL'

theorem pop_spec_witness :
    (∃ h' L', pop_front sampleHeap sampleA = .ok (h', L') ∧
      forward h' 2 L'._head = .ok [3] ∧ L'._size = 1) ∧
    (∃ h' L', pop_back sampleHeap sampleA = .ok (h', L') ∧
      forward h' 2 L'._head = .ok [1] ∧ L'._size = 1) := by
  obtain ⟨⟨h1, L1, _, r1, _, f1, z1, _⟩, ⟨h2, L2, _, r2, _, f2, z2, _⟩⟩ :=
    pop_spec sampleHeap sampleA [0, 1] 2 [1, 3] (by decide) (by decide) (by decide) rfl
  exact ⟨⟨h1, L1, r1, f1, z1⟩, ⟨h2, L2, r2, f2, z2⟩⟩

/-! ## C11: failures -/

theorem frontP_agrees (h : Heap α) (L : DList) :
    (frontP (h, L)).toExcept = (front h L >>= fun x => pure ((h, L), x)) := by
  simp only [frontP, front, bind, Prog.head, Prog.load, Prog.throwOutOfRange, pure, load]
  cases L._head with
  | none => rfl
  | some a =>
    simp only
    cases Heap.get h a <;> rfl

theorem backP_agrees (h : Heap α) (L : DList) :
    (backP (h, L)).toExcept = (back h L >>= fun x => pure ((h, L), x)) := by
  simp only [backP, back, bind, Prog.tail, Prog.load, Prog.throwOutOfRange, pure, load]
  cases L._tail with
  | none => rfl
  | some a =>
    simp only
    cases Heap.get h a <;> rfl

theorem pop_frontP_agrees (h : Heap α) (L : DList) :
    (pop_frontP (h, L)).toExcept = (pop_front h L >>= fun s => pure (s, ())) := by
  cases hh : L._head with
  | none => simp [pop_frontP, pop_front, bind, Prog.head, Prog.throwOutOfRange, hh,
      Exit.toExcept, Except.bind]
  | some t =>
    cases ht : Heap.get h t with
    | none => simp [pop_frontP, pop_front, bind, Prog.head, Prog.load, load, hh, ht,
        Exit.toExcept, Except.bind]
    | some temp =>
      cases hn : temp._next with
      | none => simp [pop_frontP, pop_front, bind, Prog.head, Prog.load, load, hh, ht, hn,
          Prog.setHead, Prog.setTail, Prog.release, Prog.decrement, pure, Except.pure,
          Exit.toExcept, Except.bind]
      | some n =>
        cases hg : Heap.get h n <;>
          simp [pop_frontP, pop_front, bind, Prog.head, Prog.load, load, hh, ht, hn, hg,
            Prog.setHead, Prog.storePrev, setPrev, Prog.release, Prog.decrement, pure,
            Except.pure, Exit.toExcept, Except.bind]

theorem pop_backP_agrees (h : Heap α) (L : DList) :
    (pop_backP (h, L)).toExcept = (pop_back h L >>= fun s => pure (s, ())) := by
  cases hh : L._tail with
  | none => simp [pop_backP, pop_back, bind, Prog.tail, Prog.throwOutOfRange, hh,
      Exit.toExcept, Except.bind]
  | some t =>
    cases ht : Heap.get h t with
    | none => simp [pop_backP, pop_back, bind, Prog.tail, Prog.load, load, hh, ht,
        Exit.toExcept, Except.bind]
    | some temp =>
      cases hn : temp._prev with
      | none => simp [pop_backP, pop_back, bind, Prog.tail, Prog.load, load, hh, ht, hn,
          Prog.setHead, Prog.setTail, Prog.release, Prog.decrement, pure, Except.pure,
          Exit.toExcept, Except.bind]
      | some n =>
        cases hg : Heap.get h n <;>
          simp [pop_backP, pop_back, bind, Prog.tail, Prog.load, load, hh, ht, hn, hg,
            Prog.setTail, Prog.storeNext, setNext, Prog.release, Prog.decrement, pure,
            Except.pure, Exit.toExcept, Except.bind]

theorem eraseP_agrees (h : Heap α) (L : DList) (pos : Option Nat) :
    (eraseP pos (h, L)).toExcept = (erase h L pos >>= fun r => pure ((r.1, r.2.1), r.2.2)) := by
  cases pos with
  | none => rfl
  | some t =>
    cases ht : Heap.get h t with
    | none => simp [eraseP, erase, eraseUnlink, bind, Prog.load, load, ht, Exit.toExcept,
        Except.bind]
    | some temp =>
      cases hp : temp._prev with
      | none =>
        cases hn : temp._next with
        | none =>
          simp [eraseP, erase, eraseUnlink, bind, Prog.load, load, ht, hp, hn, Prog.setHead,
            Prog.setTail, Prog.release, Prog.decrement, pure, Except.pure, Exit.toExcept,
            Except.bind, Heap.get_free]
        | some n =>
          cases hg : Heap.get h n <;>
            simp [eraseP, erase, eraseUnlink, bind, Prog.load, load, ht, hp, hn, hg,
              Prog.setHead, Prog.storePrev, setPrev, Prog.release, Prog.decrement, pure,
              Except.pure, Exit.toExcept, Except.bind, Heap.get_free]
      | some p =>
        cases hg : Heap.get h p with
        | none =>
          simp [eraseP, erase, eraseUnlink, bind, Prog.load, load, ht, hp, hg,
            Prog.storeNext, setNext, Exit.toExcept, Except.bind]
        | some pn =>
          cases ht1 : Heap.get (Heap.put h p { pn with _next := temp._next }) t with
          | none =>
            simp [eraseP, erase, eraseUnlink, bind, Prog.load, load, ht, hp, hg, ht1,
              Prog.storeNext, setNext, Exit.toExcept, Except.bind, pure, Except.pure]
          | some temp1 =>
            cases hn : temp1._next with
            | none =>
              simp [eraseP, erase, eraseUnlink, bind, Prog.load, load, ht, hp, hg, ht1, hn,
                Prog.storeNext, setNext, Prog.setTail, Prog.release, Prog.decrement,
                Exit.toExcept, Except.bind, pure, Except.pure, Heap.get_free]
            | some n =>
              cases hg2 : Heap.get (Heap.put h p { pn with _next := temp._next }) n <;>
                simp [eraseP, erase, eraseUnlink, bind, Prog.load, load, ht, hp, hg, ht1, hn,
                  hg2, Prog.storeNext, setNext, Prog.storePrev, setPrev, Prog.release,
                  Prog.decrement, Exit.toExcept, Except.bind, pure, Except.pure,
                  Heap.get_free]


theorem IsList.size_eq_zero_iff (h : Heap α) (L : DList) (ns : List Nat) (hL : IsList h L ns) :
    (L._size = 0 ↔ L._head = none) ∧ (L._size = 0 ↔ L._tail = none) := by
  obtain ⟨_, _, hh, ht, hz, _⟩ := hL
  rw [hh, ht, hz, firstOr_eq_none, lastOr_eq_none]
  constructor <;> exact List.length_eq_zero

theorem frontP_threw (h : Heap α) (L : DList) (s : Heap α × DList) :
    frontP (h, L) = .threw s ↔ L._head = none ∧ s = (h, L) := by
  cases hh : L._head with
  | none =>
    simp only [frontP, bind, Prog.head, Prog.throwOutOfRange, hh, Exit.threw.injEq, true_and]
    exact eq_comm
  | some a =>
    cases hg : Heap.get h a <;>
      simp [frontP, bind, Prog.head, Prog.load, hh, hg, pure]

theorem backP_threw (h : Heap α) (L : DList) (s : Heap α × DList) :
    backP (h, L) = .threw s ↔ L._tail = none ∧ s = (h, L) := by
  cases hh : L._tail with
  | none =>
    simp only [backP, bind, Prog.tail, Prog.throwOutOfRange, hh, Exit.threw.injEq, true_and]
    exact eq_comm
  | some a =>
    cases hg : Heap.get h a <;>
      simp [backP, bind, Prog.tail, Prog.load, hh, hg, pure]

theorem toExcept_threw {σ β : Type} (x : Exit σ β) (s : σ) (hx : x = .threw s) :
    x.toExcept = .error .out_of_range := by
  rw [hx]
  rfl

theorem pop_frontP_threw (h : Heap α) (L : DList) (ns : List Nat) (hL : IsList h L ns)
    (s : Heap α × DList) :
    pop_frontP (h, L) = .threw s ↔ L._head = none ∧ s = (h, L) := by
  cases hh : L._head with
  | none =>
    simp only [pop_frontP, bind, Prog.head, Prog.throwOutOfRange, hh, Exit.threw.injEq,
      true_and]
    exact eq_comm
  | some a =>
    simp only [reduceCtorEq, false_and, iff_false]
    intro hc
    have h1 := toExcept_threw _ s hc
    rw [pop_frontP_agrees] at h1
    cases ns with
    | nil =>
      have := hL.2.2.1
      rw [hh] at this
      cases this
    | cons t rest =>
      obtain ⟨h', L', hrun, _⟩ := pop_front_spec h L t rest hL
      rw [hrun] at h1
      cases h1

theorem pop_backP_threw (h : Heap α) (L : DList) (ns : List Nat) (hL : IsList h L ns)
    (s : Heap α × DList) :
    pop_backP (h, L) = .threw s ↔ L._tail = none ∧ s = (h, L) := by
  cases hh : L._tail with
  | none =>
    simp only [pop_backP, bind, Prog.tail, Prog.throwOutOfRange, hh, Exit.threw.injEq,
      true_and]
    exact eq_comm
  | some a =>
    simp only [reduceCtorEq, false_and, iff_false]
    intro hc
    have h1 := toExcept_threw _ s hc
    rw [pop_backP_agrees] at h1
    by_cases hne : ns = []
    · subst hne
      have := hL.2.2.2.1
      rw [hh] at this
      cases this
    · obtain ⟨ini, t, e⟩ := snoc_cases ns hne
      subst e
      obtain ⟨h', L', hrun, _⟩ := pop_back_spec h L ini t hL
      rw [hrun] at h1
      cases h1

theorem eraseP_threw (h : Heap α) (L : DList) (pos : Option Nat) (s : Heap α × DList) :
    eraseP pos (h, L) = .threw s ↔ pos = none ∧ s = (h, L) := by
  cases pos with
  | none =>
    simp only [eraseP, Prog.throwOutOfRange, Exit.threw.injEq, true_and]
    exact eq_comm
  | some t =>
    simp only [reduceCtorEq, false_and, iff_false]
    intro hc
    have h1 := toExcept_threw _ s hc
    rw [eraseP_agrees, erase_faults] at h1
    cases h1

/-- C11. On a well-formed list, `front`, `back`, `pop_front` and `pop_back`
throw `std::out_of_range` exactly when `_size` is 0, and `erase` throws it
exactly when given the end sentinel; whenever one of them throws, the heap
(every node with its links) and the members `_head`, `_tail`, `_size` at the
`throw` are those the call started with. -/
theorem failure_spec (h : Heap α) (L : DList) (ns : List Nat) (pos : Option Nat)
    (hL : IsList h L ns) :
    ((∃ s, frontP (h, L) = .threw s) ↔ L._size = 0) ∧
    ((∃ s, backP (h, L) = .threw s) ↔ L._size = 0) ∧
    ((∃ s, pop_frontP (h, L) = .threw s) ↔ L._size = 0) ∧
    ((∃ s, pop_backP (h, L) = .threw s) ↔ L._size = 0) ∧
    ((∃ s, eraseP pos (h, L) = .threw s) ↔ pos = none) ∧
    (∀ s, frontP (h, L) = .threw s ∨ backP (h, L) = .threw s ∨
        pop_frontP (h, L) = .threw s ∨ pop_backP (h, L) = .threw s ∨
        eraseP pos (h, L) = .threw s → s = (h, L)) := by
  obtain ⟨hzh, hzt⟩ := IsList.size_eq_zero_iff h L ns hL
  refine ⟨?_, ?_, ?_, ?_, ?_, ?_⟩
  · rw [hzh]
    constructor
    · rintro ⟨s, hs⟩
      exact ((frontP_threw h L s).1 hs).1
    · intro hh
      exact ⟨(h, L), (frontP_threw h L _).2 ⟨hh, rfl⟩⟩
  · rw [hzt]
    constructor
    · rintro ⟨s, hs⟩
      exact ((backP_threw h L s).1 hs).1
    · intro hh
      exact ⟨(h, L), (backP_threw h L _).2 ⟨hh, rfl⟩⟩
  · rw [hzh]
    constructor
    · rintro ⟨s, hs⟩
      exact ((pop_frontP_threw h L ns hL s).1 hs).1
    · intro hh
      exact ⟨(h, L), (pop_frontP_threw h L ns hL _).2 ⟨hh, rfl⟩⟩
  · rw [hzt]
    constructor
    · rintro ⟨s, hs⟩
      exact ((pop_backP_threw h L ns hL s).1 hs).1
    · intro hh
      exact ⟨(h, L), (pop_backP_threw h L ns hL _).2 ⟨hh, rfl⟩⟩
  · constructor
    · rintro ⟨s, hs⟩
      exact ((eraseP_threw h L pos s).1 hs).1
    · intro hh
      exact ⟨(h, L), (eraseP_threw h L pos _).2 ⟨hh, rfl⟩⟩
  · intro s hs
    rcases hs with hs | hs | hs | hs | hs
    · exact ((frontP_threw h L s).1 hs).2
    · exact ((backP_threw h L s).1 hs).2
    · exact ((pop_frontP_threw h L ns hL s).1 hs).2
    · exact ((pop_backP_threw h L ns hL s).1 hs).2
    · exact ((eraseP_threw h L pos s).1 hs).2

theorem failure_spec_witness :
    (∃ s, pop_frontP (([] : Heap Int), DList.empty) = .threw s) ∧
    (∃ s, eraseP none (([] : Heap Int), DList.empty) = .threw s) := by
  obtain ⟨_, _, h3, _, h5, _⟩ :=
    failure_spec ([] : Heap Int) DList.empty [] none (by decide)
  exact ⟨h3.2 rfl, h5.2 rfl⟩

/-! ## C12: the size invariant -/

theorem applyOp_erase_faults (h : Heap α) (L : DList) (ns : List Nat) (k : Nat)
    (hL : IsList h L ns) (hk : k < ns.length) :
    applyOp (h, L) (.erase k : Op α) = .error .bad_access := by
  have hadd : Iterator.add h L._head k = .ok ns[k]? := by
    rw [hL.2.2.1]
    exact Iterator.add_seg h none ns k hL.2.1
  simp only [applyOp, hadd, bind_ok, List.getElem?_eq_getElem hk, erase_faults, bind_error]

theorem applyOp_spec (h : Heap α) (L : DList) (ns : List Nat) (op : Op α)
    (hL : IsList h L ns) (hsz : ns.length + 1 < SIZE_RANGE) :
    (∀ s, applyOp (h, L) op = .ok s → ∃ ns', IsList s.1 s.2 ns' ∧ ns'.length ≤ ns.length + 1) ∧
    (op.valid L._size → (∀ k, op ≠ .erase k) → ∃ s, applyOp (h, L) op = .ok s) := by
  have hz := hL.2.2.2.2.1
  have hadd : ∀ k, Iterator.add h L._head k = .ok ns[k]? := by
    intro k
    rw [hL.2.2.1]
    exact Iterator.add_seg h none ns k hL.2.1
  cases op with
  | push_front v =>
    obtain ⟨h', L', hrun, hL', _⟩ := push_front_spec h L ns v hL hsz
    refine ⟨?_, fun _ _ => ⟨_, hrun⟩⟩
    intro s hs
    have : applyOp (h, L) (.push_front v) = push_front h L v := rfl
    rw [this, hrun] at hs
    cases hs
    exact ⟨_, hL', by simp⟩
  | push_back v =>
    obtain ⟨h', L', hrun, hL', _⟩ := push_back_spec h L ns v hL hsz
    refine ⟨?_, fun _ _ => ⟨_, hrun⟩⟩
    intro s hs
    have : applyOp (h, L) (.push_back v) = push_back h L v := rfl
    rw [this, hrun] at hs
    cases hs
    exact ⟨_, hL', by simp⟩
  | pop_front =>
    have e : applyOp (h, L) (.pop_front : Op α) = pop_front h L := rfl
    cases ns with
    | nil =>
      have hh : L._head = none := hL.2.2.1
      refine ⟨?_, ?_⟩
      · intro s hs
        rw [e] at hs
        simp [pop_front, hh] at hs
      · intro hv _
        have : 0 < L._size := hv
        rw [hz] at this
        simp at this
    | cons t rest =>
      obtain ⟨h', L', hrun, hL', _⟩ := pop_front_spec h L t rest hL
      refine ⟨?_, fun _ _ => ⟨_, e.trans hrun⟩⟩
      intro s hs
      rw [e, hrun] at hs
      cases hs
      exact ⟨_, hL', by simp; omega⟩
  | pop_back =>
    have e : applyOp (h, L) (.pop_back : Op α) = pop_back h L := rfl
    by_cases hne : ns = []
    · subst hne
      have hh : L._tail = none := hL.2.2.2.1
      refine ⟨?_, ?_⟩
      · intro s hs
        rw [e] at hs
        simp [pop_back, hh] at hs
      · intro hv _
        have : 0 < L._size := hv
        rw [hz] at this
        simp at this
    · obtain ⟨ini, t, e1⟩ := snoc_cases ns hne
      subst e1
      obtain ⟨h', L', hrun, hL', _⟩ := pop_back_spec h L ini t hL
      refine ⟨?_, fun _ _ => ⟨_, e.trans hrun⟩⟩
      intro s hs
      rw [e, hrun] at hs
      cases hs
      exact ⟨_, hL', by simp; omega⟩
  | insert k v =>
    have e : applyOp (h, L) (.insert k v) = (insert h L ns[k]? v >>= fun r =>
        pure (r.1, r.2.1)) := by
      simp only [applyOp, hadd k, bind_ok]
    by_cases hk : k < ns.length
    · have hdec : ns = ns.take k ++ ns[k] :: ns.drop (k + 1) := by
        rw [← List.drop_eq_getElem_cons hk, List.take_append_drop]
      obtain ⟨h', L', hrun, hL', _⟩ :=
        emplace_at_node h L (ns.take k) ns[k] (ns.drop (k + 1)) v (hdec ▸ hL)
          (by rw [← hdec]; exact hsz)
      have hrun' : applyOp (h, L) (.insert k v) = .ok (h', L') := by
        rw [e, List.getElem?_eq_getElem hk]
        simp only [insert, hrun, bind_ok, pure_ok]
      refine ⟨?_, fun _ _ => ⟨_, hrun'⟩⟩
      intro s hs
      rw [hrun'] at hs
      cases hs
      refine ⟨_, hL', ?_⟩
      have := congrArg List.length hdec
      simp only [List.length_append, List.length_cons] at this ⊢
      omega
    · refine ⟨?_, ?_⟩
      · intro s hs
        rw [e, List.getElem?_eq_none (by omega)] at hs
        simp [insert, emplace, bind_error] at hs
      · intro hv _
        have : k < L._size := hv
        rw [hz] at this
        exact absurd this hk
  | erase k =>
    refine ⟨?_, fun _ hne => absurd rfl (hne k)⟩
    intro s hs
    by_cases hk : k < ns.length
    · rw [applyOp_erase_faults h L ns k hL hk] at hs
      cases hs
    · simp only [applyOp, hadd k, bind_ok, List.getElem?_eq_none (Nat.le_of_not_lt hk),
        erase, bind_error] at hs
      cases hs

theorem runOps_spec (ops : List (Op α)) (h : Heap α) (L : DList) (ns : List Nat)
    (s : Heap α × DList) (hL : IsList h L ns) (hsz : ns.length + ops.length < SIZE_RANGE)
    (hrun : runOps (h, L) ops = .ok s) :
    ∃ ns', IsList s.1 s.2 ns' ∧ ns'.length ≤ ns.length + ops.length := by
  induction ops generalizing h L ns with
  | nil =>
    cases hrun
    exact ⟨ns, hL, by simp⟩
  | cons op ops ih =>
    simp only [List.length_cons] at hsz
    cases hstep : applyOp (h, L) op with
    | error e =>
      simp [runOps, hstep] at hrun
    | ok s1 =>
      simp only [runOps, hstep] at hrun
      obtain ⟨ns1, hL1, hlen1⟩ := (applyOp_spec h L ns op hL (by omega)).1 s1 hstep
      obtain ⟨ns', hL', hlen'⟩ := ih s1.1 s1.2 ns1 hL1 (by omega) hrun
      refine ⟨ns', hL', ?_⟩
      simp only [List.length_cons]
      omega

/-- Every state that a sequence of fewer than `2^64 - 1` operations, started on
the empty list, returns in is a well-formed list: the forward and the backward
count equal `_size`, and `_head` is null iff `_tail` is null iff `_size` is 0.
On such a state every push, every pop of a non-empty list and every `insert`
at a node position returns, and every `erase` at a node position ends in the
access to the node it has deleted. -/
theorem runOps_invariant (ops : List (Op α)) (h : Heap α) (L : DList)
    (hb : ops.length + 1 < SIZE_RANGE)
    (hrun : runOps (([] : Heap α), DList.empty) ops = .ok (h, L)) :
    (∃ xs ys, forward h L._size L._head = .ok xs ∧ xs.length = L._size ∧
      backward h L._size L._tail = .ok ys ∧ ys.length = L._size) ∧
    (L._head = none ↔ L._tail = none) ∧ (L._tail = none ↔ L._size = 0) ∧
    (∀ op : Op α, op.valid L._size → (∀ k, op ≠ .erase k) →
      ∃ s, applyOp (h, L) op = .ok s) ∧
    (∀ k, k < L._size → applyOp (h, L) (.erase k : Op α) = .error .bad_access) := by
  have h0 : IsList ([] : Heap α) DList.empty [] :=
    ⟨List.nodup_nil, trivial, rfl, rfl, rfl, by decide⟩
  obtain ⟨ns, hL, hlen⟩ := runOps_spec ops [] DList.empty [] (h, L) h0
    (by simp only [List.length_nil]; omega) hrun
  simp only [List.length_nil, Nat.zero_add] at hlen
  have hz := hL.2.2.2.2.1
  obtain ⟨hzh, hzt⟩ := IsList.size_eq_zero_iff h L ns hL
  refine ⟨⟨elems h ns, (elems h ns).reverse, ?_, ?_, ?_, ?_⟩, ?_, ?_, ?_, ?_⟩
  · exact IsList.forward h L ns _ hL (by rw [hz])
  · rw [elems_length h none ns none hL.2.1, hz]
  · exact IsList.backward h L ns _ hL (by rw [hz])
  · rw [List.length_reverse, elems_length h none ns none hL.2.1, hz]
  · rw [← hzh, ← hzt]
  · exact hzt.symm
  · intro op hv hne
    exact (applyOp_spec h L ns op hL (by omega)).2 hv hne
  · intro k hk
    exact applyOp_erase_faults h L ns k hL (by rw [← hz]; exact hk)

theorem runOps_invariant_sample :
    ∃ xs ys, forward sampleOpsHeap 1 (some 2) = .ok xs ∧ xs.length = 1 ∧
      backward sampleOpsHeap 1 (some 2) = .ok ys ∧ ys.length = 1 :=
  (runOps_invariant sampleOps sampleOpsHeap ⟨some 2, some 2, 1⟩ (by decide) rfl).1

theorem mergeLoop_spins (f : Nat) :
    mergeLoop leInt f loopHeapAfter ⟨some 1, some 0, 1⟩ (some 1) (some 2) = .error .fuel := by
  induction f with
  | zero => rfl
  | succ n ih =>
    show mergeLoop leInt n loopHeapAfter ⟨some 1, some 0, 1⟩ (some 1) (some 2) = _
    exact ih

/-- C17. The lists `A = {3}` and `B = {1, 2}` are distinct, well formed and
sorted ascending.  `A.merge(B)` does not terminate: whatever number of
iterations the loop is allowed, it uses them all without reaching its exit. -/
theorem merge_does_not_terminate (fuel : Nat) :
    twoLists [(3 : Int)] [1, 2] = .ok (loopHeap, loopA, loopB) ∧
    IsList loopHeap loopA [0] ∧ IsList loopHeap loopB [1, 2] ∧
    merge leInt fuel loopHeap loopA loopB = .error .fuel := by
  refine ⟨rfl, by decide, by decide, ?_⟩
  cases fuel with
  | zero => rfl
  | succ f =>
    have h1 : mergeLoop leInt (f + 1) loopHeap loopA loopA._head loopB._head
        = mergeLoop leInt f loopHeapAfter ⟨some 1, some 0, 1⟩ (some 1) (some 2) := rfl
    simp only [merge, h1, mergeLoop_spins, bind_error]

/-- C15. After `A.merge(B)` on the well-formed sorted lists `A = {1, 3}` and
`B = {2}` the receiver violates the invariants: `_size` is 3 while only 2 nodes
are reachable from `_head`, and the node after the head node (address 1) has
`_prev` pointing at address 2 instead of the head node (address 0).  The
receiver does not satisfy `Invariants`, and no node sequence makes it well
formed. -/
theorem merge_breaks_invariants :
    IsList sampleHeap sampleA [0, 1] ∧ IsList sampleHeap sampleB [2] ∧
    merge leInt 10 sampleHeap sampleA sampleB = .ok mergedSample ∧
    mergedSample.2.1._size = 3 ∧
    forward mergedSample.1 10 mergedSample.2.1._head = .ok [1, 3] ∧
    mergedSample.2.1._head = some 0 ∧
    Heap.get mergedSample.1 0 = some ⟨1, none, some 1⟩ ∧
    Heap.get mergedSample.1 1 = some ⟨3, some 2, none⟩ ∧
    ¬ Invariants mergedSample.1 mergedSample.2.1 ∧
    (∀ ns, ¬ IsList mergedSample.1 mergedSample.2.1 ns) := by
  refine ⟨by decide, by decide, rfl, rfl, rfl, rfl, rfl, rfl, ?_, ?_⟩
  · rintro ⟨_, _, _, _, ns, hn, hlen, _⟩
    have hn' : nodesFrom mergedSample.1 mergedSample.2.1._size mergedSample.2.1._head
        = .ok [0, 1] := rfl
    rw [hn'] at hn
    have he : ns = [0, 1] := (Except.ok.inj hn).symm
    rw [he] at hlen
    cases hlen
  intro ns hL
  have hz : ns.length = 3 := hL.2.2.2.2.1.symm
  have hf := IsList.forward mergedSample.1 mergedSample.2.1 ns 10 hL (by omega)
  have hf' : forward mergedSample.1 10 mergedSample.2.1._head = .ok [1, 3] := rfl
  rw [hf'] at hf
  have he : elems mergedSample.1 ns = [1, 3] := (Except.ok.inj hf).symm
  have hl := elems_length mergedSample.1 none ns none hL.2.1
  rw [he, hz] at hl
  cases hl

/-- C18. `A.merge(B)` with the empty receiver `A` and `B = {4, 5}`: the call
returns with `A._size` 2, `A._tail` the last node of `B` and `B` empty, but
`A._head` is still null, so the forward traversal of `A` from `_head` is empty
instead of `{4, 5}`. -/
theorem merge_into_empty_keeps_head_null :
    twoLists [] [(4 : Int), 5] = .ok (tailHeap, DList.empty, tailB) ∧
    IsList tailHeap DList.empty [] ∧ IsList tailHeap tailB [0, 1] ∧
    forward tailHeap 10 tailB._head = .ok [4, 5] ∧
    merge leInt 10 tailHeap DList.empty tailB
      = .ok (tailHeap, ⟨none, some 1, 2⟩, DList.empty) ∧
    forward tailHeap 10 (none : Option Nat) = .ok [] :=
  ⟨rfl, by decide, by decide, rfl, rfl, rfl⟩

theorem mergeLoop_empty_receiver (le : α → α → Bool) (fuel : Nat) (h : Heap α) (A : DList)
    (oc : Option Nat) : mergeLoop le fuel h A none oc = .ok (h, A, oc) := by
  cases fuel <;> rfl

theorem merge_empty_receiver (le : α → α → Bool) (fuel : Nat) (h : Heap α) (B : DList)
    (nsB : List Nat) (hB : IsList h B nsB) (hne : nsB ≠ []) :
    ∃ h', merge le fuel h DList.empty B = .ok (h', ⟨none, B._tail, B._size⟩, DList.empty) ∧
      forward h' fuel (none : Option Nat) = .ok [] := by
  obtain ⟨b0, rest, e⟩ := List.exists_cons_of_ne_nil hne
  subst e
  obtain ⟨nd, hg, _⟩ := Seg.head_get h _ b0 rest none hB.2.1
  have hh : B._head = some b0 := hB.2.2.1
  have hz : addSize 0 B._size = B._size := by
    unfold addSize
    rw [Nat.zero_add, hB.2.2.2.2.1]
    exact Nat.mod_eq_of_lt hB.2.2.2.2.2
  refine ⟨Heap.put h b0 { nd with _prev := none }, ?_, by cases fuel <;> rfl⟩
  simp only [merge, DList.empty, mergeLoop_empty_receiver, hh, bind_ok, pure_ok,
    setPrev_ok h b0 nd none hg, hz]

/-! ## C16: splice keeps the invariants -/

theorem nodesFrom_of_seg (h : Heap α) (pv : Option Nat) (ns : List Nat) (fuel : Nat)
    (hs : Seg h pv ns none) (hf : ns.length ≤ fuel) :
    nodesFrom h fuel (firstOr ns none) = .ok ns := by
  induction ns generalizing pv fuel with
  | nil => cases fuel <;> rfl
  | cons a rest ih =>
    obtain ⟨nd, h1, _, h3, h4⟩ := hs
    cases fuel with
    | zero => simp at hf
    | succ f =>
      have hf' : rest.length ≤ f := by simpa using hf
      show nodesFrom h (f + 1) (some a) = _
      simp only [nodesFrom, load_ok h a nd h1, h3, ih _ f h4 hf']

theorem Seg.next_prev (h : Heap α) (pv : Option Nat) (ns : List Nat) (hs : Seg h pv ns none)
    (a : Nat) (ha : a ∈ ns) (nd : Node α) (b : Nat) (hg : Heap.get h a = some nd)
    (hn : nd._next = some b) : ∃ nb, Heap.get h b = some nb ∧ nb._prev = some a := by
  induction ns generalizing pv with
  | nil => cases ha
  | cons x rest ih =>
    obtain ⟨xd, h1, _, h3, h4⟩ := hs
    by_cases hax : a = x
    · subst hax
      rw [hg] at h1
      cases h1
      rw [hn] at h3
      cases rest with
      | nil => cases h3
      | cons y rr =>
        have : b = y := by
          simp only [firstOr] at h3
          exact Option.some.inj h3
        subst this
        obtain ⟨nb, hb1, hb2, _⟩ := Seg.head_get h _ b rr none h4
        exact ⟨nb, hb1, hb2⟩
    · rcases List.mem_cons.1 ha with e | hm
      · exact absurd e hax
      · exact ih _ h4 hm

theorem IsList.invariants (h : Heap α) (L : DList) (ns : List Nat) (hL : IsList h L ns) :
    Invariants h L := by
  obtain ⟨hzh, hzt⟩ := IsList.size_eq_zero_iff h L ns hL
  obtain ⟨_, hs, hh, ht, hz, _⟩ := hL
  refine ⟨by rw [← hzh, ← hzt], hzt.symm, ?_, ?_, ns, ?_, hz.symm, ?_⟩
  · intro a ha
    rw [hh] at ha
    cases ns with
    | nil => cases ha
    | cons x rest =>
      have : x = a := Option.some.inj ha
      subst this
      obtain ⟨nd, h1, h2, _⟩ := Seg.head_get h _ x rest none hs
      exact ⟨nd, h1, h2⟩
  · intro a ha
    rw [ht] at ha
    by_cases hne : ns = []
    · subst hne
      cases ha
    · obtain ⟨ini, t, e⟩ := snoc_cases ns hne
      subst e
      rw [lastOr_concat] at ha
      have : t = a := Option.some.inj ha
      subst this
      obtain ⟨nd, h1, _, h3⟩ := Seg.last_get h _ ini t _ hs
      exact ⟨nd, h1, h3⟩
  · rw [hh]
    exact nodesFrom_of_seg h none ns _ hs (by rw [hz])
  · intro a ha nd b hg hn
    exact Seg.next_prev h none ns hs a ha nd b hg hn

/-- C16. `A.splice(p, B)` on well-formed lists `A` and `B` without a common
node, with `p` the node of `A` at index `k` or the end sentinel (`k = len(A)`)
and the total count representable in `std::size_t`: the call returns and both
lists are well formed again (`B` as the empty list), hence both satisfy the
listed invariants. -/
theorem splice_preserves_invariants (h : Heap α) (A B : DList) (nsA nsB : List Nat) (k : Nat)
    (hA : IsList h A nsA) (hB : IsList h B nsB) (hdisj : ∀ a ∈ nsA, a ∉ nsB)
    (hk : k ≤ nsA.length) (hsz : nsA.length + nsB.length < SIZE_RANGE) :
    ∃ h' A' B', splice h A nsA[k]? B = .ok (h', A', B') ∧
      IsList h' A' (nsA.take k ++ nsB ++ nsA.drop k) ∧ IsList h' B' [] ∧
      Invariants h' A' ∧ Invariants h' B' := by
  have hempty : ∀ g : Heap α, IsList g ⟨none, none, 0⟩ [] :=
    fun g => ⟨List.nodup_nil, trivial, rfl, rfl, rfl, by decide⟩
  have fin : ∀ h' A', IsList h' A' (nsA.take k ++ nsB ++ nsA.drop k) →
      IsList h' A' (nsA.take k ++ nsB ++ nsA.drop k) ∧ IsList h' ⟨none, none, 0⟩ [] ∧
      Invariants h' A' ∧ Invariants h' ⟨none, none, 0⟩ :=
    fun h' A' hL => ⟨hL, hempty h', IsList.invariants h' A' _ hL,
      IsList.invariants h' _ [] (hempty h')⟩
  by_cases hne : nsB = []
  · subst hne
    have hB0 : B = ⟨none, none, 0⟩ := by
      obtain ⟨_, _, hh, ht, hz, _⟩ := hB
      cases B
      simp only [firstOr, lastOr, List.length_nil] at hh ht hz
      simp [hh, ht, hz]
    have hL : IsList h A (nsA.take k ++ [] ++ nsA.drop k) := by
      simpa using hA
    subst hB0
    exact ⟨h, A, _, by simp [splice], fin h A hL⟩
  · rcases Nat.lt_or_ge k nsA.length with hlt | hge
    · have hdec : nsA = nsA.take k ++ nsA[k] :: nsA.drop (k + 1) := by
        rw [← List.drop_eq_getElem_cons hlt, List.take_append_drop]
      have hdrop : nsA.drop k = nsA[k] :: nsA.drop (k + 1) := List.drop_eq_getElem_cons hlt
      obtain ⟨h', A', hrun, hL, _⟩ := splice_at_node h A B (nsA.take k) nsA[k]
        (nsA.drop (k + 1)) nsB (hdec ▸ hA) hB (hdec ▸ hdisj) (by rw [← hdec]; exact hsz) hne
      rw [← hdrop] at hL
      refine ⟨h', A', _, ?_, fin h' A' hL⟩
      rw [List.getElem?_eq_getElem hlt]
      exact hrun
    · have hkeq : k = nsA.length := by omega
      subst hkeq
      obtain ⟨h', A', hrun, hL, _⟩ := splice_at_end h A B nsA nsB hA hB hdisj hsz hne
      have hL' : IsList h' A' (nsA.take nsA.length ++ nsB ++ nsA.drop nsA.length) := by
        simpa using hL
      refine ⟨h', A', _, ?_, fin h' A' hL'⟩
      rw [List.getElem?_eq_none (Nat.le_refl _)]
      exact hrun

theorem splice_preserves_invariants_witness :
    ∃ h' A' B', splice sampleHeap sampleA (some 1) sampleB = .ok (h', A', B') ∧
      Invariants h' A' ∧ Invariants h' B' := by
  obtain ⟨h', A', B', hrun, _, _, hiA, hiB⟩ :=
    splice_preserves_invariants sampleHeap sampleA sampleB [0, 1] [2] 1 (by decide)
      (by decide) (by decide) (by decide) (by decide)
  exact ⟨h', A', B', hrun, hiA, hiB⟩

/-! ## C20: unique without equal neighbours -/

theorem uniqueLoop_of_no_equal_neighbours [DecidableEq α] (h : Heap α) (L : DList)
    (pv : Option Nat) (a : Nat) (rest : List Nat) (fuel : Nat)
    (hs : Seg h pv (a :: rest) none)
    (hch : List.Chain' (fun x y => x ≠ y) (elems h (a :: rest)))
    (hf : rest.length ≤ fuel) :
    uniqueLoop fuel h L (some a) (firstOr rest none) = .ok (h, L) := by
  induction rest generalizing pv a fuel with
  | nil => cases fuel <;> rfl
  | cons b rr ih =>
    cases fuel with
    | zero => simp at hf
    | succ f =>
      have hf' : rr.length ≤ f := by simpa using hf
      obtain ⟨na, hga, _, hna, hrest⟩ := hs
      obtain ⟨nb, hgb, _, hnb⟩ := Seg.head_get h _ b rr none hrest
      rw [elems_cons h a _ na hga, elems_cons h b rr nb hgb] at hch
      have hne : na._data ≠ nb._data := (List.chain'_cons.1 hch).1
      have hch' : List.Chain' (fun x y => x ≠ y) (elems h (b :: rr)) := by
        rw [elems_cons h b rr nb hgb]
        exact (List.chain'_cons.1 hch).2
      have hrec := ih (some a) b f hrest hch' hf'
      show uniqueLoop (f + 1) h L (some a) (some b) = _
      have hna' : na._next = some b := hna
      simp only [uniqueLoop, nonNull, load_ok h a na hga, load_ok h b nb hgb, bind_ok, hne,
        if_false, hna', hnb]
      exact hrec

/-- C20. On a well-formed list in which no two adjacent elements are equal
(every list of fewer than two elements is such a list), `unique()` returns and
leaves the heap and the list object exactly as they were: the same `_head`,
`_tail`, `_size`, node links and elements. -/
theorem unique_without_equal_neighbours [DecidableEq α] (h : Heap α) (L : DList)
    (ns : List Nat) (fuel : Nat) (xs : List α)
    (hL : IsList h L ns) (hf : ns.length ≤ fuel) (hxs : forward h fuel L._head = .ok xs)
    (hch : List.Chain' (fun x y => x ≠ y) xs) :
    unique fuel h L = .ok (h, L) := by
  rw [IsList.forward h L ns fuel hL hf] at hxs
  have he : elems h ns = xs := Except.ok.inj hxs
  rw [← he] at hch
  have hz := hL.2.2.2.2.1
  by_cases hlt : L._size < 2
  · simp only [unique, hlt, if_true]
  · cases ns with
    | nil =>
      rw [hz] at hlt
      simp at hlt
    | cons a rest =>
      obtain ⟨na, hga, _, hna, _⟩ := hL.2.1
      have hh : L._head = some a := hL.2.2.1
      simp only [unique, hlt, if_false, hh, nonNull, load_ok h a na hga, bind_ok, hna]
      exact uniqueLoop_of_no_equal_neighbours h L none a rest fuel hL.2.1 hch
        (by simp at hf; omega)

theorem unique_without_equal_neighbours_witness :
    unique 2 sampleHeap sampleA = .ok (sampleHeap, sampleA) :=
  unique_without_equal_neighbours sampleHeap sampleA [0, 1] 2 [1, 3] (by decide) (by decide)
    rfl (by simp)

end DoublyLinkedList
